import Mathlib

/-!
Verification of the registry resolution and installation engine of the
`better-slop/opencode` repository, against its natural-language specification.

The development shallowly embeds the Result-based ("hardened") variants of the
registry core: the JSONC patcher (`jsonc.ts`), manifest validation
(`registry.ts`, `parseV1`), the dependency resolver
(`resolveRegistryTreeEffect`), the planner (`install.ts`, `planInstalls`) and
the installer (`applyInstallPlansEffect`).  Strings scanned by the JSONC
patcher are modelled as `List Char`; filesystem paths stay `String` and the
relevant fragment of Node's `path.posix` module is embedded alongside.
Filesystem and process effects are modelled by an explicit oracle (`World`)
answering each primitive operation, with the list of performed operations
collected as a trace.  JavaScript numbers appearing in JSON values are
modelled as integers (the code only ever compares `schemaVersion === 1` and
re-serialises numbers verbatim).
-/

set_option maxHeartbeats 1600000

/-- Result container from `result.ts`: two tagged variants `Ok`/`Err`. -/
inductive Result (α : Type) (ε : Type) where
  | ok (value : α)
  | err (error : ε)
deriving Repr, DecidableEq

/-- JavaScript values as produced by `JSON.parse` / consumed by
`JSON.stringify` (numbers restricted to integers, see file header). -/
inductive JSVal where
  | undef
  | jnull
  | jbool (b : Bool)
  | jnum (n : Int)
  | jstr (s : List Char)
  | jarr (elems : List JSVal)
  | jobj (fields : List (List Char × JSVal))
deriving Repr

/-! ## Node `path.posix` model

The fragment of Node's `path.posix` used by `install.ts`:
`isAbsolute`, `normalize`, `join`, `dirname`, `resolve`, `relative`.
`resolve`/`relative` take the process working directory explicitly; the
embedding assumes it is an absolute path, as it always is at runtime. -/

/-- `String.startsWith`, computed on the character lists (the `String`
primitives do not reduce in the kernel). -/
def strStarts (p pre : String) : Bool := pre.data.isPrefixOf p.data

/-- `String.prototype.endsWith("/")`. -/
def strEndsSlash (p : String) : Bool := p.data.getLast? = some '/'

def splitSlashAux (cur : List Char) : List Char → List String
  | [] => [⟨cur.reverse⟩]
  | c :: rest =>
    if c = '/' then ⟨cur.reverse⟩ :: splitSlashAux [] rest
    else splitSlashAux (c :: cur) rest

/-- `p.split("/")` (= `String.splitOn "/"`). -/
def splitSlash (p : String) : List String := splitSlashAux [] p.data

def pathIsAbsolute (p : String) : Bool := strStarts p "/"

/-- Join path segments with `/` (JS `Array.prototype.join("/")`). -/
def joinSegs : List String → String
  | [] => ""
  | [s] => s
  | s :: rest => s ++ "/" ++ joinSegs rest

/-- Node `normalizeString`: resolve `.` and `..` segments; `allowUp` is
`allowAboveRoot` (true for relative paths). -/
def normSegsAcc (allowUp : Bool) : List String → List String → List String
  | acc, [] => acc.reverse
  | acc, seg :: rest =>
    if seg = "" ∨ seg = "." then normSegsAcc allowUp acc rest
    else if seg = ".." then
      match acc with
      | [] => if allowUp then normSegsAcc allowUp [".."] rest else normSegsAcc allowUp [] rest
      | top :: acc2 =>
        if top = ".." then
          (if allowUp then normSegsAcc allowUp (".." :: acc) rest
           else normSegsAcc allowUp (top :: acc2) rest)
        else normSegsAcc allowUp acc2 rest
    else normSegsAcc allowUp (seg :: acc) rest

def posixNormalize (p : String) : String :=
  if p = "" then "."
  else
    let abs := strStarts p "/"
    let trail := strEndsSlash p
    let segs := normSegsAcc (!abs) [] (splitSlash p)
    if segs = [] then
      (if abs then "/" else if trail then "./" else ".")
    else
      let core := joinSegs segs
      let core2 := if trail then core ++ "/" else core
      if abs then "/" ++ core2 else core2

def posixJoin (parts : List String) : String :=
  let ps := parts.filter (fun s => s ≠ "")
  if ps = [] then "." else posixNormalize (joinSegs ps)

/-- Scan of `path.posix.dirname`: the index of the `/` separating the last
component, ignoring trailing slashes; scans indices down to 1. -/
def dirScanGo (p : List Char) : Nat → Bool → Option Nat
  | 0, _ => none
  | i + 1, matched =>
    if p.get? (i + 1) = some '/' then
      (if matched then dirScanGo p i matched else some (i + 1))
    else dirScanGo p i false

def posixDirname (p : String) : String :=
  if p = "" then "."
  else
    let cs := p.data
    let hasRoot := strStarts p "/"
    match dirScanGo cs (cs.length - 1) true with
    | none => if hasRoot then "/" else "."
    | some e => if hasRoot ∧ e = 1 then "//" else ⟨cs.take e⟩

/-- `path.posix.resolve(base, p)` for an absolute `base`. -/
def posixResolve (base p : String) : String :=
  let joined := if pathIsAbsolute p then p else base ++ "/" ++ p
  let segs := normSegsAcc false [] (splitSlash joined)
  if segs = [] then "/" else "/" ++ joinSegs segs

def splitAbs (p : String) : List String := (splitSlash p).filter (fun s => s ≠ "")

def commonCount : List String → List String → Nat
  | a :: as, b :: bs => if a = b then 1 + commonCount as bs else 0
  | _, _ => 0

/-- `path.posix.relative(a, b)` with the working directory `cwd` explicit. -/
def posixRelative (cwd a b : String) : String :=
  if a = b then ""
  else
    let fa := posixResolve cwd a
    let ta := posixResolve cwd b
    if fa = ta then ""
    else
      let fs := splitAbs fa
      let ts := splitAbs ta
      let c := commonCount fs ts
      joinSegs (List.replicate (fs.length - c) ".." ++ ts.drop c)

/-! ## Registry data model (`types.ts`) -/

inductive OCXItemKind where
  | tool
  | agent
  | command
  | themes
deriving Repr, DecidableEq

def kindStr : OCXItemKind → String
  | .tool => "tool"
  | .agent => "agent"
  | .command => "command"
  | .themes => "themes"

inductive FileMode where
  | m644
  | m755
deriving Repr, DecidableEq

structure RegFile where
  path : String
  content : String
  mode : Option FileMode
deriving Repr, DecidableEq

structure PostinstallSpec where
  commands : List String
  cwd : Option String
deriving Repr, DecidableEq

structure RegistryItemV1 where
  kind : OCXItemKind
  name : String
  description : Option String
  registryDependencies : List String
  files : List RegFile
  entry : Option String
  postinstall : Option PostinstallSpec
deriving Repr, DecidableEq

structure ResolvedItem where
  item : RegistryItemV1
  source : String
deriving Repr, DecidableEq

inductive ConfigRootKind where
  | project
  | global
deriving Repr, DecidableEq

structure ConfigRoot where
  kind : ConfigRootKind
  rootDir : String
  opencodeDir : String
  configPath : String
deriving Repr, DecidableEq

/-! ## Error taxonomy (`errors.ts`) -/

structure RegistryItemParseError where
  message : String
deriving Repr, DecidableEq

inductive InstallError where
  | noPlans
  | missingConfigRoot
  | invalidRegistryFilePath (path : String) (message : String)
  | writeOutsideTargetDir (path : String)
  | targetAlreadyExists (path : String)
  | ioError (operation : String) (path : Option String) (cause : String)
  | postinstallFailed (cmd : String) (code : Int)
  | jsoncError (message : String)
deriving Repr, DecidableEq

/-! ## Manifest validation: `parseV1` (`registry.ts`) -/

/-- JavaScript whitespace recognised by `String.prototype.trim` (ASCII part). -/
def isJsWs (c : Char) : Bool :=
  c = ' ' ∨ c = '\t' ∨ c = '\n' ∨ c = '\r' ∨ c = Char.ofNat 11 ∨ c = Char.ofNat 12

def trimChars (s : List Char) : List Char :=
  ((s.dropWhile isJsWs).reverse.dropWhile isJsWs).reverse

/-- JS member access `obj.field` on a parsed-JSON object (keys unique). -/
def getField : List (List Char × JSVal) → List Char → JSVal
  | [], _ => .undef
  | (k, v) :: rest, key => if k = key then v else getField rest key

def jsvField (raw : JSVal) (key : List Char) : JSVal :=
  match raw with
  | .jobj fields => getField fields key
  | _ => .undef

def isRecordJS : JSVal → Bool
  | .jobj _ => true
  | _ => false

def parseErr {α : Type} (message : String) : Result α RegistryItemParseError :=
  .err ⟨message⟩

def mapResult {α β ε : Type} (res : Result α ε) (fn : α → β) : Result β ε :=
  match res with
  | .err e => .err e
  | .ok v => .ok (fn v)

def parseOptionalString (val : JSVal) (field : String) :
    Result (Option String) RegistryItemParseError :=
  match val with
  | .undef => .ok none
  | .jstr s => .ok (some ⟨s⟩)
  | _ => parseErr ("Invalid registry item: " ++ field ++ " must be string")

def allStringsJS : List JSVal → Option (List String)
  | [] => some []
  | .jstr s :: rest => (allStringsJS rest).map (fun t => (⟨s⟩ : String) :: t)
  | _ => none

def parseStringArray (val : JSVal) (field : String) :
    Result (List String) RegistryItemParseError :=
  match val with
  | .undef => .ok []
  | .jarr elems =>
    match allStringsJS elems with
    | some ss => .ok ss
    | none => parseErr ("Invalid registry item: " ++ field ++ " must be string[]")
  | _ => parseErr ("Invalid registry item: " ++ field ++ " must be string[]")

def parseOneFileV1 (f : JSVal) : Result RegFile RegistryItemParseError :=
  match f with
  | .jobj fields =>
    match getField fields "path".data, getField fields "content".data with
    | .jstr p, .jstr content =>
      if p.length = 0 then parseErr "Invalid registry item: file.path must be string"
      else
        match getField fields "mode".data with
        | .undef => .ok ⟨⟨p⟩, ⟨content⟩, none⟩
        | .jstr m =>
          if m = "0644".data then .ok ⟨⟨p⟩, ⟨content⟩, some .m644⟩
          else if m = "0755".data then .ok ⟨⟨p⟩, ⟨content⟩, some .m755⟩
          else parseErr "Invalid registry item: file.mode must be 0644|0755"
        | _ => parseErr "Invalid registry item: file.mode must be 0644|0755"
    | .jstr p, _ =>
      if p.length = 0 then parseErr "Invalid registry item: file.path must be string"
      else parseErr "Invalid registry item: file.content must be string"
    | _, _ => parseErr "Invalid registry item: file.path must be string"
  | _ => parseErr "Invalid registry item: file must be object"

def parseFilesV1 : List JSVal → Result (List RegFile) RegistryItemParseError
  | [] => .ok []
  | f :: rest =>
    match parseOneFileV1 f with
    | .err e => .err e
    | .ok rf =>
      match parseFilesV1 rest with
      | .err e => .err e
      | .ok fs => .ok (rf :: fs)

def parseKindV1 (v : JSVal) : Option OCXItemKind :=
  match v with
  | .jstr s =>
    if s = "tool".data then some .tool
    else if s = "agent".data then some .agent
    else if s = "command".data then some .command
    else if s = "themes".data then some .themes
    else none
  | _ => none

def parsePostinstallV1 (post : JSVal) :
    Result (Option PostinstallSpec) RegistryItemParseError :=
  match post with
  | .undef => .ok none
  | .jobj fields =>
    match getField fields "commands".data with
    | .jarr cmds =>
      match allStringsJS cmds with
      | some cs =>
        match parseOptionalString (getField fields "cwd".data) "postinstall.cwd" with
        | .err e => .err e
        | .ok cwd => .ok (some ⟨cs, cwd⟩)
      | none => parseErr "Invalid registry item: postinstall.commands must be string[]"
    | _ => parseErr "Invalid registry item: postinstall.commands must be string[]"
  | _ => parseErr "Invalid registry item: postinstall must be object"

/-- `parseV1` from `registry.ts` (Result-based variant): validates a raw JSON
value as a schema-version-1 registry item. -/
def parseV1 (raw : JSVal) : Result RegistryItemV1 RegistryItemParseError :=
  match raw with
  | .jobj fields =>
    match getField fields "schemaVersion".data with
    | .jnum 1 =>
      match parseKindV1 (getField fields "kind".data) with
      | none => parseErr "Invalid registry item: unsupported kind"
      | some kind =>
        match getField fields "name".data with
        | .jstr name =>
          if (trimChars name).length = 0 then
            parseErr "Invalid registry item: name must be a non-empty string"
          else
            match parseOptionalString (getField fields "description".data) "description" with
            | .err e => .err e
            | .ok desc =>
              match parseStringArray (getField fields "registryDependencies".data)
                  "registryDependencies" with
              | .err e => .err e
              | .ok deps =>
                match getField fields "files".data with
                | .jarr filesRaw =>
                  match parseFilesV1 filesRaw with
                  | .err e => .err e
                  | .ok files =>
                    match parseOptionalString (getField fields "entry".data) "entry" with
                    | .err e => .err e
                    | .ok entry =>
                      match parsePostinstallV1 (getField fields "postinstall".data) with
                      | .err e => .err e
                      | .ok postinstall =>
                        .ok ⟨kind, ⟨name⟩, desc, deps, files, entry, postinstall⟩
                | _ => parseErr "Invalid registry item: files must be an array"
        | _ => parseErr "Invalid registry item: name must be a non-empty string"
    | _ => parseErr "Invalid registry item: unsupported schemaVersion"
  | _ => parseErr "Invalid registry item: expected object"

/-! ## Planner: `planInstalls` (`install.ts`) -/

def normalizeRelPath (p : String) : Result String InstallError :=
  let n0 := posixNormalize p
  let norm := if strStarts n0 "./" then n0.drop 2 else n0
  if pathIsAbsolute norm then
    .err (.invalidRegistryFilePath p "Registry file path must be relative")
  else if norm = ".." ∨ strStarts norm "../" then
    .err (.invalidRegistryFilePath p "Registry file path cannot escape target dir")
  else if norm.length = 0 then
    .err (.invalidRegistryFilePath p "Registry file path cannot be empty")
  else .ok norm

def computeDirRel (configRoot : ConfigRoot) (kind : OCXItemKind) (name : String) : String :=
  let parts :=
    match configRoot.kind with
    | .project => [".opencode", kindStr kind, name]
    | .global => [kindStr kind, name]
  joinSegs parts

def toModeNat : FileMode → Nat
  | .m644 => 0o644
  | .m755 => 0o755

structure PlanItem where
  kind : OCXItemKind
  name : String
  source : String
  targetDir : String
  entryRel : String
deriving Repr, DecidableEq

structure PlanWrite where
  path : String
  content : String
  mode : Option FileMode
deriving Repr, DecidableEq

structure PlanPostinstall where
  commands : List String
  cwd : String
deriving Repr, DecidableEq

structure ConfigEdit where
  jsonPath : List String
  value : JSVal
deriving Repr

structure InstallPlan where
  configRoot : ConfigRoot
  item : PlanItem
  mkdirs : List String
  writes : List PlanWrite
  configEdits : List ConfigEdit
  postinstall : Option PlanPostinstall
deriving Repr

/-- JS `Set` insertion (insertion order kept, duplicates dropped). -/
def setAdd (l : List String) (x : String) : List String :=
  if x ∈ l then l else l ++ [x]

def planWrites (targetDir : String) : List RegFile → Result (List PlanWrite) InstallError
  | [] => .ok []
  | f :: rest =>
    match normalizeRelPath f.path with
    | .err e => .err e
    | .ok rel =>
      let dest := posixJoin (targetDir :: splitSlash rel)
      match planWrites targetDir rest with
      | .err e => .err e
      | .ok ws => .ok (⟨dest, f.content, f.mode⟩ :: ws)

def postinstallJS (pi : PlanPostinstall) : JSVal :=
  .jobj [("commands".data, .jarr (pi.commands.map (fun c => .jstr c.data))),
         ("cwd".data, .jstr pi.cwd.data)]

def configEditValue (source dirRel entryRel : String) (post : Option PlanPostinstall) : JSVal :=
  .jobj ([("source".data, .jstr source.data),
          ("dir".data, .jstr dirRel.data),
          ("entry".data, .jstr entryRel.data)] ++
         (match post with
          | some pi => [("postinstall".data, postinstallJS pi)]
          | none => []))

def planOne (configRoot : ConfigRoot) (r : ResolvedItem) : Result InstallPlan InstallError :=
  let kindDir := posixJoin [configRoot.opencodeDir, kindStr r.item.kind]
  let targetDir := posixJoin [kindDir, r.item.name]
  let dirRel := computeDirRel configRoot r.item.kind r.item.name
  match normalizeRelPath (r.item.entry.getD "index.ts") with
  | .err e => .err e
  | .ok entryNorm =>
    let entryRel := dirRel ++ "/" ++ entryNorm
    match planWrites targetDir r.item.files with
    | .err e => .err e
    | .ok writes =>
      let mkdirs0 := setAdd (setAdd (setAdd [] configRoot.opencodeDir) kindDir) targetDir
      let mkdirs := writes.foldl (fun acc w => setAdd acc (posixDirname w.path)) mkdirs0
      let postinstall := r.item.postinstall.map
        (fun pi => PlanPostinstall.mk pi.commands
          (posixResolve configRoot.rootDir (pi.cwd.getD ".")))
      .ok
        { configRoot := configRoot
          item := ⟨r.item.kind, r.item.name, r.source, targetDir, entryRel⟩
          mkdirs := mkdirs
          writes := writes
          configEdits :=
            [⟨["ocx", "items", kindStr r.item.kind, r.item.name],
              configEditValue r.source dirRel entryRel postinstall⟩]
          postinstall := postinstall }

/-- `planInstalls` from `install.ts`: pure planning, first error wins. -/
def planInstalls : List ResolvedItem → ConfigRoot → Result (List InstallPlan) InstallError
  | [], _ => .ok []
  | r :: rs, root =>
    match planOne root r with
    | .err e => .err e
    | .ok p =>
      match planInstalls rs root with
      | .err e => .err e
      | .ok ps => .ok (p :: ps)

/-! ## Dependency resolver (`resolveRegistryTreeEffect`)

The fetcher is abstracted as a finite environment mapping spec strings to
fetched `ResolvedItem`s (manifest plus provenance); a spec outside the
environment fails with a fetch-time error, collapsed to `fetchErr` since the
resolver only propagates it.  The mutable `map`/`out`/`visiting` state of the
source becomes the threaded `st` list (resolved items in completion order) and
the `path` parameter (keys on the active resolution path). -/

inductive ResolveErr where
  | depCycle (key : String)
  | fetchErr (spec : String)
deriving Repr, DecidableEq

def lookupEnv : List (String × ResolvedItem) → String → Option ResolvedItem
  | [], _ => none
  | (s, r) :: rest, spec => if s = spec then some r else lookupEnv rest spec

def keyOf (it : RegistryItemV1) : String := kindStr it.kind ++ "/" ++ it.name

def outKeys (out : List ResolvedItem) : List String := out.map (fun r => keyOf r.item)

def envKeys (env : List (String × ResolvedItem)) : List String :=
  env.map (fun e => keyOf e.2.item)

def keysLeft (env : List (String × ResolvedItem)) (path : List String) : Nat :=
  ((envKeys env).filter (fun k => decide (k ∉ path))).length

mutual

def visitSpec (env : List (String × ResolvedItem)) (path : List String)
    (st : List ResolvedItem) (spec : String) : Result (List ResolvedItem) ResolveErr :=
  match h : lookupEnv env spec with
  | none => .err (.fetchErr spec)
  | some r =>
    let k := keyOf r.item
    if k ∈ outKeys st then .ok st
    else if hp : k ∈ path then .err (.depCycle k)
    else
      match visitList env (k :: path) st r.item.registryDependencies with
      | .err e => .err e
      | .ok st2 => .ok (st2 ++ [r])
termination_by (keysLeft env path, 0)
decreasing_by
  apply Prod.Lex.left
  have hmem : keyOf r.item ∈ envKeys env := by
    clear hp
    induction env with
    | nil => simp [lookupEnv] at h
    | cons head tail ih =>
      rw [lookupEnv] at h
      by_cases hs : head.1 = spec
      · simp only [if_pos hs] at h
        cases h
        simp [envKeys]
      · simp only [if_neg hs] at h
        have := ih h
        simp only [envKeys, List.map_cons, List.mem_cons]
        right
        simpa [envKeys] using this
  unfold keysLeft
  have hsub : (envKeys env).filter (fun x => decide (x ∉ keyOf r.item :: path)) =
      ((envKeys env).filter (fun x => decide (x ∉ path))).filter
        (fun x => decide (x ∉ keyOf r.item :: path)) := by
    rw [List.filter_filter]
    apply List.filter_congr
    intro x _
    by_cases h1 : x = keyOf r.item <;> by_cases h2 : x ∈ path <;> simp [h1, h2]
  rw [hsub]
  apply List.length_filter_lt_length_iff_exists.mpr
  refine ⟨keyOf r.item, ?_, ?_⟩
  · simp only [List.mem_filter, decide_eq_true_eq]
    exact ⟨hmem, hp⟩
  · simp

def visitList (env : List (String × ResolvedItem)) (path : List String)
    (st : List ResolvedItem) (specs : List String) : Result (List ResolvedItem) ResolveErr :=
  match specs with
  | [] => .ok st
  | s :: rest =>
    match visitSpec env path st s with
    | .err e => .err e
    | .ok st2 => visitList env path st2 rest
termination_by (keysLeft env path, specs.length + 1)
decreasing_by
  all_goals
    apply Prod.Lex.right
    simp only [List.length_cons]
    omega

end

/-- `resolveRegistryTree`: resolve root specs into a post-ordered,
de-duplicated list of items, with cycle detection. -/
def resolveRegistryTree (env : List (String × ResolvedItem)) (specs : List String) :
    Result (List ResolvedItem) ResolveErr :=
  visitList env [] [] specs

/-! ## JSONC patcher: scanner state machines (`jsonc.ts`)

Texts are `List Char`; every scanner works on the suffix starting at its
scan position and returns counts/indices relative to that position (the
wrappers track absolute indices).  `scanAux` is the single state machine
underlying both `findClose` (mode `closeM`) and the primitive-value scan of
`findValueEnd` (mode `valueM`); the two differ only in their bracket-depth
bookkeeping and stop conditions, exactly as in the source. -/

def squote : Char := Char.ofNat 39

def isWsJsonc (c : Char) : Bool := c = ' ' ∨ c = '\t' ∨ c = '\n' ∨ c = '\r'

def isQuoteC (c : Char) : Bool := c = '"' ∨ c = squote

structure ScanSt where
  inString : Bool
  quote : Option Char
  escaped : Bool
  inLine : Bool
  inBlock : Bool
deriving Repr, DecidableEq

def cleanSt : ScanSt := ⟨false, none, false, false, false⟩

/-! `skip`: advance over whitespace and comments, returning the number of
characters consumed (the returned index minus the start index). -/
mutual

def skipL : List Char → Nat
  | [] => 0
  | c :: rest =>
    if isWsJsonc c then 1 + skipL rest
    else if c = '/' then
      match rest with
      | '/' :: r2 => 2 + skipLineL r2
      | '*' :: r2 => 2 + skipBlockL r2
      | _ => 0
    else 0
termination_by l => l.length

def skipLineL : List Char → Nat
  | [] => 0
  | c :: rest => if c = '\n' then 1 + skipL rest else 1 + skipLineL rest
termination_by l => l.length

def skipBlockL : List Char → Nat
  | [] => 0
  | '*' :: '/' :: r2 => 2 + skipL r2
  | _ :: rest => 1 + skipBlockL rest
termination_by l => l.length

end

inductive ScanMode where
  | closeM (oc cc : Char)
  | valueM
deriving Repr, DecidableEq

/-! `scanAux` is the shared string/comment-aware scan loop of `findClose`
(mode `closeM`) and the primitive branch of `findValueEnd` (mode `valueM`).
It returns the stop index, or `none` for `findClose`'s
unterminated-structure error (`valueM` stops at the end of the text
instead).  `scanCode` is the handling of one character in clean state
outside comment-start lookahead. -/
mutual

def scanAux (m : ScanMode) (st : ScanSt) (depth : Int) (pos : Nat) :
    List Char → Option Nat
  | [] =>
    match m with
    | .closeM _ _ => none
    | .valueM => some pos
  | c :: rest =>
    if st.inLine then
      if c = '\n' then scanAux m { st with inLine := false } depth (pos + 1) rest
      else scanAux m st depth (pos + 1) rest
    else if st.inBlock then
      if c = '*' ∧ rest.head? = some '/' then
        scanAux m { st with inBlock := false } depth (pos + 2) rest.tail
      else scanAux m st depth (pos + 1) rest
    else if st.inString then
      if st.escaped then scanAux m { st with escaped := false } depth (pos + 1) rest
      else if c = '\\' then scanAux m { st with escaped := true } depth (pos + 1) rest
      else if st.quote = some c then
        scanAux m { st with inString := false, quote := none } depth (pos + 1) rest
      else scanAux m st depth (pos + 1) rest
    else if c = '/' ∧ rest.head? = some '/' then
      scanAux m { st with inLine := true } depth (pos + 2) rest.tail
    else if c = '/' ∧ rest.head? = some '*' then
      scanAux m { st with inBlock := true } depth (pos + 2) rest.tail
    else scanCode m st depth pos c rest
termination_by l => (l.length, 0)
decreasing_by
  all_goals first
    | (apply Prod.Lex.left
       try simp only [List.length_tail, List.length_cons]
       omega)
    | (apply Prod.Lex.right' (le_refl _)
       omega)

def scanCode (m : ScanMode) (st : ScanSt) (depth : Int) (pos : Nat) (c : Char)
    (rest : List Char) : Option Nat :=
  if isQuoteC c then
    scanAux m { st with inString := true, quote := some c } depth (pos + 1) rest
  else
    match m with
    | .closeM oc cc =>
      let d2 := if c = oc then depth + 1 else if c = cc then depth - 1 else depth
      if d2 = 0 then some pos else scanAux m st d2 (pos + 1) rest
    | .valueM =>
      if c = '{' ∨ c = '[' then scanAux m st (depth + 1) (pos + 1) rest
      else if c = '}' ∨ c = ']' then
        (if depth = 0 then some pos else scanAux m st (depth - 1) (pos + 1) rest)
      else if depth = 0 ∧ c = ',' then some pos
      else scanAux m st depth (pos + 1) rest
termination_by (rest.length, 1)

end

/-- `findClose` on the suffix starting at the opening bracket; returns the
index (relative to the opening bracket) of the matching close. -/
def findCloseL (oc cc : Char) (l : List Char) : Option Nat :=
  scanAux (.closeM oc cc) cleanSt 0 0 l

/-- `parseStringToken` body: `escaped`/`acc`/`consumed` accumulate over the
characters after the opening quote `q`. -/
def parseStrAux (q : Char) : Bool → List Char → Nat → List Char → Option (List Char × Nat)
  | _, _, _, [] => none
  | escaped, acc, consumed, c :: rest =>
    if escaped then parseStrAux q false (acc ++ [c]) (consumed + 1) rest
    else if c = '\\' then parseStrAux q true acc (consumed + 1) rest
    else if c = q then some (acc, consumed + 1)
    else parseStrAux q false (acc ++ [c]) (consumed + 1) rest

/-- `parseStringToken`: returns the decoded value and the consumed length
(both quotes included). -/
def parseStringL : List Char → Option (List Char × Nat)
  | [] => none
  | c :: rest => if isQuoteC c then parseStrAux c false [] 1 rest else none

def isIdentChar (c : Char) : Bool :=
  ('a' ≤ c ∧ c ≤ 'z') ∨ ('A' ≤ c ∧ c ≤ 'Z') ∨ ('0' ≤ c ∧ c ≤ '9') ∨ c = '_' ∨ c = '$'

def identSpan : List Char → List Char
  | [] => []
  | c :: rest => if isIdentChar c then c :: identSpan rest else []

/-- `parseIdentifierToken`: the leading identifier-character run; fails when
empty. -/
def parseIdentL (l : List Char) : Option (List Char × Nat) :=
  let v := identSpan l
  if v.length = 0 then none else some (v, v.length)

/-- `findValueEnd` on the suffix starting at the value; returns the length of
the value span (the relative end index). -/
def findValueEndL (l : List Char) : Option Nat :=
  match l with
  | [] => scanAux .valueM cleanSt 0 0 []
  | c :: _ =>
    if c = '{' then (findCloseL '{' '}' l).map (· + 1)
    else if c = '[' then (findCloseL '[' ']' l).map (· + 1)
    else if isQuoteC c then (parseStringL l).map (fun pr => pr.2)
    else scanAux .valueM cleanSt 0 0 l

/-- `findTopLevelPropertyValueSpan`'s scan loop, on the suffix starting just
after the root `{` (absolute position `pos`, bound `rootCloseIndex`).
`none` is any of the loop's hard failures (bad key token, missing `:`,
unterminated nested value); `some none` means "property not found";
`some (some (vs, ve))` is the absolute value span. -/
def findSpanAux (name : List Char) (bound : Nat) (pos : Nat) (l : List Char) :
    Option (Option (Nat × Nat)) :=
  if pos < bound then
    let s1 := skipL l
    if bound ≤ pos + s1 then some none
    else
      let l1 := l.drop s1
      match l1 with
      | [] => none
      | c :: _ =>
        if c = '}' then some none
        else
          match (if isQuoteC c then parseStringL l1 else parseIdentL l1) with
          | none => none
          | some (key, k) =>
            let l2 := l1.drop k
            let s2 := skipL l2
            let l3 := l2.drop s2
            match l3 with
            | ':' :: l4 =>
              let s3 := skipL l4
              let lv := l4.drop s3
              match findValueEndL lv with
              | none => none
              | some ve =>
                let vsAbs := pos + s1 + k + s2 + 1 + s3
                if key = name then some (some (vsAbs, vsAbs + ve))
                else
                  let l5 := lv.drop ve
                  let s4 := skipL l5
                  let l6 := l5.drop s4
                  match l6 with
                  | ',' :: l7 => findSpanAux name bound (vsAbs + ve + s4 + 1) l7
                  | _ => findSpanAux name bound (vsAbs + ve + s4) l6
            | _ => none
  else some none
termination_by bound - pos
decreasing_by
  · omega
  · omega

/-! `hasAnyProperties` strips comments with two regexes
(`/\/\/.*$/gm` then `/\/\*[\s\S]*?\*\//g`) and trims; the `.`/`$` of the
first never cross a line terminator (`\n` or `\r`), and the second only
matches closed block comments. -/

mutual

def stripLineC : List Char → List Char
  | [] => []
  | '/' :: '/' :: rest => dropToNl rest
  | c :: rest => c :: stripLineC rest
termination_by l => l.length

def dropToNl : List Char → List Char
  | [] => []
  | c :: rest =>
    if c = '\n' ∨ c = '\r' then c :: stripLineC rest else dropToNl rest
termination_by l => l.length

end

def dropThruClose : List Char → Option (List Char)
  | [] => none
  | c :: rest =>
    if c = '*' ∧ rest.head? = some '/' then some rest.tail
    else dropThruClose rest

def stripBlockC : List Char → List Char
  | [] => []
  | '/' :: '*' :: rest =>
    match h : dropThruClose rest with
    | some r2 => stripBlockC r2
    | none => '/' :: '*' :: rest
  | c :: rest => c :: stripBlockC rest
termination_by l => l.length
decreasing_by
  · have haux : ∀ (l r : List Char), dropThruClose l = some r → r.length < l.length := by
      intro l
      induction l with
      | nil => intro r hh; simp [dropThruClose] at hh
      | cons a tl ih =>
        intro r hh
        rw [dropThruClose] at hh
        by_cases hc : a = '*' ∧ tl.head? = some '/'
        · rw [if_pos hc] at hh
          cases hh
          simp only [List.length_tail, List.length_cons]
          omega
        · rw [if_neg hc] at hh
          have := ih r hh
          simp only [List.length_cons]
          omega
    have := haux rest r2 h
    simp only [List.length_cons]
    omega
  · simp only [List.length_cons]
    omega

/-- The comment-stripping and trim of `hasAnyProperties` applied to the root
body text. -/
def hasAnyPropsL (body : List Char) : Bool :=
  (trimChars (stripBlockC (stripLineC body))).length ≠ 0

/-- `lastSignificantChar`: last non-whitespace character outside strings and
comments in the given region (the region always ends at the root close
brace, whose character never combines with a lookahead). -/
def lastSigAux (st : ScanSt) (last : Option Char) : List Char → Option Char
  | [] => last
  | c :: rest =>
    if st.inLine then
      if c = '\n' then lastSigAux { st with inLine := false } last rest
      else lastSigAux st last rest
    else if st.inBlock then
      if c = '*' ∧ rest.head? = some '/' then
        lastSigAux { st with inBlock := false } last rest.tail
      else lastSigAux st last rest
    else if st.inString then
      if st.escaped then lastSigAux { st with escaped := false } last rest
      else if c = '\\' then lastSigAux { st with escaped := true } last rest
      else if st.quote = some c then
        lastSigAux { st with inString := false, quote := none } last rest
      else lastSigAux st last rest
    else if c = '/' ∧ rest.head? = some '/' then
      lastSigAux { st with inLine := true } last rest.tail
    else if c = '/' ∧ rest.head? = some '*' then
      lastSigAux { st with inBlock := true } last rest.tail
    else if isQuoteC c then
      lastSigAux { st with inString := true, quote := some c } last rest
    else if isWsJsonc c then lastSigAux st last rest
    else lastSigAux st (some c) rest
termination_by l => l.length
decreasing_by all_goals (try simp only [List.length_tail, List.length_cons]) <;> omega

def lastSigL (region : List Char) : Option Char := lastSigAux cleanSt none region

/-! `JSON.stringify(value, null, 2)` (V8 semantics): `undefined` only
serialises at the top level (where it is an error for the patcher); inside
arrays it prints as `null` and inside objects the member is skipped. -/

def hexDigitL (n : Nat) : Char := if n < 10 then Char.ofNat (48 + n) else Char.ofNat (87 + n)

def jsEscapeChar (c : Char) : List Char :=
  if c = '"' then ['\\', '"']
  else if c = '\\' then ['\\', '\\']
  else if c = Char.ofNat 8 then ['\\', 'b']
  else if c = '\t' then ['\\', 't']
  else if c = '\n' then ['\\', 'n']
  else if c = Char.ofNat 12 then ['\\', 'f']
  else if c = '\r' then ['\\', 'r']
  else if c.toNat < 32 then
    ['\\', 'u', '0', '0', hexDigitL (c.toNat / 16), hexDigitL (c.toNat % 16)]
  else [c]

def jsonQuote (s : List Char) : List Char :=
  '"' :: s.flatMap jsEscapeChar ++ ['"']

def isUndefJS : JSVal → Bool
  | .undef => true
  | _ => false

def strfJoin (sep : List Char) : List (List Char) → List Char
  | [] => []
  | [x] => x
  | x :: rest => x ++ sep ++ strfJoin sep rest

mutual

def strfV (ind : List Char) : JSVal → List Char
  | .undef => "null".data
  | .jnull => "null".data
  | .jbool b => (if b then "true" else "false").data
  | .jnum n => (toString n).data
  | .jstr s => jsonQuote s
  | .jarr [] => "[]".data
  | .jarr (e :: es) =>
    let ind2 := ind ++ "  ".data
    '[' :: '\n' :: (ind2 ++ strfJoin (',' :: '\n' :: ind2) (strfList ind2 (e :: es)) ++
      '\n' :: (ind ++ "]".data))
  | .jobj fs =>
    let ind2 := ind ++ "  ".data
    match strfFields ind2 fs with
    | [] => "\x7b\x7d".data
    | p :: parts =>
      '{' :: '\n' :: (ind2 ++ strfJoin (',' :: '\n' :: ind2) (p :: parts) ++
        '\n' :: (ind ++ "\x7d".data))
termination_by v => sizeOf v

def strfList (ind : List Char) : List JSVal → List (List Char)
  | [] => []
  | v :: rest => strfV ind v :: strfList ind rest
termination_by l => sizeOf l

def strfFields (ind : List Char) : List (List Char × JSVal) → List (List Char)
  | [] => []
  | (k, v) :: rest =>
    if isUndefJS v then strfFields ind rest
    else (jsonQuote k ++ ": ".data ++ strfV ind v) :: strfFields ind rest
termination_by l => sizeOf l

end

/-- `.replaceAll("\n", "\n  ")` of `formatValueForProperty`. -/
def replaceNL : List Char → List Char
  | [] => []
  | c :: rest =>
    if c = '\n' then '\n' :: ' ' :: ' ' :: replaceNL rest else c :: replaceNL rest

/-- `formatValueForProperty`: `JSON.stringify(value, null, 2)` re-indented one
extra level; `none` is the "Unable to stringify JSON value" failure. -/
def formatValueForProperty (v : JSVal) : Option (List Char) :=
  match v with
  | .undef => none
  | _ => some (replaceNL (strfV [] v))

/-! ## JSONC patcher: top-level operations

The wrappers mirror `getTopLevelJsoncPropertyValueText` /
`upsertTopLevelJsoncProperty`.  Scan failures inside the property loop carry
several distinct messages in the source ("Expected string token",
"Invalid JSONC object: expected ':' after property key", ...); the embedding
collapses them into one `JSONCErr` since nothing downstream inspects the
message of a failed patch. -/

structure JSONCErr where
  message : String
deriving Repr, DecidableEq

def jfail {α : Type} (message : String) : Result α JSONCErr := .err ⟨message⟩

/-- The `original` text: an empty input is treated as `{}`. -/
def jsoncOriginal (inputText : List Char) : List Char :=
  if inputText.length = 0 then "\x7b\x7d".data else inputText

/-- Root-object discovery common to both operations: the index of the root
`{` and of its matching `}`. -/
def jsoncRoot (original : List Char) : Result (Nat × Nat) JSONCErr :=
  let first := skipL original
  match original.drop first with
  | '{' :: _ =>
    match findCloseL '{' '}' (original.drop first) with
    | none => jfail "Unterminated JSONC structure"
    | some rcRel => .ok (first, first + rcRel)
  | _ => jfail "Expected JSONC root object"

/-- The top-level property value span of `name` in `text` (absolute indices),
as computed by `findTopLevelPropertyValueSpan`; `none` is a scan failure,
`some none` means the property is absent. -/
def findSpanFull (text name : List Char) : Option (Option (Nat × Nat)) :=
  let original := jsoncOriginal text
  match jsoncRoot original with
  | .err _ => none
  | .ok (rootOpen, rootClose) =>
    findSpanAux name rootClose (rootOpen + 1) (original.drop (rootOpen + 1))

/-- `getTopLevelJsoncPropertyValueText` (Result-based variant). -/
def getTopLevelJsoncPropertyValueText (inputText propertyName : List Char) :
    Result (Option (List Char)) JSONCErr :=
  let original := jsoncOriginal inputText
  match jsoncRoot original with
  | .err e => .err e
  | .ok (rootOpen, rootClose) =>
    match findSpanAux propertyName rootClose (rootOpen + 1) (original.drop (rootOpen + 1)) with
    | none => jfail "Invalid JSONC object"
    | some none => .ok none
    | some (some (vs, ve)) => .ok (some ((original.take ve).drop vs))

/-- The inserted text of the upsert's property-absent branch. -/
def insertTextFor (propertyName fmt : List Char) (comma : List Char) : List Char :=
  comma ++ "\n  // TODO: windows support\n  ".data ++ jsonQuote propertyName ++
    ": ".data ++ fmt ++ ['\n']

/-- The separator decision of the upsert's property-absent branch:
`lastSignificantChar` over the text before the root close when the cleaned
body is non-empty, else `'{'`. -/
def upsertLastSig (original : List Char) (rootOpen rootClose : Nat) : Option Char :=
  let hasProps := hasAnyPropsL ((original.take rootClose).drop (rootOpen + 1))
  if hasProps then lastSigL (original.take rootClose) else some '{'

/-- `upsertTopLevelJsoncProperty` (Result-based variant). -/
def upsertTopLevelJsoncProperty (inputText propertyName : List Char)
    (propertyValue : JSVal) : Result (List Char) JSONCErr :=
  let original := jsoncOriginal inputText
  match jsoncRoot original with
  | .err e => .err e
  | .ok (rootOpen, rootClose) =>
    match findSpanAux propertyName rootClose (rootOpen + 1) (original.drop (rootOpen + 1)) with
    | none => jfail "Invalid JSONC object"
    | some span =>
      match formatValueForProperty propertyValue with
      | none => jfail "Unable to stringify JSON value"
      | some fmt =>
        match span with
        | some (vs, ve) => .ok (original.take vs ++ fmt ++ original.drop ve)
        | none =>
          let lastSig := upsertLastSig original rootOpen rootClose
          let comma : List Char :=
            if lastSig = some '{' ∨ lastSig = some ',' then [] else [',']
          .ok (original.take rootClose ++ insertTextFor propertyName fmt comma ++
            original.drop rootClose)

/-! ## Installer (`applyInstallPlansEffect`)

Filesystem and process effects are interpreted against an oracle `World`
answering each primitive (`none`/`ok` for success, a cause string for a
thrown error), with the performed operations collected in order as a trace.
`spawnOp` records the raw command string of `Bun.spawn(["bash","-lc",cmd])`.
`JSON.parse` is the host's parser, abstracted as `parseJsonR`. -/

inductive FsOp where
  | mkdirOp (p : String)
  | mkdtempOp (pre : String)
  | renameOp (a b : String)
  | rmOp (p : String)
  | chmodOp (p : String) (m : Nat)
  | statOp (p : String)
  | writeOp (p : String) (content : String)
  | readOp (p : String)
  | spawnOp (cmd : String) (cwd : String)
deriving Repr, DecidableEq

structure World where
  mkdirR : String → Option String
  mkdtempR : String → Result String String
  renameR : String → String → Option String
  rmR : String → Option String
  chmodR : String → Nat → Option String
  statR : String → Bool
  writeR : String → String → Option String
  readR : String → Option String
  spawnR : String → String → Result Int String
  parseJsonR : String → Result JSVal String
  now : Nat
  cwd : String

def ioPure {α : Type} (a : α) : Result α InstallError × List FsOp := (.ok a, [])

def ioBind {α β : Type} (x : Result α InstallError × List FsOp)
    (f : α → Result β InstallError × List FsOp) : Result β InstallError × List FsOp :=
  match x with
  | (.err e, tr) => (.err e, tr)
  | (.ok a, tr) =>
    let y := f a
    (y.1, tr ++ y.2)

def mkdirE (w : World) (p : String) : Result Unit InstallError × List FsOp :=
  match w.mkdirR p with
  | none => (.ok (), [.mkdirOp p])
  | some cause => (.err (.ioError "mkdir" (some p) cause), [.mkdirOp p])

def mkdtempE (w : World) (pre : String) : Result String InstallError × List FsOp :=
  match w.mkdtempR pre with
  | .ok t => (.ok t, [.mkdtempOp pre])
  | .err cause => (.err (.ioError "mkdtemp" (some pre) cause), [.mkdtempOp pre])

def renameE (w : World) (a b : String) : Result Unit InstallError × List FsOp :=
  match w.renameR a b with
  | none => (.ok (), [.renameOp a b])
  | some cause => (.err (.ioError "rename" (some (a ++ " -> " ++ b)) cause), [.renameOp a b])

def rmE (w : World) (p : String) : Result Unit InstallError × List FsOp :=
  match w.rmR p with
  | none => (.ok (), [.rmOp p])
  | some cause => (.err (.ioError "rm" (some p) cause), [.rmOp p])

def chmodE (w : World) (p : String) (m : Nat) : Result Unit InstallError × List FsOp :=
  match w.chmodR p m with
  | none => (.ok (), [.chmodOp p m])
  | some cause => (.err (.ioError "chmod" (some p) cause), [.chmodOp p m])

def statE (w : World) (p : String) : Result Bool InstallError × List FsOp :=
  (.ok (w.statR p), [.statOp p])

def writeE (w : World) (p content : String) : Result Unit InstallError × List FsOp :=
  match w.writeR p content with
  | none => (.ok (), [.writeOp p content])
  | some cause => (.err (.ioError "write" (some p) cause), [.writeOp p content])

def readCfgE (w : World) (p : String) : Result String InstallError × List FsOp :=
  (.ok ((w.readR p).getD "\x7b\x7d"), [.readOp p])

/-- `withTmpDirEffect`: acquire a temp dir, use it, then best-effort remove it
on both paths (release failures swallowed). -/
def withTmpDirE {α : Type} (w : World) (parent pre : String)
    (use : String → Result α InstallError × List FsOp) :
    Result α InstallError × List FsOp :=
  match mkdtempE w (posixJoin [parent, pre]) with
  | (.err e, tr) => (.err e, tr)
  | (.ok tmp, tr) =>
    let u := use tmp
    let r := rmE w tmp
    (u.1, tr ++ u.2 ++ r.2)

def writeAtomicE (w : World) (dest content : String) :
    Result Unit InstallError × List FsOp :=
  let dir := posixDirname dest
  ioBind (mkdirE w dir) (fun _ =>
    withTmpDirE w dir (".tmp-ocx-" ++ toString w.now ++ "-") (fun tmp =>
      let file := posixJoin [tmp, "file"]
      ioBind (writeE w file content) (fun _ => renameE w file dest)))

def stageOneWrite (w : World) (targetDir tmp : String) (wr : PlanWrite) :
    Result Unit InstallError × List FsOp :=
  let rel := posixRelative w.cwd targetDir wr.path
  if strStarts rel ".." ∨ pathIsAbsolute rel then
    (.err (.writeOutsideTargetDir wr.path), [])
  else
    let dest := posixJoin [tmp, rel]
    ioBind (mkdirE w (posixDirname dest)) (fun _ =>
      ioBind (writeE w dest wr.content) (fun _ =>
        match wr.mode with
        | some m => chmodE w dest (toModeNat m)
        | none => ioPure ()))

def stageWritesE (w : World) (targetDir tmp : String) :
    List PlanWrite → Result Unit InstallError × List FsOp
  | [] => ioPure ()
  | wr :: rest =>
    ioBind (stageOneWrite w targetDir tmp wr) (fun _ => stageWritesE w targetDir tmp rest)

/-- `stageDirEffect`: stage a plan's writes into a fresh temp sibling of the
target, then promote it with a single rename. -/
def stageDirE (w : World) (plan : InstallPlan) (overwrite : Bool) :
    Result String InstallError × List FsOp :=
  let dir := posixDirname plan.item.targetDir
  ioBind (mkdirE w dir) (fun _ =>
    withTmpDirE w dir (".tmp-ocx-" ++ plan.item.name ++ "-") (fun tmp =>
      ioBind (stageWritesE w plan.item.targetDir tmp plan.writes) (fun _ =>
        ioBind (statE w plan.item.targetDir) (fun ex =>
          if ex ∧ ¬overwrite then (.err (.targetAlreadyExists plan.item.targetDir), [])
          else
            ioBind (if ex ∧ overwrite then rmE w plan.item.targetDir else ioPure ())
              (fun _ =>
                ioBind (renameE w tmp plan.item.targetDir)
                  (fun _ => ioPure plan.item.targetDir))))))

/-! Managed `ocx` config section (`OCXManagedConfig`). -/

structure OCXManagedConfig where
  toolM : List (List Char × JSVal)
  agentM : List (List Char × JSVal)
  commandM : List (List Char × JSVal)
  themesM : List (List Char × JSVal)
deriving Repr

def emptyOCXManagedConfig : OCXManagedConfig := ⟨[], [], [], []⟩

def ensureRecordMap (v : JSVal) : List (List Char × JSVal) :=
  match v with
  | .jobj fields => fields
  | _ => []

/-- `parseExistingOCXManagedConfigEffect` (pure part; the JSON parse is the
host's `JSON.parse`, from the oracle). -/
def parseExistingOCX (w : World) (text : String) :
    Result OCXManagedConfig InstallError :=
  match getTopLevelJsoncPropertyValueText text.data "ocx".data with
  | .err e => .err (.jsoncError e.message)
  | .ok none => .ok emptyOCXManagedConfig
  | .ok (some val) =>
    match w.parseJsonR ⟨val⟩ with
    | .err cause => .err (.jsoncError ("Invalid JSON in ocx property: " ++ cause))
    | .ok parsed =>
      match parsed with
      | .jobj fields =>
        let items := ensureRecordMap (getField fields "items".data)
        .ok ⟨ensureRecordMap (getField items "tool".data),
             ensureRecordMap (getField items "agent".data),
             ensureRecordMap (getField items "command".data),
             ensureRecordMap (getField items "themes".data)⟩
      | _ => .err (.jsoncError "Invalid ocx config: expected object")

/-- JS `record[name] = v`: update in place or append. -/
def assocSet : List (List Char × JSVal) → List Char → JSVal → List (List Char × JSVal)
  | [], k, v => [(k, v)]
  | (k0, v0) :: rest, k, v =>
    if k0 = k then (k0, v) :: rest else (k0, v0) :: assocSet rest k v

/-- The `InstalledOCXItem` object stored in the managed config for a plan. -/
def installedItemJS (plan : InstallPlan) : JSVal :=
  let dir := joinSegs ((splitSlash plan.item.entryRel).dropLast)
  .jobj ([("source".data, .jstr plan.item.source.data),
          ("dir".data, .jstr dir.data),
          ("entry".data, .jstr plan.item.entryRel.data)] ++
         (match plan.postinstall with
          | some pi => [("postinstall".data, postinstallJS pi)]
          | none => []))

def cfgSetPlan (cfg : OCXManagedConfig) (plan : InstallPlan) : OCXManagedConfig :=
  let v := installedItemJS plan
  let n := plan.item.name.data
  match plan.item.kind with
  | .tool => { cfg with toolM := assocSet cfg.toolM n v }
  | .agent => { cfg with agentM := assocSet cfg.agentM n v }
  | .command => { cfg with commandM := assocSet cfg.commandM n v }
  | .themes => { cfg with themesM := assocSet cfg.themesM n v }

def cfgToJS (cfg : OCXManagedConfig) : JSVal :=
  .jobj [("items".data,
    .jobj [("tool".data, .jobj cfg.toolM),
           ("agent".data, .jobj cfg.agentM),
           ("command".data, .jobj cfg.commandM),
           ("themes".data, .jobj cfg.themesM)])]

/-- `updateConfigEffect`: read, parse, merge every plan's entry, upsert the
`ocx` property, write atomically. -/
def updateConfigE (w : World) (configPath : String) (plans : List InstallPlan) :
    Result Unit InstallError × List FsOp :=
  ioBind (readCfgE w configPath) (fun text =>
    match parseExistingOCX w text with
    | .err e => (.err e, [])
    | .ok cfg =>
      let cfg2 := plans.foldl cfgSetPlan cfg
      match upsertTopLevelJsoncProperty text.data "ocx".data (cfgToJS cfg2) with
      | .err e => (.err (.jsoncError e.message), [])
      | .ok updated => writeAtomicE w configPath ⟨updated⟩)

def runCmdsE (w : World) (cwd : String) : List String → Result Unit InstallError × List FsOp
  | [] => ioPure ()
  | cmd :: rest =>
    match w.spawnR cmd cwd with
    | .err cause => (.err (.ioError "postinstall" none cause), [.spawnOp cmd cwd])
    | .ok code =>
      if code = 0 then ioBind ((.ok (), [.spawnOp cmd cwd])) (fun _ => runCmdsE w cwd rest)
      else (.err (.postinstallFailed cmd code), [.spawnOp cmd cwd])

/-- `runPostinstallEffect`: run the plan's commands sequentially. -/
def runPostinstallE (w : World) (plan : InstallPlan) : Result Unit InstallError × List FsOp :=
  match plan.postinstall with
  | none => ioPure ()
  | some pi => runCmdsE w pi.cwd pi.commands

def stageLoopE (w : World) (overwrite : Bool) :
    List InstallPlan → Result (List String) InstallError × List FsOp
  | [] => ioPure []
  | p :: rest =>
    ioBind (stageDirE w p overwrite) (fun dir =>
      ioBind (stageLoopE w overwrite rest) (fun dirs => ioPure (dir :: dirs)))

def postLoopE (w : World) (ran : Bool) :
    List InstallPlan → Result Bool InstallError × List FsOp
  | [] => ioPure ran
  | p :: rest =>
    match p.postinstall with
    | none => postLoopE w ran rest
    | some _ => ioBind (runPostinstallE w p) (fun _ => postLoopE w true rest)

structure ApplyOpts where
  overwrite : Bool
  allowPostinstall : Bool
deriving Repr, DecidableEq

structure ApplyInstallResult where
  wroteFiles : List String
  editedConfigPath : String
  ranPostinstall : Bool
deriving Repr, DecidableEq

/-- `applyInstallPlansEffect`: fail-fast checks, staging of every plan in
order, one config patch, then optional postinstall. -/
def applyInstallPlans (w : World) (plans : List InstallPlan) (opts : ApplyOpts) :
    Result ApplyInstallResult InstallError × List FsOp :=
  let rootO := plans.head?.map (fun p => p.configRoot)
  if plans.length = 0 then (.err .noPlans, [])
  else
    match rootO with
    | none => (.err .missingConfigRoot, [])
    | some root =>
      ioBind (mkdirE w root.opencodeDir) (fun _ =>
        ioBind (stageLoopE w opts.overwrite plans) (fun wrote =>
          ioBind (mkdirE w (posixDirname root.configPath)) (fun _ =>
            ioBind (updateConfigE w root.configPath plans) (fun _ =>
              ioBind (if opts.allowPostinstall then postLoopE w false plans else ioPure false)
                (fun ran => ioPure ⟨wrote, root.configPath, ran⟩)))))

/-! ## Structured JSONC documents

To quantify over "any JSONC text" in the patcher claims, well-formed JSONC
texts are generated from a structured document type: arbitrary
whitespace/comment trivia, single- or double-quoted strings with escapes,
identifier or quoted keys, optional commas, nested objects/arrays, unparsed
primitive tokens, and arbitrary trailing bytes after the root close brace.
`render*` produce the text; `wf*` are the side conditions making the pieces
what they claim to be (comments closed, string items quote-free, primitive
tokens delimiter-free); `topEs` adds the conditions the top-level property
scan needs (keys present; a primitive-valued property is comma-terminated or
last, since the value scan of an undelimited token only stops at `,` or
`}`). -/

inductive Triv where
  | wsT (c : Char)
  | lineT (s : List Char)
  | blockT (s : List Char)
deriving Repr, DecidableEq

def renderTriv : Triv → List Char
  | .wsT c => [c]
  | .lineT s => '/' :: '/' :: (s ++ ['\n'])
  | .blockT s => '/' :: '*' :: (s ++ ['*', '/'])

def renderTrivia (t : List Triv) : List Char := t.flatMap renderTriv

def noCloseB : List Char → Bool
  | [] => true
  | c :: rest => if c = '*' ∧ rest.head? = some '/' then false else noCloseB rest

def wfTriv : Triv → Bool
  | .wsT c => isWsJsonc c
  | .lineT s => !(s.contains '\n')
  | .blockT s => noCloseB s

def wfTrivia (t : List Triv) : Bool := t.all wfTriv

inductive SItem where
  | plainI (c : Char)
  | escI (c : Char)
deriving Repr, DecidableEq

def renderSItem : SItem → List Char
  | .plainI c => [c]
  | .escI c => ['\\', c]

def renderSItems (items : List SItem) : List Char := items.flatMap renderSItem

def wfSItem (q : Char) : SItem → Bool
  | .plainI c => c ≠ q ∧ c ≠ '\\'
  | .escI _ => true

def decodeSItem : SItem → Char
  | .plainI c => c
  | .escI c => c

def decodeSItems (items : List SItem) : List Char := items.map decodeSItem

inductive JKey where
  | quotedK (q : Char) (items : List SItem)
  | identK (s : List Char)
deriving Repr, DecidableEq

def renderKey : JKey → List Char
  | .quotedK q items => q :: (renderSItems items ++ [q])
  | .identK s => s

def wfKey : JKey → Bool
  | .quotedK q items => isQuoteC q ∧ items.all (wfSItem q)
  | .identK s => s.length ≠ 0 ∧ s.all isIdentChar

def decodeKey : JKey → List Char
  | .quotedK _ items => decodeSItems items
  | .identK s => s

/-- Characters allowed in an unparsed primitive token: anything the scanners
treat as a plain code character that is not a delimiter. -/
def primChar (c : Char) : Bool :=
  !(c = '{' ∨ c = '}' ∨ c = '[' ∨ c = ']' ∨ c = '"' ∨ c = squote ∨ c = '/' ∨
    c = '*' ∨ c = ',' ∨ c = ':' ∨ isWsJsonc c)

mutual

inductive JVal where
  | strV (q : Char) (items : List SItem)
  | primV (tok : List Char)
  | objV (es : JEntries) (closeT : List Triv)
  | arrV (es : JEntries) (closeT : List Triv)
deriving Repr

inductive JEntries where
  | nilE
  | consE (e : JEntry) (rest : JEntries)
deriving Repr

inductive JEntry where
  | mkE (preT : List Triv) (key : Option (JKey × List Triv × List Triv)) (v : JVal)
      (postT : List Triv) (comma : Bool)
deriving Repr

end

mutual

def renderV : JVal → List Char
  | .strV q items => q :: (renderSItems items ++ [q])
  | .primV tok => tok
  | .objV es t => '{' :: (renderEs es ++ renderTrivia t ++ ['}'])
  | .arrV es t => '[' :: (renderEs es ++ renderTrivia t ++ [']'])
termination_by v => sizeOf v

def renderE : JEntry → List Char
  | .mkE pre key v post comma =>
    renderTrivia pre ++
      (match key with
       | some (k, t1, t2) => renderKey k ++ renderTrivia t1 ++ ':' :: renderTrivia t2
       | none => []) ++
      renderV v ++ renderTrivia post ++ (if comma then [','] else [])
termination_by e => sizeOf e

def renderEs : JEntries → List Char
  | .nilE => []
  | .consE e rest => renderE e ++ renderEs rest
termination_by es => sizeOf es

end

def wfKeyOpt : Option (JKey × List Triv × List Triv) → Bool
  | some (k, t1, t2) => wfKey k && wfTrivia t1 && wfTrivia t2
  | none => true

mutual

def wfV : JVal → Bool
  | .strV q items => isQuoteC q ∧ items.all (wfSItem q)
  | .primV tok => tok.length ≠ 0 ∧ tok.all primChar
  | .objV es t => wfEs es ∧ wfTrivia t
  | .arrV es t => wfEs es ∧ wfTrivia t
termination_by v => sizeOf v

def wfE : JEntry → Bool
  | .mkE pre key v post _ =>
    wfTrivia pre && wfKeyOpt key && wfV v && wfTrivia post
termination_by e => sizeOf e

def wfEs : JEntries → Bool
  | .nilE => true
  | .consE e rest => wfE e ∧ wfEs rest
termination_by es => sizeOf es

end

def isNilE : JEntries → Bool
  | .nilE => true
  | .consE _ _ => false

def isPrimV : JVal → Bool
  | .primV _ => true
  | _ => false

/-- Top-level conditions for the property scan. -/
def topE (isLast : Bool) : JEntry → Bool
  | .mkE _ key v _ comma =>
    key.isSome ∧ (if isPrimV v then (comma ∨ isLast) else true)

def topEs : JEntries → Bool
  | .nilE => true
  | .consE e rest => topE (isNilE rest) e ∧ topEs rest

structure JDoc where
  leadT : List Triv
  es : JEntries
  closeT : List Triv
  trail : List Char
deriving Repr

def renderDoc (d : JDoc) : List Char :=
  renderTrivia d.leadT ++ '{' :: (renderEs d.es ++ renderTrivia d.closeT ++ '}' :: d.trail)

def wfDoc (d : JDoc) : Bool :=
  wfTrivia d.leadT ∧ wfEs d.es ∧ topEs d.es ∧ wfTrivia d.closeT

def entryKey : JEntry → Option JKey
  | .mkE _ key _ _ _ => key.map (fun p => p.1)

def keyIs (name : List Char) : JEntry → Bool
  | .mkE _ key _ _ _ =>
    match key with
    | some (k, _, _) => decodeKey k = name
    | none => false

def hasKeyEs (name : List Char) : JEntries → Bool
  | .nilE => false
  | .consE e rest => keyIs name e || hasKeyEs name rest

/-- The absolute value span the property scan computes for the first entry
with key `name`: exact for delimited values, extended over the trailing
trivia (and, when last, the pre-close trivia) for primitive tokens. -/
def spanSpecEs (name : List Char) (base closeLen : Nat) : JEntries → Option (Nat × Nat)
  | .nilE => none
  | .consE e rest =>
    match e with
    | .mkE pre key v post comma =>
      match key with
      | none => none
      | some (k, t1, t2) =>
        if decodeKey k = name then
          let vs := base + (renderTrivia pre).length + (renderKey k).length +
            (renderTrivia t1).length + 1 + (renderTrivia t2).length
          some (vs, vs +
            (if isPrimV v then
              (renderV v).length + (renderTrivia post).length +
                (if comma then 0 else (if isNilE rest then closeLen else 0))
             else (renderV v).length))
        else spanSpecEs name (base + (renderE e).length) closeLen rest

def docSpan (d : JDoc) (name : List Char) : Option (Nat × Nat) :=
  spanSpecEs name ((renderTrivia d.leadT).length + 1) (renderTrivia d.closeT).length d.es

/-! Structured view of `JSON.stringify(v, null, 2)` output (`fmtVal`),
related to `strfV` by `renderFmt` below. -/

def escItem (c : Char) : List SItem :=
  if c = '"' then [.escI '"']
  else if c = '\\' then [.escI '\\']
  else if c = Char.ofNat 8 then [.escI 'b']
  else if c = '\t' then [.escI 't']
  else if c = '\n' then [.escI 'n']
  else if c = Char.ofNat 12 then [.escI 'f']
  else if c = '\r' then [.escI 'r']
  else if c.toNat < 32 then
    [.escI 'u', .plainI '0', .plainI '0', .plainI (hexDigitL (c.toNat / 16)),
     .plainI (hexDigitL (c.toNat % 16))]
  else [.plainI c]

def escItems (s : List Char) : List SItem := s.flatMap escItem

def wsTrivia (cs : List Char) : List Triv := cs.map .wsT

mutual

def fmtVal (ind : List Char) : JSVal → JVal
  | .undef => .primV "null".data
  | .jnull => .primV "null".data
  | .jbool b => .primV ((if b then "true" else "false").data)
  | .jnum n => .primV (toString n).data
  | .jstr s => .strV '"' (escItems s)
  | .jarr [] => .arrV .nilE []
  | .jarr (e :: es) =>
    .arrV (fmtArr (ind ++ "  ".data) (e :: es)) (wsTrivia ('\n' :: ind))
  | .jobj fs =>
    match fmtObj (ind ++ "  ".data) fs with
    | .nilE => .objV .nilE []
    | .consE e rest => .objV (.consE e rest) (wsTrivia ('\n' :: ind))
termination_by v => sizeOf v

def fmtArr (ind : List Char) : List JSVal → JEntries
  | [] => .nilE
  | v :: rest =>
    .consE (.mkE (wsTrivia ('\n' :: ind)) none (fmtVal ind v) [] (!rest.isEmpty))
      (fmtArr ind rest)
termination_by l => sizeOf l

def fmtObj (ind : List Char) : List (List Char × JSVal) → JEntries
  | [] => .nilE
  | (k, v) :: rest =>
    if isUndefJS v then fmtObj ind rest
    else
      .consE
        (.mkE (wsTrivia ('\n' :: ind)) (some (.quotedK '"' (escItems k), [], [.wsT ' ']))
          (fmtVal ind v) [] (!(isNilE (fmtObj ind rest))))
        (fmtObj ind rest)
termination_by l => sizeOf l

end

/-! Document-level descriptions of the two upsert outcomes. -/

/-- The trivia rendered as `"\n  // TODO: windows support\n  "`: the fixed
text the insert branch always places before the new property. -/
def insTrivia : List Triv :=
  [.wsT '\n', .wsT ' ', .wsT ' ', .lineT " TODO: windows support".data, .wsT ' ', .wsT ' ']

/-- The inserted member, with its leading trivia `pre`. -/
def insEntryPre (pre : List Triv) (name : List Char) (v : JSVal) : JEntry :=
  .mkE pre (some (.quotedK '"' (escItems name), [], [.wsT ' '])) (fmtVal "  ".data v) [] false

def appendEs : JEntries → JEntry → JEntries
  | .nilE, e => .consE e .nilE
  | .consE e0 rest, e => .consE e0 (appendEs rest e)

/-- Extend the last entry's post-value trivia by `extra` and give it a
trailing comma (the comma-inserting branch of the upsert). -/
def adjustLast (extra : List Triv) : JEntries → JEntries
  | .nilE => .nilE
  | .consE (.mkE pre key v post comma) .nilE =>
    .consE (.mkE pre key v (post ++ extra) true) .nilE
  | .consE e rest => .consE e (adjustLast extra rest)

/-- The document produced by the insert branch of the upsert (`commaEmpty`
says whether the branch decided no separator comma was needed). -/
def insDocOf (d : JDoc) (name : List Char) (v : JSVal) (commaEmpty : Bool) : JDoc :=
  if commaEmpty then
    ⟨d.leadT, appendEs d.es (insEntryPre (d.closeT ++ insTrivia) name v), [.wsT '\n'], d.trail⟩
  else
    ⟨d.leadT, appendEs (adjustLast d.closeT d.es) (insEntryPre insTrivia name v),
      [.wsT '\n'], d.trail⟩

/-- Replace the value of the first entry keyed `name` by `newV`.  For a
primitive old value the replaced span also covered the post-value trivia
(and, when last, the pre-close trivia): those disappear; the returned flag
reports that the pre-close trivia was consumed. -/
def replaceEsV (name : List Char) (newV : JVal) : JEntries → JEntries × Bool
  | .nilE => (.nilE, false)
  | .consE (.mkE pre key v post comma) rest =>
    let e := JEntry.mkE pre key v post comma
    if keyIs name e then
      (if isPrimV v then
        (.consE (.mkE pre key newV [] comma) rest, !comma)
       else (.consE (.mkE pre key newV post comma) rest, false))
    else
      let pr := replaceEsV name newV rest
      (.consE e pr.1, pr.2)

/-- The document produced by the replace branch of the upsert. -/
def replaceDocOf (d : JDoc) (name : List Char) (v : JSVal) : JDoc :=
  let pr := replaceEsV name (fmtVal "  ".data v) d.es
  ⟨d.leadT, pr.1, if pr.2 then [] else d.closeT, d.trail⟩

/-- Absolute index of the root `{` of a rendered document. -/
def docOpen (d : JDoc) : Nat := (renderTrivia d.leadT).length

/-- Absolute index of the root `}` of a rendered document. -/
def docClose (d : JDoc) : Nat :=
  (renderTrivia d.leadT).length + 1 + (renderEs d.es).length + (renderTrivia d.closeT).length

/-! ## Concrete inputs used by witnesses and counterexamples -/

/-- A raw manifest whose single file path escapes the target directory. -/
def escapingRaw : JSVal :=
  .jobj [("schemaVersion".data, .jnum 1),
         ("kind".data, .jstr "tool".data),
         ("name".data, .jstr "x".data),
         ("files".data, .jarr [.jobj [("path".data, .jstr "../escape.txt".data),
                                      ("content".data, .jstr [])]])]

def escapingItem : RegistryItemV1 :=
  ⟨.tool, "x", none, [], [⟨"../escape.txt", "", none⟩], none, none⟩

/-- An item whose single file path is `"."`: it normalizes to `"."` and the
planned write path equals the target directory itself. -/
def dotFileItem : RegistryItemV1 :=
  ⟨.tool, "dot", none, [], [⟨".", "c", none⟩], none, none⟩

def projConfigRoot : ConfigRoot :=
  ⟨.project, "/proj", "/proj/.opencode", "/proj/.opencode/opencode.jsonc"⟩

def globalConfigRoot : ConfigRoot :=
  ⟨.global, "/home/u/.config/opencode", "/home/u/.config/opencode",
   "/home/u/.config/opencode/opencode.jsonc"⟩

/-- A world in which every filesystem operation succeeds. -/
def worldOK : World :=
  { mkdirR := fun _ => none
    mkdtempR := fun pre => .ok (pre ++ "XXXX")
    renameR := fun _ _ => none
    rmR := fun _ => none
    chmodR := fun _ _ => none
    statR := fun _ => false
    writeR := fun _ _ => none
    readR := fun _ => none
    spawnR := fun _ _ => .ok 0
    parseJsonR := fun _ => .err "unused"
    now := 7
    cwd := "/proj" }

def helloItem : RegistryItemV1 :=
  ⟨.tool, "hello", none, [], [⟨"index.ts", "export \x7b\x7d", none⟩], none, none⟩

def postItem : RegistryItemV1 :=
  ⟨.agent, "post", none, [], [⟨"index.ts", "", none⟩], none,
   some ⟨["echo hi"], none⟩⟩

def mkResolved (it : RegistryItemV1) (src : String) : ResolvedItem := ⟨it, src⟩

/-- Diamond dependency environment: `A → B`, `C → B`. -/
def diamondEnv : List (String × ResolvedItem) :=
  [("A", ⟨⟨.tool, "A", none, ["B"], [], none, none⟩, "embedded:tool/A"⟩),
   ("B", ⟨⟨.tool, "B", none, [], [], none, none⟩, "embedded:tool/B"⟩),
   ("C", ⟨⟨.tool, "C", none, ["B"], [], none, none⟩, "embedded:tool/C"⟩)]

/-- Cyclic dependency environment: `A → B → A`. -/
def cycleEnv : List (String × ResolvedItem) :=
  [("A", ⟨⟨.tool, "A", none, ["B"], [], none, none⟩, "embedded:tool/A"⟩),
   ("B", ⟨⟨.tool, "B", none, ["A"], [], none, none⟩, "embedded:tool/B"⟩)]

/-- Segments of a path as resolved against the filesystem root (for an
absolute path this is what `posixResolve` computes). -/
def segsOfAbs (p : String) : List String := normSegsAcc false [] (splitSlash p)

/-- The write paths of a planning result, for concrete evaluation. -/
def planWritePaths (r : Result (List InstallPlan) InstallError) : List (List String) :=
  match r with
  | .ok plans => plans.map (fun p => p.writes.map (fun w => w.path))
  | .err _ => []

/-- The target directories of a planning result, for concrete evaluation. -/
def planTargetDirs (r : Result (List InstallPlan) InstallError) : List String :=
  match r with
  | .ok plans => plans.map (fun p => p.item.targetDir)
  | .err _ => []

/-- The plan list of a planning result (`[]` on error), for concrete evaluation. -/
def plansOf (r : Result (List InstallPlan) InstallError) : List InstallPlan :=
  match r with
  | .ok plans => plans
  | .err _ => []

/-- Two minimal plans with different config roots, for the shared-root check. -/
def planProj : InstallPlan :=
  { configRoot := projConfigRoot
    item := ⟨.tool, "a", "src", "/proj/.opencode/tool/a", ".opencode/tool/a/index.ts"⟩
    mkdirs := []
    writes := []
    configEdits := []
    postinstall := none }

def planGlob : InstallPlan :=
  { configRoot := globalConfigRoot
    item := ⟨.tool, "b", "src", "/home/u/.config/opencode/tool/b", "tool/b/index.ts"⟩
    mkdirs := []
    writes := []
    configEdits := []
    postinstall := none }

/-- One dependency step of the resolver's graph: the item fetched for `s`
lists `d` among its registry dependencies. -/
def stepB (env : List (String × ResolvedItem)) (s d : String) : Bool :=
  match lookupEnv env s with
  | some r => decide (d ∈ r.item.registryDependencies)
  | none => false

/-- The identity key of the item a spec resolves to (`""` if unknown). -/
def specKey (env : List (String × ResolvedItem)) (s : String) : String :=
  match lookupEnv env s with
  | some r => keyOf r.item
  | none => ""

/-- Two specs resolving to items with the same identity key but different
provenance, for the first-seen-wins check. -/
def dupEnv : List (String × ResolvedItem) :=
  [("X", ⟨⟨.tool, "dup", none, [], [], none, none⟩, "registry-one:tool/dup"⟩),
   ("Y", ⟨⟨.tool, "dup", none, [], [], none, none⟩, "registry-two:tool/dup"⟩)]

/-! # Theorems -/

theorem parseKindV1_ok {v : JSVal} {k : OCXItemKind} (h : parseKindV1 v = some k) :
    v = .jstr (kindStr k).data := by
  cases v with
  | jstr s =>
    rw [parseKindV1] at h
    split_ifs at h with h1 h2 h3 h4 <;> cases h
    · rw [h1]; rfl
    · rw [h2]; rfl
    · rw [h3]; rfl
    · rw [h4]; rfl
  | undef => simp [parseKindV1] at h
  | jnull => simp [parseKindV1] at h
  | jbool b => simp [parseKindV1] at h
  | jnum n => simp [parseKindV1] at h
  | jarr l => simp [parseKindV1] at h
  | jobj l => simp [parseKindV1] at h

theorem parseOneFileV1_path {f : JSVal} {rf : RegFile}
    (h : parseOneFileV1 f = .ok rf) : rf.path ≠ "" := by
  cases f with
  | jobj fields =>
    rw [parseOneFileV1] at h
    split at h
    · split_ifs at h with hlen
      · exact absurd h (by simp [parseErr])
      · split at h
        · cases h
          intro hc
          apply hlen
          have hd := congrArg String.data hc
          simp at hd
          simp [hd]
        · split_ifs at h with hm1 hm2
          · cases h
            intro hc
            apply hlen
            have hd := congrArg String.data hc
            simp at hd
            simp [hd]
          · cases h
            intro hc
            apply hlen
            have hd := congrArg String.data hc
            simp at hd
            simp [hd]
          · exact absurd h (by simp [parseErr])
        · exact absurd h (by simp [parseErr])
    · split_ifs at h <;> exact absurd h (by simp [parseErr])
    · exact absurd h (by simp [parseErr])
  | undef => exact absurd h (by simp [parseOneFileV1, parseErr])
  | jnull => exact absurd h (by simp [parseOneFileV1, parseErr])
  | jbool b => exact absurd h (by simp [parseOneFileV1, parseErr])
  | jnum n => exact absurd h (by simp [parseOneFileV1, parseErr])
  | jstr s => exact absurd h (by simp [parseOneFileV1, parseErr])
  | jarr l => exact absurd h (by simp [parseOneFileV1, parseErr])

theorem parseFilesV1_paths {lraw : List JSVal} {files : List RegFile}
    (h : parseFilesV1 lraw = .ok files) : ∀ f ∈ files, f.path ≠ "" := by
  induction lraw generalizing files with
  | nil =>
    rw [parseFilesV1] at h
    cases h
    simp
  | cons x rest ih =>
    rw [parseFilesV1] at h
    split at h
    · exact absurd h (by simp)
    · rename_i rf hrf
      split at h
      · exact absurd h (by simp)
      · rename_i fs hfs
        cases h
        intro f hf
        rcases List.mem_cons.mp hf with h1 | h1
        · subst h1; exact parseOneFileV1_path hrf
        · exact ih hfs f h1

/-- C6 (amended): a successful `parseV1` guarantees the structural invariants
it actually checks — a recognised `kind`, a `name` that is non-empty even
after trimming, files with non-empty string paths and `mode` restricted to
`0644`/`0755` — while path relativity is *not* checked at parse time (see the
counterexample). -/
theorem parseV1_structural_invariants {raw : JSVal} {item : RegistryItemV1}
    (h : parseV1 raw = .ok item) :
    jsvField raw "kind".data = .jstr (kindStr item.kind).data ∧
    jsvField raw "name".data = .jstr item.name.data ∧
    (trimChars item.name.data).length ≠ 0 ∧ item.name ≠ "" ∧
    (∀ f ∈ item.files, f.path ≠ "" ∧ ∀ m, f.mode = some m → m = .m644 ∨ m = .m755) := by
  cases raw with
  | jobj fields =>
    rw [parseV1] at h
    split at h
    · split at h
      · exact absurd h (by simp [parseErr])
      · rename_i kind hkind
        split at h
        · rename_i name hname
          split_ifs at h with htrim
          · exact absurd h (by simp [parseErr])
          · split at h
            · cases h
            · split at h
              · cases h
              · split at h
                · rename_i filesRaw hfilesRaw
                  split at h
                  · cases h
                  · rename_i files hpf
                    split at h
                    · cases h
                    · split at h
                      · cases h
                      · cases h
                        refine ⟨?_, ?_, ?_, ?_, ?_⟩
                        · simpa [jsvField] using parseKindV1_ok hkind
                        · simpa [jsvField] using hname
                        · exact htrim
                        · intro hc
                          apply htrim
                          have hd := congrArg String.data hc
                          simp at hd
                          simp [hd, trimChars]
                        · intro f hf
                          refine ⟨parseFilesV1_paths hpf f hf, ?_⟩
                          intro m _
                          cases m
                          · exact Or.inl rfl
                          · exact Or.inr rfl
                · exact absurd h (by simp [parseErr])
        · exact absurd h (by simp [parseErr])
    · exact absurd h (by simp [parseErr])
  | undef => exact absurd h (by simp [parseV1, parseErr])
  | jnull => exact absurd h (by simp [parseV1, parseErr])
  | jbool b => exact absurd h (by simp [parseV1, parseErr])
  | jnum n => exact absurd h (by simp [parseV1, parseErr])
  | jstr s => exact absurd h (by simp [parseV1, parseErr])
  | jarr l => exact absurd h (by simp [parseV1, parseErr])

/-- C6 counterexample: a manifest whose file path is `"../escape.txt"` is
*accepted* by `parseV1`, with the escaping path kept verbatim — parse-time
rejection of absolute/escaping paths, as claimed, does not happen. -/
theorem parseV1_accepts_escaping_path :
    parseV1 escapingRaw = .ok escapingItem ∧
    escapingItem.files.map RegFile.path = ["../escape.txt"] ∧
    strStarts "../escape.txt" "../" = true := by
  refine ⟨?_, by decide, by decide⟩
  decide

/-- C6 witness: `parseV1_structural_invariants` applied to the escaping-path
manifest, which parses successfully. -/
theorem parseV1_structural_invariants_witness :
    jsvField escapingRaw "kind".data = .jstr (kindStr escapingItem.kind).data ∧
    jsvField escapingRaw "name".data = .jstr escapingItem.name.data ∧
    (trimChars escapingItem.name.data).length ≠ 0 ∧ escapingItem.name ≠ "" ∧
    (∀ f ∈ escapingItem.files, f.path ≠ "" ∧
      ∀ m, f.mode = some m → m = .m644 ∨ m = .m755) :=
  parseV1_structural_invariants (by decide)

theorem normalizeRelPath_err {p : String} {e : InstallError}
    (h : normalizeRelPath p = .err e) : ∃ q m, e = .invalidRegistryFilePath q m := by
  unfold normalizeRelPath at h
  dsimp only at h
  split_ifs at h <;> (cases h; exact ⟨_, _, rfl⟩)

theorem planWrites_err {targetDir : String} {files : List RegFile} {e : InstallError}
    (h : planWrites targetDir files = .err e) : ∃ q m, e = .invalidRegistryFilePath q m := by
  induction files with
  | nil => rw [planWrites] at h; cases h
  | cons f rest ih =>
    rw [planWrites] at h
    split at h
    · rename_i e0 he0
      cases h
      exact normalizeRelPath_err he0
    · split at h
      · rename_i e0 he0
        cases h
        exact ih he0
      · cases h

theorem planOne_err {root : ConfigRoot} {r : ResolvedItem} {e : InstallError}
    (h : planOne root r = .err e) : ∃ q m, e = .invalidRegistryFilePath q m := by
  unfold planOne at h
  dsimp only at h
  split at h
  · rename_i e0 he0
    cases h
    exact normalizeRelPath_err he0
  · split at h
    · rename_i e0 he0
      cases h
      exact planWrites_err he0
    · cases h

theorem planInstalls_err {resolved : List ResolvedItem} {root : ConfigRoot} {e : InstallError}
    (h : planInstalls resolved root = .err e) : ∃ q m, e = .invalidRegistryFilePath q m := by
  induction resolved with
  | nil => rw [planInstalls] at h; cases h
  | cons r rest ih =>
    rw [planInstalls] at h
    split at h
    · rename_i e0 he0
      cases h
      exact planOne_err he0
    · split at h
      · rename_i e0 he0
        cases h
        exact ih he0
      · cases h

theorem planWrites_bad_file {targetDir : String} {files : List RegFile}
    (h : ∃ f ∈ files, ∃ e, normalizeRelPath f.path = .err e) :
    ∃ e, planWrites targetDir files = .err e := by
  induction files with
  | nil => simp at h
  | cons f rest ih =>
    rw [planWrites]
    rcases h with ⟨f0, hf0, e0, he0⟩
    rcases List.mem_cons.mp hf0 with h1 | h1
    · subst h1
      rw [he0]
      exact ⟨e0, rfl⟩
    · split
      · exact ⟨_, rfl⟩
      · rcases ih ⟨f0, h1, e0, he0⟩ with ⟨e1, he1⟩
        rw [he1]
        exact ⟨e1, rfl⟩

theorem planOne_bad {root : ConfigRoot} {r : ResolvedItem}
    (h : (∃ e, normalizeRelPath (r.item.entry.getD "index.ts") = .err e) ∨
      ∃ f ∈ r.item.files, ∃ e, normalizeRelPath f.path = .err e) :
    ∃ e, planOne root r = .err e := by
  unfold planOne
  dsimp only
  rcases h with ⟨e0, he0⟩ | hf
  · rw [he0]
    exact ⟨e0, rfl⟩
  · split
    · exact ⟨_, rfl⟩
    · rcases @planWrites_bad_file
        (posixJoin [posixJoin [root.opencodeDir, kindStr r.item.kind], r.item.name])
        r.item.files hf with ⟨e1, he1⟩
      rw [he1]
      exact ⟨e1, rfl⟩

theorem planInstalls_bad {resolved : List ResolvedItem} {root : ConfigRoot}
    (h : ∃ r ∈ resolved,
      (∃ e, normalizeRelPath (r.item.entry.getD "index.ts") = .err e) ∨
      ∃ f ∈ r.item.files, ∃ e, normalizeRelPath f.path = .err e) :
    ∃ e, planInstalls resolved root = .err e := by
  induction resolved with
  | nil => simp at h
  | cons r rest ih =>
    rw [planInstalls]
    rcases h with ⟨r0, hr0, hbad⟩
    rcases List.mem_cons.mp hr0 with h1 | h1
    · subst h1
      rcases @planOne_bad root r0 hbad with ⟨e0, he0⟩
      rw [he0]
      exact ⟨e0, rfl⟩
    · split
      · exact ⟨_, rfl⟩
      · rcases ih ⟨r0, h1, hbad⟩ with ⟨e1, he1⟩
        rw [he1]
        exact ⟨e1, rfl⟩

theorem planOne_entry_default {root : ConfigRoot} {r : ResolvedItem} {plan : InstallPlan}
    (h : planOne root r = .ok plan) (he : r.item.entry = none) :
    plan.item.entryRel = computeDirRel root r.item.kind r.item.name ++ "/index.ts" := by
  unfold planOne at h
  dsimp only at h
  rw [he] at h
  have hnorm : normalizeRelPath (Option.getD none "index.ts") = .ok "index.ts" := by decide
  rw [hnorm] at h
  dsimp only at h
  split at h
  · cases h
  · cases h
    dsimp only
    rw [String.append_assoc]
    have : ("/" ++ "index.ts" : String) = "/index.ts" := by decide
    rw [this]

/-- C7: a resolved item carrying a file path or entry path that fails to
normalize to a non-empty, non-absolute, non-escaping relative path makes
`planInstalls` return `InvalidRegistryFilePath` — the only error the pure
planner ever produces, so no plans (and no I/O) result; the entry path
defaults to `index.ts` when unspecified. -/
theorem planInstalls_path_validation :
    (∀ (resolved : List ResolvedItem) (root : ConfigRoot) (e : InstallError),
      planInstalls resolved root = .err e → ∃ p m, e = .invalidRegistryFilePath p m) ∧
    (∀ (resolved : List ResolvedItem) (root : ConfigRoot),
      (∃ r ∈ resolved,
        (∃ e, normalizeRelPath (r.item.entry.getD "index.ts") = .err e) ∨
        ∃ f ∈ r.item.files, ∃ e, normalizeRelPath f.path = .err e) →
      ∃ p m, planInstalls resolved root = .err (.invalidRegistryFilePath p m)) ∧
    (∀ (root : ConfigRoot) (r : ResolvedItem) (plan : InstallPlan),
      planOne root r = .ok plan → r.item.entry = none →
      plan.item.entryRel = computeDirRel root r.item.kind r.item.name ++ "/index.ts") := by
  refine ⟨fun resolved root e h => planInstalls_err h, ?_, fun root r plan h he =>
    planOne_entry_default h he⟩
  intro resolved root h
  rcases @planInstalls_bad resolved root h with ⟨e, he⟩
  rcases planInstalls_err he with ⟨p, m, hpm⟩
  exact ⟨p, m, by rw [← hpm]; exact he⟩

/-- C7 witness: planning the `"../escape.txt"` item fails with
`InvalidRegistryFilePath`, and the entry of a plan for an item without an
explicit entry is `index.ts` under the item directory. -/
theorem planInstalls_path_validation_witness :
    (∃ p m, planInstalls [⟨escapingItem, "src"⟩] projConfigRoot =
      .err (.invalidRegistryFilePath p m)) ∧
    (∀ plan, planOne projConfigRoot ⟨helloItem, "src"⟩ = .ok plan →
      plan.item.entryRel = ".opencode/tool/hello/index.ts") := by
  constructor
  · exact planInstalls_path_validation.2.1 [⟨escapingItem, "src"⟩] projConfigRoot
      ⟨⟨escapingItem, "src"⟩, by simp, Or.inr ⟨⟨"../escape.txt", "", none⟩, by decide,
        ⟨.invalidRegistryFilePath "../escape.txt" "Registry file path cannot escape target dir",
         by decide⟩⟩⟩
  · intro plan h
    have := planInstalls_path_validation.2.2 projConfigRoot ⟨helloItem, "src"⟩ plan h (by decide)
    rw [this]
    decide

/-! Path-segment lemmas for the planner's write-path invariant. -/

theorem splitSlashAux_no_slash {cur : List Char} (hc : '/' ∉ cur) :
    ∀ l : List Char, ∀ s ∈ splitSlashAux cur l, '/' ∉ s.data := by
  intro l
  induction l generalizing cur with
  | nil =>
    intro s hs
    simp [splitSlashAux] at hs
    subst hs
    simp
    intro hmem
    exact hc hmem
  | cons c rest ih =>
    intro s hs
    rw [splitSlashAux] at hs
    by_cases hcs : c = '/'
    · rw [if_pos hcs] at hs
      rcases List.mem_cons.mp hs with h1 | h1
      · subst h1
        simp
        intro hmem
        exact hc hmem
      · exact ih (by simp) s h1
    · rw [if_neg hcs] at hs
      refine ih ?_ s hs
      intro hx
      rcases List.mem_cons.mp hx with h1 | h1
      · exact hcs h1.symm
      · exact hc h1

theorem splitSlashAux_append {l1 : List Char} :
    ∀ (cur : List Char) (l2 : List Char),
      splitSlashAux cur (l1 ++ '/' :: l2) = splitSlashAux cur l1 ++ splitSlashAux [] l2 := by
  induction l1 with
  | nil =>
    intro cur l2
    simp [splitSlashAux]
  | cons c rest ih =>
    intro cur l2
    by_cases hcs : c = '/'
    · simp only [List.cons_append, splitSlashAux, if_pos hcs, List.append_eq]
      rw [ih]
    · simp only [List.cons_append, splitSlashAux, if_neg hcs, List.append_eq]
      rw [ih]

theorem splitSlashAux_no_slash_eq {l : List Char} (hl : '/' ∉ l) :
    ∀ cur, splitSlashAux cur l = [⟨cur.reverse ++ l⟩] := by
  induction l with
  | nil => intro cur; simp [splitSlashAux]
  | cons c rest ih =>
    intro cur
    rw [splitSlashAux]
    rw [if_neg (by intro hc; exact hl (by simp [hc]))]
    rw [ih (by intro hx; exact hl (by simp [hx]))]
    simp

theorem splitSlash_single {s : String} (h : '/' ∉ s.data) : splitSlash s = [s] := by
  unfold splitSlash
  rw [splitSlashAux_no_slash_eq h]
  simp

theorem splitSlash_append (a b : String) :
    splitSlash (a ++ "/" ++ b) = splitSlash a ++ splitSlash b := by
  unfold splitSlash
  have hd : (a ++ "/" ++ b).data = a.data ++ '/' :: b.data := by
    simp [String.data_append]
  rw [hd]
  exact splitSlashAux_append [] b.data

theorem splitSlash_join {ss : List String} (h : ss ≠ []) :
    splitSlash (joinSegs ss) = ss.flatMap splitSlash := by
  induction ss with
  | nil => exact absurd rfl h
  | cons s rest ih =>
    cases rest with
    | nil => simp [joinSegs, List.flatMap]
    | cons t ts =>
      rw [show joinSegs (s :: t :: ts) = s ++ "/" ++ joinSegs (t :: ts) from rfl]
      rw [splitSlash_append]
      rw [ih (by simp)]
      simp [List.flatMap]

theorem flatMap_splitSlash_id {l : List String} (h : ∀ s ∈ l, '/' ∉ s.data) :
    l.flatMap splitSlash = l := by
  induction l with
  | nil => simp
  | cons s rest ih =>
    rw [List.flatMap_cons]
    rw [splitSlash_single (h s (by simp))]
    rw [ih (fun x hx => h x (by simp [hx]))]
    rfl

theorem splitSlash_elems_no_slash {p : String} : ∀ s ∈ splitSlash p, '/' ∉ s.data :=
  splitSlashAux_no_slash (by simp) p.data

theorem string_ne_of_data_ne {q : String} (h : q.data ≠ []) : q ≠ "" := by
  intro he
  subst he
  exact h rfl

theorem abs_head {q : String} (h : pathIsAbsolute q = true) :
    ∃ l, q.data = '/' :: l := by
  unfold pathIsAbsolute strStarts at h
  cases hd : q.data with
  | nil => rw [hd] at h; simp [List.isPrefixOf] at h
  | cons c t =>
    rw [hd] at h
    simp [List.isPrefixOf] at h
    exact ⟨t, by rw [h]⟩

theorem abs_of_head {q : String} {l : List Char} (h : q.data = '/' :: l) :
    pathIsAbsolute q = true := by
  unfold pathIsAbsolute strStarts
  rw [h]
  simp [List.isPrefixOf]

theorem abs_append {a b : String} (h : pathIsAbsolute a = true) :
    pathIsAbsolute (a ++ b) = true := by
  obtain ⟨l, hl⟩ := abs_head h
  apply abs_of_head (l := l ++ b.data)
  simp [String.data_append, hl]

theorem dotslash_head {q : String} (h : strStarts q "./" = true) :
    ∃ l, q.data = '.' :: '/' :: l := by
  unfold strStarts at h
  cases hd : q.data with
  | nil => rw [hd] at h; simp [List.isPrefixOf] at h
  | cons c t =>
    rw [hd] at h
    cases t with
    | nil => simp [List.isPrefixOf] at h
    | cons c2 t2 =>
      simp [List.isPrefixOf] at h
      exact ⟨t2, by rw [h.1, h.2]⟩

theorem joinSegs_cons_data (s : String) (ss : List String) :
    ∃ t, (joinSegs (s :: ss)).data = s.data ++ t := by
  cases ss with
  | nil => exact ⟨[], by simp [joinSegs]⟩
  | cons a as =>
    refine ⟨'/' :: (joinSegs (a :: as)).data, ?_⟩
    rw [show joinSegs (s :: a :: as) = s ++ "/" ++ joinSegs (a :: as) from rfl]
    simp [String.data_append]

theorem normSegsAcc_cons (a : Bool) (acc : List String) (seg : String)
    (rest : List String) :
    normSegsAcc a acc (seg :: rest) =
      (if seg = "" ∨ seg = "." then normSegsAcc a acc rest
       else if seg = ".." then
         match acc with
         | [] => if a then normSegsAcc a [".."] rest else normSegsAcc a [] rest
         | top :: acc2 =>
           if top = ".." then
             (if a then normSegsAcc a (".." :: acc) rest
              else normSegsAcc a (top :: acc2) rest)
           else normSegsAcc a acc2 rest
       else normSegsAcc a (seg :: acc) rest) := rfl

theorem normSegsAcc_mem {a : Bool} :
    ∀ (ys acc : List String), ∀ s ∈ normSegsAcc a acc ys, s ∈ acc ∨ s ∈ ys := by
  intro ys
  induction ys with
  | nil =>
    intro acc s hs
    simp [normSegsAcc] at hs
    exact Or.inl hs
  | cons seg rest ih =>
    intro acc s hs
    rw [normSegsAcc_cons] at hs
    by_cases h1 : seg = "" ∨ seg = "."
    · rw [if_pos h1] at hs
      rcases ih acc s hs with h | h
      · exact Or.inl h
      · exact Or.inr (by simp [h])
    · rw [if_neg h1] at hs
      by_cases h2 : seg = ".."
      · rw [if_pos h2] at hs
        cases acc with
        | nil =>
          cases a with
          | false =>
            simp at hs
            rcases ih [] s hs with h | h
            · exact absurd h (by simp)
            · exact Or.inr (by simp [h])
          | true =>
            simp at hs
            rcases ih [".."] s hs with h | h
            · simp at h; subst h; exact Or.inr (by simp [h2])
            · exact Or.inr (by simp [h])
        | cons top acc2 =>
          simp only [] at hs
          by_cases h3 : top = ".."
          · rw [if_pos h3] at hs
            cases a with
            | false =>
              simp at hs
              rcases ih (top :: acc2) s hs with h | h
              · exact Or.inl h
              · exact Or.inr (by simp [h])
            | true =>
              simp at hs
              rcases ih (".." :: top :: acc2) s hs with h | h
              · rcases List.mem_cons.mp h with h4 | h4
                · subst h4; exact Or.inr (by simp [h2])
                · exact Or.inl h4
              · exact Or.inr (by simp [h])
          · rw [if_neg h3] at hs
            rcases ih acc2 s hs with h | h
            · exact Or.inl (by simp [h])
            · exact Or.inr (by simp [h])
      · rw [if_neg h2] at hs
        rcases ih (seg :: acc) s hs with h | h
        · rcases List.mem_cons.mp h with h4 | h4
          · subst h4; exact Or.inr (by simp)
          · exact Or.inl h4
        · exact Or.inr (by simp [h])

theorem normSegsAcc_clean {a : Bool} :
    ∀ (ys acc : List String), (∀ s ∈ acc, s ≠ "" ∧ s ≠ ".") →
      ∀ s ∈ normSegsAcc a acc ys, s ≠ "" ∧ s ≠ "." := by
  intro ys
  induction ys with
  | nil =>
    intro acc hacc s hs
    simp [normSegsAcc] at hs
    exact hacc s hs
  | cons seg rest ih =>
    intro acc hacc s hs
    rw [normSegsAcc_cons] at hs
    by_cases h1 : seg = "" ∨ seg = "."
    · rw [if_pos h1] at hs
      exact ih acc hacc s hs
    · rw [if_neg h1] at hs
      by_cases h2 : seg = ".."
      · rw [if_pos h2] at hs
        cases acc with
        | nil =>
          cases a with
          | false => simp at hs; exact ih [] (by simp) s hs
          | true =>
            simp at hs
            refine ih [".."] ?_ s hs
            intro x hx
            simp at hx
            subst hx
            exact ⟨by decide, by decide⟩
        | cons top acc2 =>
          simp only [] at hs
          by_cases h3 : top = ".."
          · rw [if_pos h3] at hs
            cases a with
            | false => simp at hs; exact ih (top :: acc2) hacc s hs
            | true =>
              simp at hs
              refine ih (".." :: top :: acc2) ?_ s hs
              intro x hx
              rcases List.mem_cons.mp hx with h4 | h4
              · subst h4; exact ⟨by decide, by decide⟩
              · exact hacc x h4
          · rw [if_neg h3] at hs
            exact ih acc2 (fun x hx => hacc x (by simp [hx])) s hs
      · rw [if_neg h2] at hs
        refine ih (seg :: acc) ?_ s hs
        intro x hx
        rcases List.mem_cons.mp hx with h4 | h4
        · subst h4
          push_neg at h1
          exact h1
        · exact hacc x h4

theorem normSegsAcc_false_no_up :
    ∀ (ys acc : List String), (∀ s ∈ acc, s ≠ "..") →
      ∀ s ∈ normSegsAcc false acc ys, s ≠ ".." := by
  intro ys
  induction ys with
  | nil =>
    intro acc hacc s hs
    simp [normSegsAcc] at hs
    exact hacc s hs
  | cons seg rest ih =>
    intro acc hacc s hs
    rw [normSegsAcc_cons] at hs
    by_cases h1 : seg = "" ∨ seg = "."
    · rw [if_pos h1] at hs
      exact ih acc hacc s hs
    · rw [if_neg h1] at hs
      by_cases h2 : seg = ".."
      · rw [if_pos h2] at hs
        cases acc with
        | nil => simp at hs; exact ih [] (by simp) s hs
        | cons top acc2 =>
          simp only [] at hs
          by_cases h3 : top = ".."
          · exact absurd h3 (hacc top (by simp))
          · rw [if_neg h3] at hs
            exact ih acc2 (fun x hx => hacc x (by simp [hx])) s hs
      · rw [if_neg h2] at hs
        refine ih (seg :: acc) ?_ s hs
        intro x hx
        rcases List.mem_cons.mp hx with h4 | h4
        · subst h4; exact h2
        · exact hacc x h4

theorem normSegsAcc_append (a : Bool) :
    ∀ (xs ys acc : List String),
      normSegsAcc a acc (xs ++ ys) =
        normSegsAcc a ((normSegsAcc a acc xs).reverse) ys := by
  intro xs
  induction xs with
  | nil =>
    intro ys acc
    simp [normSegsAcc]
  | cons seg rest ih =>
    intro ys acc
    rw [List.cons_append, normSegsAcc_cons, normSegsAcc_cons]
    by_cases h1 : seg = "" ∨ seg = "."
    · rw [if_pos h1, if_pos h1, ih]
    · rw [if_neg h1, if_neg h1]
      by_cases h2 : seg = ".."
      · rw [if_pos h2, if_pos h2]
        cases acc with
        | nil =>
          simp only []
          by_cases ha : a = true
          · rw [if_pos ha, if_pos ha, ih]
          · rw [if_neg ha, if_neg ha, ih]
        | cons top acc2 =>
          simp only []
          by_cases h3 : top = ".."
          · rw [if_pos h3, if_pos h3]
            by_cases ha : a = true
            · rw [if_pos ha, if_pos ha, ih]
            · rw [if_neg ha, if_neg ha, ih]
          · rw [if_neg h3, if_neg h3, ih]
      · rw [if_neg h2, if_neg h2, ih]

theorem normSegsAcc_no_up_eq {a : Bool} :
    ∀ (ys : List String), (∀ s ∈ ys, s ≠ "..") →
      ∀ acc, normSegsAcc a acc ys =
        acc.reverse ++ ys.filter (fun s => decide (s ≠ "" ∧ s ≠ ".")) := by
  intro ys
  induction ys with
  | nil =>
    intro _ acc
    simp [normSegsAcc]
  | cons seg rest ih =>
    intro hys acc
    rw [normSegsAcc_cons]
    by_cases h1 : seg = "" ∨ seg = "."
    · rw [if_pos h1, ih (fun s hs => hys s (by simp [hs]))]
      have : (decide (seg ≠ "" ∧ seg ≠ ".")) = false := by
        rcases h1 with h | h <;> simp [h]
      rw [List.filter_cons, this]
      simp
    · rw [if_neg h1]
      rw [if_neg (hys seg (by simp))]
      rw [ih (fun s hs => hys s (by simp [hs]))]
      push_neg at h1
      have : (decide (seg ≠ "" ∧ seg ≠ ".")) = true := by simp [h1.1, h1.2]
      rw [List.filter_cons, this]
      simp

theorem normSegsAcc_true_shape :
    ∀ (ys front : List String) (k : Nat), ".." ∉ front →
      ∃ f k2, normSegsAcc true (front ++ List.replicate k "..") ys =
        List.replicate k2 ".." ++ f ∧ ".." ∉ f := by
  intro ys
  induction ys with
  | nil =>
    intro front k hf
    refine ⟨front.reverse, k, ?_, by simp [hf]⟩
    simp [normSegsAcc, List.reverse_append]
  | cons seg rest ih =>
    intro front k hf
    rw [normSegsAcc_cons]
    by_cases h1 : seg = "" ∨ seg = "."
    · rw [if_pos h1]
      exact ih front k hf
    · rw [if_neg h1]
      by_cases h2 : seg = ".."
      · rw [if_pos h2]
        cases hfr : front ++ List.replicate k ".." with
        | nil =>
          simp only [if_pos rfl]
          have := ih [] 1 (by simp)
          simpa using this
        | cons top acc2 =>
          simp only []
          cases front with
          | nil =>
            have hk : ∃ k3, k = k3 + 1 := by
              cases k with
              | zero => simp at hfr
              | succ k3 => exact ⟨k3, rfl⟩
            obtain ⟨k3, hk3⟩ := hk
            subst hk3
            simp only [List.nil_append] at hfr
            have htop : top = ".." := by
              have := congrArg List.head? hfr
              simp [List.replicate_succ] at this
              exact this.symm
            rw [if_pos htop]
            rw [if_pos trivial]
            have := ih [] (k3 + 2) (by simp)
            simp only [List.nil_append] at this ⊢
            rw [← hfr, ← List.replicate_succ]
            simpa using this
          | cons f0 fr =>
            simp only [List.cons_append, List.cons.injEq] at hfr
            have hne : top ≠ ".." := by
              rw [← hfr.1]
              intro hx
              exact hf (by simp [hx])
            rw [if_neg hne]
            have := ih fr k (fun hx => hf (by simp [hx]))
            rw [← hfr.2]
            exact this
      · rw [if_neg h2]
        have := ih (seg :: front) k (by
          intro hx
          rcases List.mem_cons.mp hx with h4 | h4
          · exact h2 h4.symm
          · exact hf h4)
        simpa using this

theorem splitSlash_slash_cons (b : String) :
    splitSlash ("/" ++ b) = "" :: splitSlash b := by
  unfold splitSlash
  have hd : ("/" ++ b).data = '/' :: b.data := by simp [String.data_append]
  rw [hd, splitSlashAux]
  simp

theorem str_append_empty (a : String) : a ++ "" = a := by
  apply congrArg String.mk
  show (a ++ "").data = a.data
  simp [String.data_append]

theorem splitSlash_trail (a : String) : splitSlash (a ++ "/") = splitSlash a ++ [""] := by
  have h := splitSlash_append a ""
  rw [str_append_empty] at h
  rw [h]
  rfl

theorem segsOfAbs_clean {q : String} : ∀ s ∈ segsOfAbs q, s ≠ "" ∧ s ≠ "." :=
  normSegsAcc_clean (splitSlash q) [] (by simp)

theorem segsOfAbs_no_up {q : String} : ∀ s ∈ segsOfAbs q, s ≠ ".." :=
  normSegsAcc_false_no_up (splitSlash q) [] (by simp)

theorem segsOfAbs_no_slash {q : String} : ∀ s ∈ segsOfAbs q, '/' ∉ s.data := by
  intro s hs
  rcases normSegsAcc_mem (splitSlash q) [] s hs with h | h
  · exact absurd h (by simp)
  · exact splitSlash_elems_no_slash s h

theorem filter_clean_eq {l : List String} (h : ∀ s ∈ l, s ≠ "" ∧ s ≠ ".") :
    l.filter (fun s => decide (s ≠ "" ∧ s ≠ ".")) = l := by
  apply List.filter_eq_self.mpr
  intro a ha
  simp [(h a ha).1, (h a ha).2]

theorem segsOfAbs_normalize {q : String} (h : pathIsAbsolute q = true) :
    segsOfAbs (posixNormalize q) = segsOfAbs q := by
  obtain ⟨l, hl⟩ := abs_head h
  have hqne : q ≠ "" := string_ne_of_data_ne (by rw [hl]; simp)
  have habs : strStarts q "/" = true := h
  unfold posixNormalize
  rw [if_neg hqne]
  simp only [habs, Bool.not_true, if_true]
  by_cases hseg : normSegsAcc false [] (splitSlash q) = []
  · rw [if_pos hseg]
    show segsOfAbs "/" = segsOfAbs q
    have h2 : segsOfAbs q = [] := hseg
    rw [h2]
    decide
  · rw [if_neg hseg]
    have hclean := segsOfAbs_clean (q := q)
    have hnoup := segsOfAbs_no_up (q := q)
    have hnosl := segsOfAbs_no_slash (q := q)
    have hcore : splitSlash (joinSegs (normSegsAcc false [] (splitSlash q))) =
        segsOfAbs q := by
      rw [splitSlash_join hseg]
      rw [show normSegsAcc false [] (splitSlash q) = segsOfAbs q from rfl]
      rw [flatMap_splitSlash_id hnosl]
    by_cases htr : strEndsSlash q = true
    · rw [htr]
      simp only [if_true]
      show segsOfAbs ("/" ++ (joinSegs (normSegsAcc false [] (splitSlash q)) ++ "/")) =
        segsOfAbs q
      unfold segsOfAbs
      rw [splitSlash_slash_cons, splitSlash_trail, hcore]
      rw [normSegsAcc_no_up_eq ("" :: (segsOfAbs q ++ [""]))
        (by
          intro s hs
          rcases List.mem_cons.mp hs with h1 | h1
          · subst h1; decide
          · rcases List.mem_append.mp h1 with h2 | h2
            · exact hnoup s h2
            · simp at h2; subst h2; decide) []]
      rw [List.filter_cons, List.filter_append]
      simp only [decide_eq_true_eq]
      rw [filter_clean_eq hclean]
      simp
      rfl
    · simp only [htr]
      simp only [Bool.false_eq_true, if_false]
      show segsOfAbs ("/" ++ joinSegs (normSegsAcc false [] (splitSlash q))) =
        segsOfAbs q
      unfold segsOfAbs
      rw [splitSlash_slash_cons, hcore]
      rw [normSegsAcc_no_up_eq ("" :: segsOfAbs q)
        (by
          intro s hs
          rcases List.mem_cons.mp hs with h1 | h1
          · subst h1; decide
          · exact hnoup s h1) []]
      rw [List.filter_cons]
      simp only [decide_eq_true_eq]
      rw [filter_clean_eq hclean]
      simp
      rfl

theorem posixNormalize_abs {q : String} (h : pathIsAbsolute q = true) :
    pathIsAbsolute (posixNormalize q) = true := by
  obtain ⟨l, hl⟩ := abs_head h
  have hqne : q ≠ "" := string_ne_of_data_ne (by rw [hl]; simp)
  have habs : strStarts q "/" = true := h
  unfold posixNormalize
  rw [if_neg hqne]
  simp only [habs, Bool.not_true, if_true]
  by_cases hseg : normSegsAcc false [] (splitSlash q) = []
  · rw [if_pos hseg]; decide
  · rw [if_neg hseg]
    by_cases htr : strEndsSlash q = true
    · rw [htr]
      simp only [if_true]
      exact abs_append (by decide)
    · simp only [htr, Bool.false_eq_true, if_false]
      exact abs_append (by decide)

theorem posixJoin_abs {a : String} {rest : List String}
    (h : pathIsAbsolute a = true) :
    pathIsAbsolute (posixJoin (a :: rest)) = true := by
  obtain ⟨l, hl⟩ := abs_head h
  have hane : a ≠ "" := string_ne_of_data_ne (by rw [hl]; simp)
  unfold posixJoin
  simp only [List.filter_cons, hane, ne_eq, not_false_iff, if_true, decide_not]
  rw [if_pos (show (!decide False) = true by decide)]
  rw [if_neg (by simp)]
  apply posixNormalize_abs
  obtain ⟨t, ht⟩ := joinSegs_cons_data a (rest.filter (fun s => !decide (s = "")))
  apply abs_of_head (l := l ++ t)
  rw [ht, hl]
  rfl

theorem dest_segs {targetDir rel : String}
    (hT : pathIsAbsolute targetDir = true)
    (hrel : ∀ s ∈ splitSlash rel, s ≠ "..") :
    ∃ extra, segsOfAbs (posixJoin (targetDir :: splitSlash rel)) =
      segsOfAbs targetDir ++ extra ∧
      ∀ s ∈ extra, s ≠ "" ∧ s ≠ "." ∧ s ≠ ".." := by
  obtain ⟨l, hl⟩ := abs_head hT
  have hane : targetDir ≠ "" := string_ne_of_data_ne (by rw [hl]; simp)
  unfold posixJoin
  simp only [List.filter_cons, hane, ne_eq, not_false_iff, if_true, decide_not]
  rw [if_pos (show (!decide False) = true by decide)]
  rw [if_neg (by simp)]
  refine ⟨((splitSlash rel).filter (fun s => !decide (s = ""))).filter
    (fun s => decide (s ≠ "" ∧ s ≠ ".")), ?_, ?_⟩
  · obtain ⟨t, ht⟩ := joinSegs_cons_data targetDir
      ((splitSlash rel).filter (fun s => !decide (s = "")))
    rw [segsOfAbs_normalize (abs_of_head (l := l ++ t) (by rw [ht, hl]; rfl))]
    unfold segsOfAbs
    rw [splitSlash_join (by simp)]
    rw [List.flatMap_cons]
    rw [flatMap_splitSlash_id (by
      intro s hs
      exact splitSlash_elems_no_slash s (List.mem_of_mem_filter hs))]
    rw [normSegsAcc_append]
    rw [show normSegsAcc false [] (splitSlash targetDir) = segsOfAbs targetDir from rfl]
    rw [normSegsAcc_no_up_eq _ (by
      intro s hs
      exact hrel s (List.mem_of_mem_filter hs))]
    simp
  · intro s hs
    have h1 := List.of_mem_filter hs
    have h2 : s ∈ splitSlash rel := List.mem_of_mem_filter (List.mem_of_mem_filter hs)
    simp only [decide_eq_true_eq] at h1
    exact ⟨h1.1, h1.2, hrel s h2⟩

theorem strStarts_append_of {a pre : String} (h : strStarts a pre = true)
    (b : String) : strStarts (a ++ b) pre = true := by
  unfold strStarts at h ⊢
  rw [List.isPrefixOf_iff_prefix] at h ⊢
  rw [String.data_append]
  exact h.trans (List.prefix_append a.data b.data)

theorem strStarts_ddslash (x : String) : strStarts (".." ++ "/" ++ x) "../" = true := by
  unfold strStarts
  rw [List.isPrefixOf_iff_prefix]
  refine ⟨x.data, ?_⟩
  simp [String.data_append]

theorem string_data_inj {a b : String} (h : a.data = b.data) : a = b := by
  cases a
  cases b
  exact congrArg String.mk h

theorem posixNormalize_rel_cases (p : String) (hp : p ≠ "")
    (habs : strStarts p "/" = false) :
    (normSegsAcc true [] (splitSlash p) = [] ∧
      posixNormalize p = (if strEndsSlash p = true then "./" else ".")) ∨
    (normSegsAcc true [] (splitSlash p) ≠ [] ∧
      posixNormalize p = (if strEndsSlash p = true
        then joinSegs (normSegsAcc true [] (splitSlash p)) ++ "/"
        else joinSegs (normSegsAcc true [] (splitSlash p)))) := by
  unfold posixNormalize
  rw [if_neg hp]
  simp only [habs, Bool.not_false, Bool.false_eq_true, if_false, if_true]
  by_cases hseg : normSegsAcc true [] (splitSlash p) = []
  · rw [if_pos hseg]
    exact Or.inl ⟨hseg, rfl⟩
  · rw [if_neg hseg]
    exact Or.inr ⟨hseg, rfl⟩

theorem posixNormalize_dotslash {p : String}
    (h : strStarts (posixNormalize p) "./" = true) : posixNormalize p = "./" := by
  obtain ⟨l, hl⟩ := dotslash_head h
  by_cases hp : p = ""
  · subst hp
    rw [show posixNormalize "" = "." from rfl] at hl
    simp at hl
  · by_cases habsP : strStarts p "/" = true
    · obtain ⟨l2, hl2⟩ := abs_head (posixNormalize_abs (q := p) habsP)
      rw [hl2] at hl
      simp at hl
    · have habsP2 : strStarts p "/" = false := by simpa using habsP
      rcases posixNormalize_rel_cases p hp habsP2 with ⟨_, heq⟩ | ⟨hseg, heq⟩
      · by_cases htr : strEndsSlash p = true
        · rw [if_pos htr] at heq
          exact heq
        · rw [if_neg htr] at heq
          rw [heq] at hl
          simp at hl
      · exfalso
        cases hsegs : normSegsAcc true [] (splitSlash p) with
        | nil => exact hseg hsegs
        | cons s1 ss =>
          have hclean := normSegsAcc_clean (a := true) (splitSlash p) [] (by simp)
          have hnosl : ∀ s ∈ normSegsAcc true [] (splitSlash p), '/' ∉ s.data := by
            intro s hs
            rcases normSegsAcc_mem (splitSlash p) [] s hs with hin | hin
            · exact absurd hin (by simp)
            · exact splitSlash_elems_no_slash s hin
          obtain ⟨t, ht⟩ := joinSegs_cons_data s1 ss
          have hdata : ∃ t2, (posixNormalize p).data = s1.data ++ t2 := by
            rw [heq, hsegs]
            by_cases htr : strEndsSlash p = true
            · rw [if_pos htr]
              exact ⟨t ++ "/".data, by rw [String.data_append, ht, List.append_assoc]⟩
            · rw [if_neg htr]
              exact ⟨t, ht⟩
          obtain ⟨t2, ht2⟩ := hdata
          rw [ht2] at hl
          have hs1 := hclean s1 (by rw [hsegs]; simp)
          have hs1sl := hnosl s1 (by rw [hsegs]; simp)
          cases hd1 : s1.data with
          | nil =>
            exact hs1.1 (string_data_inj (by rw [hd1]))
          | cons c1 cs =>
            rw [hd1] at hl
            cases cs with
            | nil =>
              simp at hl
              exact hs1.2 (string_data_inj (by rw [hd1, hl.1]))
            | cons c2 cs2 =>
              simp at hl
              apply hs1sl
              rw [hd1, hl.2.1]
              simp

theorem normalizeRelPath_ok_facts {p rel : String}
    (h : normalizeRelPath p = .ok rel) :
    rel = posixNormalize p ∧ pathIsAbsolute rel = false ∧ rel ≠ ".." ∧
      strStarts rel "../" = false ∧ rel.length ≠ 0 := by
  unfold normalizeRelPath at h
  dsimp only at h
  by_cases hds : strStarts (posixNormalize p) "./" = true
  · exfalso
    rw [if_pos hds, posixNormalize_dotslash hds] at h
    rw [show ("./".drop 2 : String) = "" from rfl] at h
    rw [if_neg (by decide), if_neg (by decide), if_pos (by decide)] at h
    exact Result.noConfusion h
  · rw [if_neg hds] at h
    by_cases h1 : pathIsAbsolute (posixNormalize p) = true
    · rw [if_pos h1] at h
      exact absurd h (by intro hc; exact Result.noConfusion hc)
    · rw [if_neg h1] at h
      by_cases h2 : posixNormalize p = ".." ∨ strStarts (posixNormalize p) "../" = true
      · rw [if_pos h2] at h
        exact absurd h (by intro hc; exact Result.noConfusion hc)
      · rw [if_neg h2] at h
        by_cases h3 : (posixNormalize p).length = 0
        · rw [if_pos h3] at h
          exact absurd h (by intro hc; exact Result.noConfusion hc)
        · rw [if_neg h3] at h
          have hrel : rel = posixNormalize p := by
            cases h
            rfl
          push_neg at h2
          subst hrel
          exact ⟨rfl, by simpa using h1, h2.1, by simpa using h2.2, h3⟩

theorem normalizeRelPath_no_up {p rel : String}
    (h : normalizeRelPath p = .ok rel) : ∀ s ∈ splitSlash rel, s ≠ ".." := by
  obtain ⟨hrel, habs, hne2, hpre, hlen⟩ := normalizeRelPath_ok_facts h
  subst hrel
  by_cases hp : p = ""
  · subst hp
    decide
  · by_cases habsP : strStarts p "/" = true
    · exact absurd (posixNormalize_abs (q := p) habsP) (by simp [habs])
    · have habsP2 : strStarts p "/" = false := by simpa using habsP
      rcases posixNormalize_rel_cases p hp habsP2 with ⟨_, heq⟩ | ⟨hseg, heq⟩
      · by_cases htr : strEndsSlash p = true
        · rw [if_pos htr] at heq
          rw [heq]
          decide
        · rw [if_neg htr] at heq
          rw [heq]
          decide
      · have hnosl : ∀ s ∈ normSegsAcc true [] (splitSlash p), '/' ∉ s.data := by
          intro s hs
          rcases normSegsAcc_mem (splitSlash p) [] s hs with hin | hin
          · exact absurd hin (by simp)
          · exact splitSlash_elems_no_slash s hin
        have hsp : splitSlash (joinSegs (normSegsAcc true [] (splitSlash p))) =
            normSegsAcc true [] (splitSlash p) := by
          rw [splitSlash_join hseg, flatMap_splitSlash_id hnosl]
        obtain ⟨f, k2, hshape, hf⟩ :=
          normSegsAcc_true_shape (splitSlash p) [] 0 (by simp)
        rw [show (([] : List String) ++ List.replicate 0 "..") = [] from rfl] at hshape
        cases k2 with
        | zero =>
          rw [List.replicate_zero, List.nil_append] at hshape
          by_cases htr : strEndsSlash p = true
          · rw [if_pos htr] at heq
            rw [heq, splitSlash_trail, hsp]
            intro s hs
            rcases List.mem_append.mp hs with h4 | h4
            · rw [hshape] at h4
              intro he
              subst he
              exact hf h4
            · simp at h4
              subst h4
              decide
          · rw [if_neg htr] at heq
            rw [heq, hsp]
            intro s hs
            rw [hshape] at hs
            intro he
            subst he
            exact hf hs
        | succ m =>
          exfalso
          rw [List.replicate_succ, List.cons_append] at hshape
          cases hrf : List.replicate m ".." ++ f with
          | nil =>
            rw [hrf] at hshape
            by_cases htr : strEndsSlash p = true
            · rw [if_pos htr] at heq
              rw [hshape] at heq
              rw [show joinSegs [".."] = ".." from rfl] at heq
              rw [heq] at hpre
              exact absurd hpre (by decide)
            · rw [if_neg htr] at heq
              rw [hshape] at heq
              rw [show joinSegs [".."] = ".." from rfl] at heq
              exact hne2 heq
          | cons t3 ts3 =>
            rw [hrf] at hshape
            have hdd : strStarts (joinSegs (normSegsAcc true [] (splitSlash p)))
                "../" = true := by
              rw [hshape]
              rw [show joinSegs (".." :: t3 :: ts3) =
                ".." ++ "/" ++ joinSegs (t3 :: ts3) from rfl]
              exact strStarts_ddslash _
            by_cases htr : strEndsSlash p = true
            · rw [if_pos htr] at heq
              rw [heq] at hpre
              rw [strStarts_append_of hdd "/"] at hpre
              exact Bool.noConfusion hpre
            · rw [if_neg htr] at heq
              rw [heq] at hpre
              rw [hdd] at hpre
              exact Bool.noConfusion hpre

theorem planWrites_inside {targetDir : String}
    (hT : pathIsAbsolute targetDir = true) :
    ∀ (files : List RegFile) (ws : List PlanWrite),
      planWrites targetDir files = .ok ws →
      ∀ w ∈ ws, ∃ extra, segsOfAbs w.path = segsOfAbs targetDir ++ extra ∧
        ∀ s ∈ extra, s ≠ "" ∧ s ≠ "." ∧ s ≠ ".." := by
  intro files
  induction files with
  | nil =>
    intro ws h w hw
    cases h
    simp at hw
  | cons f rest ih =>
    intro ws h w hw
    rw [planWrites] at h
    cases hn : normalizeRelPath f.path with
    | err e => rw [hn] at h; exact Result.noConfusion h
    | ok rel =>
      rw [hn] at h
      dsimp only at h
      cases hr : planWrites targetDir rest with
      | err e => rw [hr] at h; exact Result.noConfusion h
      | ok ws2 =>
        rw [hr] at h
        cases h
        rcases List.mem_cons.mp hw with h1 | h1
        · subst h1
          exact dest_segs hT (normalizeRelPath_no_up hn)
        · exact ih ws2 hr w h1

theorem planOne_inside {root : ConfigRoot} {r : ResolvedItem} {plan : InstallPlan}
    (hroot : pathIsAbsolute root.opencodeDir = true)
    (h : planOne root r = .ok plan) :
    ∀ w ∈ plan.writes, ∃ extra,
      segsOfAbs w.path = segsOfAbs plan.item.targetDir ++ extra ∧
      ∀ s ∈ extra, s ≠ "" ∧ s ≠ "." ∧ s ≠ ".." := by
  unfold planOne at h
  dsimp only at h
  cases he : normalizeRelPath (r.item.entry.getD "index.ts") with
  | err e => rw [he] at h; exact Result.noConfusion h
  | ok entryNorm =>
    rw [he] at h
    dsimp only at h
    cases hw : planWrites
        (posixJoin [posixJoin [root.opencodeDir, kindStr r.item.kind], r.item.name])
        r.item.files with
    | err e => rw [hw] at h; exact Result.noConfusion h
    | ok writes =>
      rw [hw] at h
      cases h
      exact planWrites_inside (posixJoin_abs (posixJoin_abs hroot)) r.item.files
        writes hw

/-- C5: for every resolved item list and config root with an absolute
`opencodeDir` for which `planInstalls` returns Ok, every plan's every write path
resolves inside-or-equal to that plan's `item.targetDir`: its canonical
segments are the target directory's segments followed by clean extra segments
(no `..`, `.`, or empty segment), so no traversal escapes the target; and a
staged write whose path relative to the target directory starts with `..` or is
absolute aborts staging immediately with `WriteOutsideTargetDir` (the original
claim's "strictly inside" fails: the extra segment list can be empty, see the
counterexample). -/
theorem planInstalls_writes_inside :
    (∀ (resolved : List ResolvedItem) (root : ConfigRoot)
        (plans : List InstallPlan),
      pathIsAbsolute root.opencodeDir = true →
      planInstalls resolved root = .ok plans →
      ∀ plan ∈ plans, ∀ w ∈ plan.writes,
        ∃ extra, segsOfAbs w.path = segsOfAbs plan.item.targetDir ++ extra ∧
          ∀ s ∈ extra, s ≠ "" ∧ s ≠ "." ∧ s ≠ "..") ∧
    (∀ (w : World) (targetDir tmp : String) (wr : PlanWrite),
      (strStarts (posixRelative w.cwd targetDir wr.path) ".." = true ∨
        pathIsAbsolute (posixRelative w.cwd targetDir wr.path) = true) →
      ∀ rest, stageWritesE w targetDir tmp (wr :: rest) =
        (.err (.writeOutsideTargetDir wr.path), [])) := by
  constructor
  · intro resolved
    induction resolved with
    | nil =>
      intro root plans _ h plan hp
      cases h
      simp at hp
    | cons r rs ih =>
      intro root plans hroot h plan hp
      rw [planInstalls] at h
      cases h1 : planOne root r with
      | err e => rw [h1] at h; exact Result.noConfusion h
      | ok p =>
        rw [h1] at h
        cases h2 : planInstalls rs root with
        | err e => rw [h2] at h; exact Result.noConfusion h
        | ok ps =>
          rw [h2] at h
          cases h
          rcases List.mem_cons.mp hp with h3 | h3
          · subst h3
            exact planOne_inside hroot h1
          · exact ih root ps hroot h2 plan h3
  · intro w targetDir tmp wr hguard rest
    show ioBind (stageOneWrite w targetDir tmp wr)
      (fun _ => stageWritesE w targetDir tmp rest) =
      (.err (.writeOutsideTargetDir wr.path), [])
    unfold stageOneWrite
    dsimp only
    rw [if_pos hguard]
    rfl

/-- C5 counterexample: the item whose single file path is `"."` plans a write
whose destination equals the target directory itself, so the write path does
not resolve strictly inside `item.targetDir`. -/
theorem planInstalls_dot_write_at_targetDir :
    planWritePaths (planInstalls [mkResolved dotFileItem "src"] projConfigRoot) =
      [["/proj/.opencode/tool/dot"]] ∧
    planTargetDirs (planInstalls [mkResolved dotFileItem "src"] projConfigRoot) =
      ["/proj/.opencode/tool/dot"] := by
  constructor
  · rfl
  · rfl

/-- C5 witness: the invariant instantiated at a concrete plan, and a staged
write with an absolute path aborting with `WriteOutsideTargetDir`. -/
theorem planInstalls_writes_inside_witness :
    (∀ plan ∈ plansOf (planInstalls [mkResolved helloItem "src"] projConfigRoot),
      ∀ w ∈ plan.writes,
        ∃ extra, segsOfAbs w.path = segsOfAbs plan.item.targetDir ++ extra ∧
          ∀ s ∈ extra, s ≠ "" ∧ s ≠ "." ∧ s ≠ "..") ∧
    stageWritesE worldOK "/proj/.opencode/tool/hello" "/stage"
      [⟨"/abs/evil", "c", none⟩] =
      (.err (.writeOutsideTargetDir "/abs/evil"), []) := by
  constructor
  · exact planInstalls_writes_inside.1 [mkResolved helloItem "src"] projConfigRoot
      (plansOf (planInstalls [mkResolved helloItem "src"] projConfigRoot))
      (by decide) rfl
  · exact planInstalls_writes_inside.2 worldOK "/proj/.opencode/tool/hello"
      "/stage" ⟨"/abs/evil", "c", none⟩ (by decide) []

/-- C8: when the scan succeeds and the root object lacks the property,
`upsertTopLevelJsoncProperty` inserts the new entry just before the root
object's closing brace, preceded by a separator comma exactly when the root
object already contains other properties and its last significant character is
not `{` or `,`; but the inserted text also always contains a fixed
`// TODO: windows support` comment line, so more than the entry and the
conditional comma is added (the original claim's "nothing other than this
entry" fails, see the counterexample). -/
theorem upsertTopLevel_insert {text name : List Char} {v : JSVal}
    {ro rc : Nat} {fmt : List Char}
    (hroot : jsoncRoot (jsoncOriginal text) = .ok (ro, rc))
    (hspan : findSpanAux name rc (ro + 1) ((jsoncOriginal text).drop (ro + 1)) =
      some none)
    (hfmt : formatValueForProperty v = some fmt) :
    upsertTopLevelJsoncProperty text name v =
      .ok ((jsoncOriginal text).take rc ++
        ((if hasAnyPropsL (((jsoncOriginal text).take rc).drop (ro + 1)) = true ∧
            lastSigL ((jsoncOriginal text).take rc) ≠ some '{' ∧
            lastSigL ((jsoncOriginal text).take rc) ≠ some ',' then [','] else []) ++
          "\n  // TODO: windows support\n  ".data ++ jsonQuote name ++
          ": ".data ++ fmt ++ ['\n']) ++
        (jsoncOriginal text).drop rc) := by
  unfold upsertTopLevelJsoncProperty
  dsimp only
  rw [hroot]
  dsimp only
  rw [hspan]
  dsimp only
  rw [hfmt]
  dsimp only
  congr 1
  unfold upsertLastSig insertTextFor
  dsimp only
  by_cases hp : hasAnyPropsL (((jsoncOriginal text).take rc).drop (ro + 1)) = true
  · rw [if_pos hp]
    by_cases hl : lastSigL ((jsoncOriginal text).take rc) = some '{' ∨
        lastSigL ((jsoncOriginal text).take rc) = some ','
    · rw [if_pos hl]
      rw [if_neg (by
        intro hc
        rcases hl with h | h
        · exact hc.2.1 h
        · exact hc.2.2 h)]
    · rw [if_neg hl]
      rw [if_pos ⟨hp, fun h => hl (Or.inl h), fun h => hl (Or.inr h)⟩]
  · rw [if_neg hp]
    rw [if_pos (Or.inl rfl)]
    rw [if_neg (fun hc => hp hc.1)]

/-- C8 counterexample: upserting a property into `{}` inserts a
`// TODO: windows support` comment line in addition to the new entry, so the
document gains more than the `"name": value` entry and its conditional
comma. -/
theorem upsertTopLevel_insert_todo_comment :
    upsertTopLevelJsoncProperty "\x7b\x7d".data "a".data (.jnum 1) =
      .ok "\x7b\n  // TODO: windows support\n  \"a\": 1\n\x7d".data := by
  simp +decide [upsertTopLevelJsoncProperty, jsoncOriginal, jsoncRoot, skipL,
    skipLineL, skipBlockL, findCloseL, scanAux, scanCode, cleanSt, isWsJsonc,
    isQuoteC, squote, findSpanAux, formatValueForProperty, replaceNL, strfV,
    upsertLastSig, hasAnyPropsL, stripLineC, dropToNl, stripBlockC,
    dropThruClose, trimChars, lastSigL, lastSigAux, insertTextFor, jsonQuote,
    jsEscapeChar, hexDigitL, isJsWs]

/-- C8 witness: the insertion equation at `{"a": 1}` with a new property
`"b"`, installing a separator comma after the existing property. -/
theorem upsertTopLevel_insert_witness :
    jsoncRoot (jsoncOriginal "\x7b\"a\": 1\x7d".data) = .ok (0, 7) ∧
    upsertTopLevelJsoncProperty "\x7b\"a\": 1\x7d".data "b".data (.jnum 2) =
      .ok "\x7b\"a\": 1,\n  // TODO: windows support\n  \"b\": 2\n\x7d".data := by
  have hroot : jsoncRoot (jsoncOriginal "\x7b\"a\": 1\x7d".data) = .ok (0, 7) := by
    simp +decide [jsoncOriginal, jsoncRoot, skipL, skipLineL, skipBlockL,
      findCloseL, scanAux, scanCode, cleanSt, isWsJsonc, isQuoteC, squote]
  have hspan : findSpanAux "b".data 7 (0 + 1)
      ((jsoncOriginal "\x7b\"a\": 1\x7d".data).drop (0 + 1)) = some none := by
    simp +decide [jsoncOriginal, findSpanAux, skipL, skipLineL, skipBlockL,
      scanAux, scanCode, cleanSt, isWsJsonc, isQuoteC, squote, parseStringL,
      parseStrAux, parseIdentL, identSpan, isIdentChar, findValueEndL,
      findCloseL]
  have hfmt : formatValueForProperty (.jnum 2) = some ['2'] := by
    simp +decide [formatValueForProperty, strfV, replaceNL]
  refine ⟨hroot, ?_⟩
  refine (upsertTopLevel_insert hroot hspan hfmt).trans ?_
  simp +decide [jsoncOriginal, upsertLastSig, hasAnyPropsL, stripLineC,
    dropToNl, stripBlockC, dropThruClose, trimChars, lastSigL, lastSigAux,
    cleanSt, isWsJsonc, isQuoteC, squote, jsonQuote, jsEscapeChar, hexDigitL]

/-! `applyInstallPlans` error classification: no interpreter step ever
produces `missingConfigRoot`, so for a non-empty plan list the fail-fast
check on `plans[0]?.configRoot` is the only possible source — and it can
never fire, since every plan carries a config root. -/

theorem ioPure_nm {α : Type} (a : α) :
    (ioPure a).1 ≠ .err InstallError.missingConfigRoot := by
  simp [ioPure]

theorem ioBind_nm {α β : Type} {x : Result α InstallError × List FsOp}
    {f : α → Result β InstallError × List FsOp}
    (hx : x.1 ≠ .err InstallError.missingConfigRoot)
    (hf : ∀ a, (f a).1 ≠ .err InstallError.missingConfigRoot) :
    (ioBind x f).1 ≠ .err InstallError.missingConfigRoot := by
  obtain ⟨r, tr⟩ := x
  cases r with
  | err e => simpa [ioBind] using hx
  | ok a => simpa [ioBind] using hf a

theorem mkdirE_nm (w : World) (p : String) :
    (mkdirE w p).1 ≠ .err InstallError.missingConfigRoot := by
  unfold mkdirE
  cases w.mkdirR p <;> simp

theorem mkdtempE_nm (w : World) (pre : String) :
    (mkdtempE w pre).1 ≠ .err InstallError.missingConfigRoot := by
  unfold mkdtempE
  cases w.mkdtempR pre <;> simp

theorem renameE_nm (w : World) (a b : String) :
    (renameE w a b).1 ≠ .err InstallError.missingConfigRoot := by
  unfold renameE
  cases w.renameR a b <;> simp

theorem rmE_nm (w : World) (p : String) :
    (rmE w p).1 ≠ .err InstallError.missingConfigRoot := by
  unfold rmE
  cases w.rmR p <;> simp

theorem chmodE_nm (w : World) (p : String) (m : Nat) :
    (chmodE w p m).1 ≠ .err InstallError.missingConfigRoot := by
  unfold chmodE
  cases w.chmodR p m <;> simp

theorem statE_nm (w : World) (p : String) :
    (statE w p).1 ≠ .err InstallError.missingConfigRoot := by
  simp [statE]

theorem writeE_nm (w : World) (p content : String) :
    (writeE w p content).1 ≠ .err InstallError.missingConfigRoot := by
  unfold writeE
  cases w.writeR p content <;> simp

theorem readCfgE_nm (w : World) (p : String) :
    (readCfgE w p).1 ≠ .err InstallError.missingConfigRoot := by
  simp [readCfgE]

theorem withTmpDirE_nm {α : Type} (w : World) (parent pre : String)
    (use : String → Result α InstallError × List FsOp)
    (hu : ∀ t, (use t).1 ≠ .err InstallError.missingConfigRoot) :
    (withTmpDirE w parent pre use).1 ≠ .err InstallError.missingConfigRoot := by
  unfold withTmpDirE
  have h1 := mkdtempE_nm w (posixJoin [parent, pre])
  cases hmt : mkdtempE w (posixJoin [parent, pre]) with
  | mk r tr =>
    rw [hmt] at h1
    cases r with
    | err e => simpa using h1
    | ok tmp => simpa using hu tmp

theorem writeAtomicE_nm (w : World) (dest content : String) :
    (writeAtomicE w dest content).1 ≠ .err InstallError.missingConfigRoot := by
  unfold writeAtomicE
  exact ioBind_nm (mkdirE_nm w _) (fun _ =>
    withTmpDirE_nm w _ _ _ (fun tmp =>
      ioBind_nm (writeE_nm w _ _) (fun _ => renameE_nm w _ _)))

theorem stageOneWrite_nm (w : World) (targetDir tmp : String) (wr : PlanWrite) :
    (stageOneWrite w targetDir tmp wr).1 ≠ .err InstallError.missingConfigRoot := by
  unfold stageOneWrite
  dsimp only
  by_cases hg : strStarts (posixRelative w.cwd targetDir wr.path) ".." = true ∨
      pathIsAbsolute (posixRelative w.cwd targetDir wr.path) = true
  · rw [if_pos hg]
    simp
  · rw [if_neg hg]
    refine ioBind_nm (mkdirE_nm w _) (fun _ => ioBind_nm (writeE_nm w _ _) (fun _ => ?_))
    cases wr.mode with
    | some m => exact chmodE_nm w _ _
    | none => exact ioPure_nm ()

theorem stageWritesE_nm (w : World) (targetDir tmp : String) :
    ∀ writes : List PlanWrite,
      (stageWritesE w targetDir tmp writes).1 ≠ .err InstallError.missingConfigRoot
  | [] => ioPure_nm ()
  | wr :: rest =>
    ioBind_nm (stageOneWrite_nm w targetDir tmp wr)
      (fun _ => stageWritesE_nm w targetDir tmp rest)

theorem stageDirE_nm (w : World) (plan : InstallPlan) (overwrite : Bool) :
    (stageDirE w plan overwrite).1 ≠ .err InstallError.missingConfigRoot := by
  unfold stageDirE
  refine ioBind_nm (mkdirE_nm w _) (fun _ => ?_)
  refine withTmpDirE_nm w _ _ _ (fun tmp => ?_)
  refine ioBind_nm (stageWritesE_nm w _ _ _) (fun _ => ?_)
  refine ioBind_nm (statE_nm w _) (fun ex => ?_)
  by_cases hex : ex ∧ ¬overwrite = true
  · rw [if_pos hex]
    simp
  · rw [if_neg hex]
    refine ioBind_nm ?_ (fun _ => ioBind_nm (renameE_nm w _ _) (fun _ => ioPure_nm _))
    by_cases hex2 : ex ∧ overwrite = true
    · rw [if_pos hex2]
      exact rmE_nm w _
    · rw [if_neg hex2]
      exact ioPure_nm ()

theorem parseExistingOCX_nm (w : World) (text : String) :
    parseExistingOCX w text ≠ .err InstallError.missingConfigRoot := by
  unfold parseExistingOCX
  cases getTopLevelJsoncPropertyValueText text.data "ocx".data with
  | err e => simp
  | ok o =>
    cases o with
    | none => simp
    | some val =>
      simp only []
      cases w.parseJsonR ⟨val⟩ with
      | err cause => simp
      | ok parsed => cases parsed <;> simp

theorem updateConfigE_nm (w : World) (configPath : String)
    (plans : List InstallPlan) :
    (updateConfigE w configPath plans).1 ≠ .err InstallError.missingConfigRoot := by
  unfold updateConfigE
  refine ioBind_nm (readCfgE_nm w _) (fun text => ?_)
  have hp := parseExistingOCX_nm w text
  cases hpe : parseExistingOCX w text with
  | err e =>
    rw [hpe] at hp
    intro hc
    simp only [] at hc
    injection hc with he
    exact hp (by rw [he])
  | ok cfg =>
    simp only []
    cases upsertTopLevelJsoncProperty text.data "ocx".data
        (cfgToJS (plans.foldl cfgSetPlan cfg)) with
    | err e => simp
    | ok updated => exact writeAtomicE_nm w _ _

theorem runCmdsE_nm (w : World) (cwd : String) :
    ∀ cmds : List String,
      (runCmdsE w cwd cmds).1 ≠ .err InstallError.missingConfigRoot := by
  intro cmds
  induction cmds with
  | nil => exact ioPure_nm ()
  | cons cmd rest ih =>
    rw [runCmdsE]
    cases w.spawnR cmd cwd with
    | err cause => simp
    | ok code =>
      simp only []
      by_cases hc : code = 0
      · rw [if_pos hc]
        exact ioBind_nm (by simp) (fun _ => ih)
      · rw [if_neg hc]
        simp

theorem runPostinstallE_nm (w : World) (plan : InstallPlan) :
    (runPostinstallE w plan).1 ≠ .err InstallError.missingConfigRoot := by
  unfold runPostinstallE
  cases plan.postinstall with
  | none => exact ioPure_nm ()
  | some pi => exact runCmdsE_nm w pi.cwd pi.commands

theorem stageLoopE_nm (w : World) (overwrite : Bool) :
    ∀ plans : List InstallPlan,
      (stageLoopE w overwrite plans).1 ≠ .err InstallError.missingConfigRoot
  | [] => ioPure_nm []
  | p :: rest =>
    ioBind_nm (stageDirE_nm w p overwrite)
      (fun dir => ioBind_nm (stageLoopE_nm w overwrite rest)
        (fun dirs => ioPure_nm (dir :: dirs)))

theorem postLoopE_nm (w : World) :
    ∀ (plans : List InstallPlan) (ran : Bool),
      (postLoopE w ran plans).1 ≠ .err InstallError.missingConfigRoot := by
  intro plans
  induction plans with
  | nil => intro ran; exact ioPure_nm ran
  | cons p rest ih =>
    intro ran
    rw [postLoopE]
    cases p.postinstall with
    | none => exact ih ran
    | some pi =>
      exact ioBind_nm (runPostinstallE_nm w p) (fun _ => ih true)

/-- C9: called with an empty plan list, `applyInstallPlans` fails fast with
`NoPlans` before performing any filesystem operation (the trace is empty);
called with a non-empty plan list it can never fail with `MissingConfigRoot`:
the guard reads only `plans[0]?.configRoot`, which always exists, and no other
step of the installer produces that error — plans' config roots are never
compared, so the claimed shared-root validation does not exist (see the
counterexample). -/
theorem applyInstallPlans_failfast :
    (∀ (w : World) (opts : ApplyOpts),
      applyInstallPlans w [] opts = (.err .noPlans, [])) ∧
    (∀ (w : World) (p : InstallPlan) (rest : List InstallPlan)
        (opts : ApplyOpts),
      (applyInstallPlans w (p :: rest) opts).1 ≠
        .err InstallError.missingConfigRoot) := by
  constructor
  · intro w opts
    rfl
  · intro w p rest opts
    unfold applyInstallPlans
    rw [if_neg (by simp)]
    simp only [List.head?_cons, Option.map_some']
    refine ioBind_nm (mkdirE_nm w _) (fun _ => ?_)
    refine ioBind_nm (stageLoopE_nm w _ _) (fun wrote => ?_)
    refine ioBind_nm (mkdirE_nm w _) (fun _ => ?_)
    refine ioBind_nm (updateConfigE_nm w _ _) (fun _ => ?_)
    refine ioBind_nm ?_ (fun ran => ioPure_nm _)
    by_cases hap : opts.allowPostinstall = true
    · rw [if_pos hap]
      exact postLoopE_nm w _ _
    · rw [if_neg hap]
      exact ioPure_nm false

/-- C9 counterexample: two plans with different config roots (a project root
and a global root) are applied with no shared-root validation: the call
returns Ok — not `MissingConfigRoot` — staging both targets and editing the
first plan's config file. -/
theorem ioBind_fst {α β : Type} (x : Result α InstallError × List FsOp)
    (f : α → Result β InstallError × List FsOp) :
    (ioBind x f).1 = (match x.1 with
      | .err e => .err e
      | .ok a => (f a).1) := by
  obtain ⟨r, tr⟩ := x
  cases r <;> rfl

/-- C9 counterexample: two plans with different config roots (a project root
and a global root) are applied with no shared-root validation: the call
returns Ok — not `MissingConfigRoot` — staging both targets and editing the
first plan's config file. -/
theorem applyInstallPlans_mixed_roots_ok :
    planProj.configRoot ≠ planGlob.configRoot ∧
    (applyInstallPlans worldOK [planProj, planGlob] ⟨true, true⟩).1 =
      .ok ⟨["/proj/.opencode/tool/a", "/home/u/.config/opencode/tool/b"],
        "/proj/.opencode/opencode.jsonc", false⟩ := by
  refine ⟨by decide, ?_⟩
  obtain ⟨out, hout⟩ : ∃ out, upsertTopLevelJsoncProperty "\x7b\x7d".data "ocx".data
      (cfgToJS (List.foldl cfgSetPlan emptyOCXManagedConfig
        [planProj, planGlob])) = .ok out := by
    unfold upsertTopLevelJsoncProperty
    have hroot : jsoncRoot (jsoncOriginal "\x7b\x7d".data) = .ok (0, 1) := by
      simp +decide [jsoncOriginal, jsoncRoot, skipL, skipLineL, skipBlockL,
        findCloseL, scanAux, scanCode, cleanSt, isWsJsonc, isQuoteC, squote]
    have hspan : findSpanAux "ocx".data 1 (0 + 1)
        ((jsoncOriginal "\x7b\x7d".data).drop (0 + 1)) = some none := by
      simp +decide [jsoncOriginal, findSpanAux, skipL, skipLineL, skipBlockL,
        scanAux, scanCode, cleanSt, isWsJsonc, isQuoteC, squote, parseStringL,
        parseStrAux, parseIdentL, identSpan, isIdentChar, findValueEndL,
        findCloseL]
    dsimp only
    rw [hroot]
    dsimp only
    rw [hspan]
    dsimp only
    rw [show formatValueForProperty (cfgToJS (List.foldl cfgSetPlan
        emptyOCXManagedConfig [planProj, planGlob])) =
      some (replaceNL (strfV [] (cfgToJS (List.foldl cfgSetPlan
        emptyOCXManagedConfig [planProj, planGlob])))) from rfl]
    exact ⟨_, rfl⟩
  have hcfg : (updateConfigE worldOK "/proj/.opencode/opencode.jsonc"
      [planProj, planGlob]).1 = .ok () := by
    unfold updateConfigE
    rw [ioBind_fst]
    rw [show (readCfgE worldOK "/proj/.opencode/opencode.jsonc").1 =
      .ok "\x7b\x7d" from rfl]
    have hpe : parseExistingOCX worldOK "\x7b\x7d" = .ok emptyOCXManagedConfig := by
      unfold parseExistingOCX
      have hget : getTopLevelJsoncPropertyValueText "\x7b\x7d".data "ocx".data =
          .ok none := by
        simp +decide [getTopLevelJsoncPropertyValueText, jsoncOriginal,
          jsoncRoot, skipL, skipLineL, skipBlockL, findCloseL, scanAux,
          scanCode, cleanSt, isWsJsonc, isQuoteC, squote, findSpanAux,
          parseStringL, parseStrAux, parseIdentL, identSpan, isIdentChar,
          findValueEndL]
      rw [hget]
    simp only []
    rw [hpe]
    simp only []
    rw [hout]
    exact (show (writeAtomicE worldOK "/proj/.opencode/opencode.jsonc"
      ⟨out⟩).1 = .ok () from rfl)
  unfold applyInstallPlans
  rw [if_neg (by decide)]
  simp only [List.head?_cons, Option.map_some']
  rw [ioBind_fst]
  rw [show (mkdirE worldOK planProj.configRoot.opencodeDir).1 = .ok ()
    from rfl]
  simp only []
  rw [ioBind_fst]
  rw [show (stageLoopE worldOK (⟨true, true⟩ : ApplyOpts).overwrite
      [planProj, planGlob]).1 =
    .ok ["/proj/.opencode/tool/a", "/home/u/.config/opencode/tool/b"]
    from by decide]
  simp only []
  rw [ioBind_fst]
  rw [show (mkdirE worldOK
      (posixDirname planProj.configRoot.configPath)).1 = .ok () from rfl]
  simp only []
  rw [ioBind_fst]
  rw [show "/proj/.opencode/opencode.jsonc" = planProj.configRoot.configPath
    from rfl] at hcfg
  rw [hcfg]
  simp only []
  rw [if_pos trivial]
  rw [ioBind_fst]
  rw [show (postLoopE worldOK false [planProj, planGlob]).1 = .ok false
    from by decide]
  simp only []
  rfl

/-- C9 witness: the fail-fast equations at concrete inputs. -/
theorem applyInstallPlans_failfast_witness :
    applyInstallPlans worldOK [] ⟨true, true⟩ = (.err .noPlans, []) ∧
    (applyInstallPlans worldOK [planProj] ⟨true, true⟩).1 ≠
      .err InstallError.missingConfigRoot :=
  ⟨applyInstallPlans_failfast.1 worldOK ⟨true, true⟩,
   applyInstallPlans_failfast.2 worldOK planProj [] ⟨true, true⟩⟩

/-! `applyInstallPlans` postinstall accounting: commands are spawned only by
`runCmdsEffect`, which only the postinstall loop reaches. -/

theorem ioBind_ns {α β : Type} {x : Result α InstallError × List FsOp}
    {f : α → Result β InstallError × List FsOp}
    (hx : ∀ c d, FsOp.spawnOp c d ∉ x.2)
    (hf : ∀ a c d, FsOp.spawnOp c d ∉ (f a).2) :
    ∀ c d, FsOp.spawnOp c d ∉ (ioBind x f).2 := by
  obtain ⟨r, tr⟩ := x
  cases r with
  | err e => simpa [ioBind] using hx
  | ok a =>
    intro c d hmem
    simp only [ioBind] at hmem
    rcases List.mem_append.mp hmem with hm | hm
    · exact hx c d hm
    · exact hf a c d hm

theorem ioPure_ns {α : Type} (a : α) :
    ∀ c d, FsOp.spawnOp c d ∉ (ioPure a).2 := by
  simp [ioPure]

theorem mkdirE_ns (w : World) (p : String) :
    ∀ c d, FsOp.spawnOp c d ∉ (mkdirE w p).2 := by
  unfold mkdirE
  cases w.mkdirR p <;> simp

theorem mkdtempE_ns (w : World) (pre : String) :
    ∀ c d, FsOp.spawnOp c d ∉ (mkdtempE w pre).2 := by
  unfold mkdtempE
  cases w.mkdtempR pre <;> simp

theorem renameE_ns (w : World) (a b : String) :
    ∀ c d, FsOp.spawnOp c d ∉ (renameE w a b).2 := by
  unfold renameE
  cases w.renameR a b <;> simp

theorem rmE_ns (w : World) (p : String) :
    ∀ c d, FsOp.spawnOp c d ∉ (rmE w p).2 := by
  unfold rmE
  cases w.rmR p <;> simp

theorem chmodE_ns (w : World) (p : String) (m : Nat) :
    ∀ c d, FsOp.spawnOp c d ∉ (chmodE w p m).2 := by
  unfold chmodE
  cases w.chmodR p m <;> simp

theorem statE_ns (w : World) (p : String) :
    ∀ c d, FsOp.spawnOp c d ∉ (statE w p).2 := by
  simp [statE]

theorem writeE_ns (w : World) (p content : String) :
    ∀ c d, FsOp.spawnOp c d ∉ (writeE w p content).2 := by
  unfold writeE
  cases w.writeR p content <;> simp

theorem readCfgE_ns (w : World) (p : String) :
    ∀ c d, FsOp.spawnOp c d ∉ (readCfgE w p).2 := by
  simp [readCfgE]

theorem withTmpDirE_ns {α : Type} (w : World) (parent pre : String)
    (use : String → Result α InstallError × List FsOp)
    (hu : ∀ t c d, FsOp.spawnOp c d ∉ (use t).2) :
    ∀ c d, FsOp.spawnOp c d ∉ (withTmpDirE w parent pre use).2 := by
  unfold withTmpDirE
  have h1 := mkdtempE_ns w (posixJoin [parent, pre])
  cases hmt : mkdtempE w (posixJoin [parent, pre]) with
  | mk r tr =>
    rw [hmt] at h1
    cases r with
    | err e => simpa using h1
    | ok tmp =>
      intro c d hmem
      simp only [] at hmem
      rcases List.mem_append.mp hmem with hm | hm
      · rcases List.mem_append.mp hm with hm2 | hm2
        · exact h1 c d hm2
        · exact hu tmp c d hm2
      · exact rmE_ns w tmp c d hm

theorem writeAtomicE_ns (w : World) (dest content : String) :
    ∀ c d, FsOp.spawnOp c d ∉ (writeAtomicE w dest content).2 := by
  unfold writeAtomicE
  exact ioBind_ns (mkdirE_ns w _) (fun _ =>
    withTmpDirE_ns w _ _ _ (fun tmp =>
      ioBind_ns (writeE_ns w _ _) (fun _ => renameE_ns w _ _)))

theorem stageOneWrite_ns (w : World) (targetDir tmp : String) (wr : PlanWrite) :
    ∀ c d, FsOp.spawnOp c d ∉ (stageOneWrite w targetDir tmp wr).2 := by
  unfold stageOneWrite
  dsimp only
  by_cases hg : strStarts (posixRelative w.cwd targetDir wr.path) ".." = true ∨
      pathIsAbsolute (posixRelative w.cwd targetDir wr.path) = true
  · rw [if_pos hg]
    simp
  · rw [if_neg hg]
    refine ioBind_ns (mkdirE_ns w _) (fun _ =>
      ioBind_ns (writeE_ns w _ _) (fun _ => ?_))
    cases wr.mode with
    | some m => exact chmodE_ns w _ _
    | none => exact ioPure_ns ()

theorem stageWritesE_ns (w : World) (targetDir tmp : String) :
    ∀ writes : List PlanWrite,
      ∀ c d, FsOp.spawnOp c d ∉ (stageWritesE w targetDir tmp writes).2
  | [] => ioPure_ns ()
  | wr :: rest =>
    ioBind_ns (stageOneWrite_ns w targetDir tmp wr)
      (fun _ => stageWritesE_ns w targetDir tmp rest)

theorem stageDirE_ns (w : World) (plan : InstallPlan) (overwrite : Bool) :
    ∀ c d, FsOp.spawnOp c d ∉ (stageDirE w plan overwrite).2 := by
  unfold stageDirE
  refine ioBind_ns (mkdirE_ns w _) (fun _ => ?_)
  refine withTmpDirE_ns w _ _ _ (fun tmp => ?_)
  refine ioBind_ns (stageWritesE_ns w _ _ _) (fun _ => ?_)
  refine ioBind_ns (statE_ns w _) (fun ex => ?_)
  by_cases hex : ex ∧ ¬overwrite = true
  · rw [if_pos hex]
    simp
  · rw [if_neg hex]
    refine ioBind_ns ?_ (fun _ =>
      ioBind_ns (renameE_ns w _ _) (fun _ => ioPure_ns _))
    by_cases hex2 : ex ∧ overwrite = true
    · rw [if_pos hex2]
      exact rmE_ns w _
    · rw [if_neg hex2]
      exact ioPure_ns ()

theorem stageLoopE_ns (w : World) (overwrite : Bool) :
    ∀ plans : List InstallPlan,
      ∀ c d, FsOp.spawnOp c d ∉ (stageLoopE w overwrite plans).2
  | [] => ioPure_ns []
  | p :: rest =>
    ioBind_ns (stageDirE_ns w p overwrite)
      (fun dir => ioBind_ns (stageLoopE_ns w overwrite rest)
        (fun dirs => ioPure_ns (dir :: dirs)))

theorem updateConfigE_ns (w : World) (configPath : String)
    (plans : List InstallPlan) :
    ∀ c d, FsOp.spawnOp c d ∉ (updateConfigE w configPath plans).2 := by
  unfold updateConfigE
  refine ioBind_ns (readCfgE_ns w _) (fun text => ?_)
  cases parseExistingOCX w text with
  | err e => simp
  | ok cfg =>
    simp only []
    cases upsertTopLevelJsoncProperty text.data "ocx".data
        (cfgToJS (plans.foldl cfgSetPlan cfg)) with
    | err e => simp
    | ok updated => exact writeAtomicE_ns w _ _

theorem postLoopE_ran (w : World) :
    ∀ (plans : List InstallPlan) (ran0 b : Bool),
      (postLoopE w ran0 plans).1 = .ok b →
      b = (ran0 || plans.any (fun p => p.postinstall.isSome)) := by
  intro plans
  induction plans with
  | nil =>
    intro ran0 b h
    rw [postLoopE] at h
    simp [ioPure] at h
    simp [h]
  | cons p rest ih =>
    intro ran0 b h
    rw [postLoopE] at h
    cases hpo : p.postinstall with
    | none =>
      rw [hpo] at h
      rw [ih ran0 b h]
      simp [hpo]
    | some pi =>
      rw [hpo] at h
      rw [ioBind_fst] at h
      cases hr : (runPostinstallE w p).1 with
      | err e =>
        rw [hr] at h
        exact absurd h (by simp)
      | ok a =>
        rw [hr] at h
        simp only [] at h
        rw [ih true b h]
        simp [hpo]

/-- C10: whenever `applyInstallPlans` returns Ok, the result's
`ranPostinstall` is true exactly when the `allowPostinstall` option was set
and some plan carries a postinstall descriptor; and when `allowPostinstall`
is false no postinstall command is spawned at all, on any path. -/
theorem applyInstallPlans_postinstall :
    (∀ (w : World) (plans : List InstallPlan) (opts : ApplyOpts)
        (res : ApplyInstallResult),
      (applyInstallPlans w plans opts).1 = .ok res →
      res.ranPostinstall =
        (opts.allowPostinstall && plans.any (fun p => p.postinstall.isSome))) ∧
    (∀ (w : World) (plans : List InstallPlan) (opts : ApplyOpts),
      opts.allowPostinstall = false →
      ∀ c d, FsOp.spawnOp c d ∉ (applyInstallPlans w plans opts).2) := by
  constructor
  · intro w plans opts res h
    cases plans with
    | nil => exact absurd h (by simp [applyInstallPlans])
    | cons p rest =>
      unfold applyInstallPlans at h
      rw [if_neg (by simp)] at h
      simp only [List.head?_cons, Option.map_some'] at h
      rw [ioBind_fst] at h
      cases h1 : (mkdirE w p.configRoot.opencodeDir).1 with
      | err e => rw [h1] at h; exact absurd h (by simp)
      | ok u1 =>
        rw [h1] at h
        simp only [] at h
        rw [ioBind_fst] at h
        cases h2 : (stageLoopE w opts.overwrite (p :: rest)).1 with
        | err e => rw [h2] at h; exact absurd h (by simp)
        | ok wrote =>
          rw [h2] at h
          simp only [] at h
          rw [ioBind_fst] at h
          cases h3 : (mkdirE w (posixDirname p.configRoot.configPath)).1 with
          | err e => rw [h3] at h; exact absurd h (by simp)
          | ok u3 =>
            rw [h3] at h
            simp only [] at h
            rw [ioBind_fst] at h
            cases h4 : (updateConfigE w p.configRoot.configPath
                (p :: rest)).1 with
            | err e => rw [h4] at h; exact absurd h (by simp)
            | ok u4 =>
              rw [h4] at h
              simp only [] at h
              rw [ioBind_fst] at h
              cases h5 : ((if opts.allowPostinstall = true then
                  postLoopE w false (p :: rest) else ioPure false)).1 with
              | err e => rw [h5] at h; exact absurd h (by simp)
              | ok ran =>
                rw [h5] at h
                simp only [ioBind, ioPure] at h
                injection h with h6
                subst h6
                show ran = _
                by_cases hap : opts.allowPostinstall = true
                · rw [if_pos hap] at h5
                  rw [postLoopE_ran w (p :: rest) false ran h5]
                  rw [hap]
                  simp
                · rw [if_neg hap] at h5
                  simp [ioPure] at h5
                  have hap2 : opts.allowPostinstall = false := by
                    simpa using hap
                  rw [h5, hap2]
                  simp
  · intro w plans opts hap c d
    cases plans with
    | nil => simp [applyInstallPlans]
    | cons p rest =>
      unfold applyInstallPlans
      rw [if_neg (by simp)]
      simp only [List.head?_cons, Option.map_some']
      refine ioBind_ns (mkdirE_ns w _) (fun _ => ?_) c d
      refine ioBind_ns (stageLoopE_ns w _ _) (fun wrote => ?_)
      refine ioBind_ns (mkdirE_ns w _) (fun _ => ?_)
      refine ioBind_ns (updateConfigE_ns w _ _) (fun _ => ?_)
      refine ioBind_ns ?_ (fun ran => ioPure_ns _)
      rw [hap]
      simp only [Bool.false_eq_true, if_false]
      exact ioPure_ns false

/-- C10 witness: a concrete Ok run with postinstall allowed but no plan
carrying a descriptor (`ranPostinstall = false`), and a spawn-free trace when
postinstall is disallowed. -/
theorem applyInstallPlans_postinstall_witness :
    (⟨["/proj/.opencode/tool/a"], "/proj/.opencode/opencode.jsonc", false⟩ :
        ApplyInstallResult).ranPostinstall =
      ((⟨true, true⟩ : ApplyOpts).allowPostinstall &&
        [planProj].any (fun p => p.postinstall.isSome)) ∧
    FsOp.spawnOp "echo hi" "/proj" ∉
      (applyInstallPlans worldOK [planProj] ⟨true, false⟩).2 := by
  constructor
  · refine applyInstallPlans_postinstall.1 worldOK [planProj] ⟨true, true⟩ _ ?_
    obtain ⟨out, hout⟩ : ∃ out, upsertTopLevelJsoncProperty "\x7b\x7d".data
        "ocx".data (cfgToJS (List.foldl cfgSetPlan emptyOCXManagedConfig
          [planProj])) = .ok out := by
      unfold upsertTopLevelJsoncProperty
      have hroot : jsoncRoot (jsoncOriginal "\x7b\x7d".data) = .ok (0, 1) := by
        simp +decide [jsoncOriginal, jsoncRoot, skipL, skipLineL, skipBlockL,
          findCloseL, scanAux, scanCode, cleanSt, isWsJsonc, isQuoteC, squote]
      have hspan : findSpanAux "ocx".data 1 (0 + 1)
          ((jsoncOriginal "\x7b\x7d".data).drop (0 + 1)) = some none := by
        simp +decide [jsoncOriginal, findSpanAux, skipL, skipLineL,
          skipBlockL, scanAux, scanCode, cleanSt, isWsJsonc, isQuoteC, squote,
          parseStringL, parseStrAux, parseIdentL, identSpan, isIdentChar,
          findValueEndL, findCloseL]
      dsimp only
      rw [hroot]
      dsimp only
      rw [hspan]
      dsimp only
      rw [show formatValueForProperty (cfgToJS (List.foldl cfgSetPlan
          emptyOCXManagedConfig [planProj])) =
        some (replaceNL (strfV [] (cfgToJS (List.foldl cfgSetPlan
          emptyOCXManagedConfig [planProj])))) from rfl]
      exact ⟨_, rfl⟩
    have hcfg : (updateConfigE worldOK "/proj/.opencode/opencode.jsonc"
        [planProj]).1 = .ok () := by
      unfold updateConfigE
      rw [ioBind_fst]
      rw [show (readCfgE worldOK "/proj/.opencode/opencode.jsonc").1 =
        .ok "\x7b\x7d" from rfl]
      have hpe : parseExistingOCX worldOK "\x7b\x7d" =
          .ok emptyOCXManagedConfig := by
        unfold parseExistingOCX
        have hget : getTopLevelJsoncPropertyValueText "\x7b\x7d".data "ocx".data =
            .ok none := by
          simp +decide [getTopLevelJsoncPropertyValueText, jsoncOriginal,
            jsoncRoot, skipL, skipLineL, skipBlockL, findCloseL, scanAux,
            scanCode, cleanSt, isWsJsonc, isQuoteC, squote, findSpanAux,
            parseStringL, parseStrAux, parseIdentL, identSpan, isIdentChar,
            findValueEndL]
        rw [hget]
      simp only []
      rw [hpe]
      simp only []
      rw [hout]
      exact (show (writeAtomicE worldOK "/proj/.opencode/opencode.jsonc"
        ⟨out⟩).1 = .ok () from rfl)
    unfold applyInstallPlans
    rw [if_neg (by decide)]
    simp only [List.head?_cons, Option.map_some']
    rw [ioBind_fst]
    rw [show (mkdirE worldOK planProj.configRoot.opencodeDir).1 = .ok ()
      from rfl]
    simp only []
    rw [ioBind_fst]
    rw [show (stageLoopE worldOK (⟨true, true⟩ : ApplyOpts).overwrite
        [planProj]).1 = .ok ["/proj/.opencode/tool/a"] from by decide]
    simp only []
    rw [ioBind_fst]
    rw [show (mkdirE worldOK
        (posixDirname planProj.configRoot.configPath)).1 = .ok () from rfl]
    simp only []
    rw [ioBind_fst]
    rw [show "/proj/.opencode/opencode.jsonc" = planProj.configRoot.configPath
      from rfl] at hcfg
    rw [hcfg]
    simp only []
    rw [if_pos trivial]
    rw [ioBind_fst]
    rw [show (postLoopE worldOK false [planProj]).1 = .ok false
      from by decide]
    simp only []
    rfl
  · exact applyInstallPlans_postinstall.2 worldOK [planProj] ⟨true, false⟩
      rfl "echo hi" "/proj"

theorem lookupEnv_mem {env : List (String × ResolvedItem)} {spec : String}
    {r : ResolvedItem} (h : lookupEnv env spec = some r) :
    ∃ s0, (s0, r) ∈ env := by
  induction env with
  | nil => simp [lookupEnv] at h
  | cons e rest ih =>
    obtain ⟨s0, r0⟩ := e
    rw [lookupEnv] at h
    by_cases hs : s0 = spec
    · rw [if_pos hs] at h
      injection h with h2
      exact ⟨s0, by rw [h2]; simp⟩
    · rw [if_neg hs] at h
      obtain ⟨s1, hm⟩ := ih h
      exact ⟨s1, by simp [hm]⟩

theorem visitSpec_eq_none {env : List (String × ResolvedItem)}
    {path : List String} {st : List ResolvedItem} {spec : String}
    (hr : lookupEnv env spec = none) :
    visitSpec env path st spec = .err (.fetchErr spec) := by
  rw [visitSpec]
  split
  · rfl
  · rename_i r2 heq
    rw [hr] at heq
    exact Option.noConfusion heq

theorem visitSpec_eq_some {env : List (String × ResolvedItem)}
    {path : List String} {st : List ResolvedItem} {spec : String}
    {r : ResolvedItem} (hr : lookupEnv env spec = some r) :
    visitSpec env path st spec =
      (if keyOf r.item ∈ outKeys st then .ok st
       else if keyOf r.item ∈ path then .err (.depCycle (keyOf r.item))
       else match visitList env (keyOf r.item :: path) st
           r.item.registryDependencies with
         | .err e => .err e
         | .ok st2 => .ok (st2 ++ [r])) := by
  rw [visitSpec]
  split
  · rename_i heq
    rw [hr] at heq
    exact Option.noConfusion heq
  · rename_i r2 heq
    rw [hr] at heq
    injection heq with h2
    subst h2
    by_cases h1 : keyOf r.item ∈ outKeys st
    · rw [if_pos h1, if_pos h1]
    · rw [if_neg h1, if_neg h1]
      by_cases h3 : keyOf r.item ∈ path
      · rw [dif_pos h3, if_pos h3]
      · rw [dif_neg h3, if_neg h3]

theorem visitList_nil {env : List (String × ResolvedItem)}
    {path : List String} {st : List ResolvedItem} :
    visitList env path st [] = .ok st := by
  rw [visitList]

theorem visitList_cons {env : List (String × ResolvedItem)}
    {path : List String} {st : List ResolvedItem} {s : String}
    {rest : List String} :
    visitList env path st (s :: rest) =
      (match visitSpec env path st s with
       | .err e => .err e
       | .ok st2 => visitList env path st2 rest) := by
  rw [visitList]

theorem visitList_ok_of_rank (env : List (String × ResolvedItem))
    (rank : String → Nat)
    (hrk : ∀ e ∈ env, ∀ d ∈ e.2.item.registryDependencies, ∀ rd,
      lookupEnv env d = some rd → rank (keyOf rd.item) < rank (keyOf e.2.item))
    (hcl : ∀ e ∈ env, ∀ d ∈ e.2.item.registryDependencies,
      lookupEnv env d ≠ none) :
    ∀ (path : List String) (st : List ResolvedItem) (specs : List String),
      (∀ s ∈ specs, ∃ r, lookupEnv env s = some r ∧
        ∀ k' ∈ path, rank (keyOf r.item) < rank k') →
      ∃ st', visitList env path st specs = .ok st' := by
  intro path st specs
  refine visitList.induct env
    (fun path st spec =>
      ∀ r, lookupEnv env spec = some r →
        (∀ k' ∈ path, rank (keyOf r.item) < rank k') →
        ∃ st', visitSpec env path st spec = .ok st')
    (fun path st specs =>
      (∀ s ∈ specs, ∃ r, lookupEnv env s = some r ∧
        ∀ k' ∈ path, rank (keyOf r.item) < rank k') →
      ∃ st', visitList env path st specs = .ok st')
    ?_ ?_ ?_ ?_ ?_ ?_ ?_ ?_ path st specs
  · intro path st spec hnone r hr _
    rw [hnone] at hr
    exact Option.noConfusion hr
  · intro path st spec r hr
    dsimp only
    intro hk r2 hr2 _
    refine ⟨st, ?_⟩
    rw [visitSpec_eq_some hr, if_pos hk]
  · intro path st spec r hr
    dsimp only
    intro hk hp r2 hr2 hranks
    exfalso
    rw [hr] at hr2
    injection hr2 with h2
    subst h2
    exact absurd (hranks _ hp) (lt_irrefl _)
  · intro path st spec r hr
    dsimp only
    intro hk hp e herr ih r2 hr2 hranks
    exfalso
    rw [hr] at hr2
    injection hr2 with h2
    subst h2
    obtain ⟨s0, hs0⟩ := lookupEnv_mem hr
    obtain ⟨st3, hok⟩ := ih (by
      intro d hd
      have hne := hcl (s0, r) hs0 d hd
      cases hld : lookupEnv env d with
      | none => exact absurd hld hne
      | some rd =>
        refine ⟨rd, rfl, ?_⟩
        intro k' hk'
        rcases List.mem_cons.mp hk' with h3 | h3
        · subst h3
          exact hrk (s0, r) hs0 d hd rd hld
        · exact lt_trans (hrk (s0, r) hs0 d hd rd hld) (hranks k' h3))
    rw [herr] at hok
    exact Result.noConfusion hok
  · intro path st spec r hr
    dsimp only
    intro hk hp st2 hok ih r2 hr2 hranks
    rw [hr] at hr2
    injection hr2 with h2
    subst h2
    refine ⟨st2 ++ [r], ?_⟩
    rw [visitSpec_eq_some hr, if_neg hk, if_neg hp, hok]
  · intro path st _
    exact ⟨st, visitList_nil⟩
  · intro path st top rest e herr ih1 hall
    exfalso
    obtain ⟨r, hr, hranks⟩ := hall top (by simp)
    obtain ⟨st2, hok⟩ := ih1 r hr hranks
    rw [herr] at hok
    exact Result.noConfusion hok
  · intro path st top rest st2 hok ih1 ih2 hall
    obtain ⟨st3, h3⟩ := ih2 (by
      intro s hs
      exact hall s (by simp [hs]))
    refine ⟨st3, ?_⟩
    rw [visitList_cons, hok]
    simp only []
    exact h3

theorem outKeys_append (a b : List ResolvedItem) :
    outKeys (a ++ b) = outKeys a ++ outKeys b := by
  simp [outKeys]

theorem db_append {env : List (String × ResolvedItem)}
    {st2 : List ResolvedItem} {r : ResolvedItem}
    (hdb : ∀ i : Fin st2.length, ∀ d ∈ (st2.get i).item.registryDependencies,
      ∀ rd, lookupEnv env d = some rd → keyOf rd.item ∈ outKeys (st2.take i.val))
    (hr : ∀ d ∈ r.item.registryDependencies, ∀ rd,
      lookupEnv env d = some rd → keyOf rd.item ∈ outKeys st2) :
    ∀ i : Fin (st2 ++ [r]).length,
      ∀ d ∈ ((st2 ++ [r]).get i).item.registryDependencies,
      ∀ rd, lookupEnv env d = some rd →
        keyOf rd.item ∈ outKeys ((st2 ++ [r]).take i.val) := by
  intro i d hd rd hld
  by_cases hi : i.val < st2.length
  · rw [List.take_append_of_le_length (le_of_lt hi)]
    have hget : (st2 ++ [r]).get i = st2.get ⟨i.val, hi⟩ := by
      simp [List.get_eq_getElem]
      rw [List.getElem_append_left hi]
    rw [hget] at hd
    exact hdb ⟨i.val, hi⟩ d hd rd hld
  · have hlt := i.isLt
    simp only [List.length_append, List.length_cons, List.length_nil] at hlt
    have hi2 : i.val = st2.length := by omega
    have hget : (st2 ++ [r]).get i = r := by
      simp only [List.get_eq_getElem]
      rw [List.getElem_append_right (by omega)]
      simp [hi2]
    rw [hget] at hd
    rw [hi2, List.take_left]
    exact hr d hd rd hld

theorem visitList_ok_facts (env : List (String × ResolvedItem)) :
    ∀ (path : List String) (st : List ResolvedItem) (specs : List String),
      ∀ st', visitList env path st specs = .ok st' →
      (outKeys st).Nodup →
      (∀ r ∈ st, ∃ s, lookupEnv env s = some r) →
      (∀ i : Fin st.length, ∀ d ∈ (st.get i).item.registryDependencies,
        ∀ rd, lookupEnv env d = some rd →
          keyOf rd.item ∈ outKeys (st.take i.val)) →
      ((outKeys st').Nodup ∧
        (∀ r ∈ st', ∃ s, lookupEnv env s = some r) ∧
        (∀ i : Fin st'.length, ∀ d ∈ (st'.get i).item.registryDependencies,
          ∀ rd, lookupEnv env d = some rd →
            keyOf rd.item ∈ outKeys (st'.take i.val)) ∧
        (∃ new, st' = st ++ new) ∧
        (∀ s ∈ specs, ∀ r, lookupEnv env s = some r →
          keyOf r.item ∈ outKeys st') ∧
        (∀ key ∈ path, key ∉ outKeys st → key ∉ outKeys st')) := by
  intro path st specs
  refine visitList.induct env
    (fun path st spec =>
      ∀ st', visitSpec env path st spec = .ok st' →
      (outKeys st).Nodup →
      (∀ r ∈ st, ∃ s, lookupEnv env s = some r) →
      (∀ i : Fin st.length, ∀ d ∈ (st.get i).item.registryDependencies,
        ∀ rd, lookupEnv env d = some rd →
          keyOf rd.item ∈ outKeys (st.take i.val)) →
      ((outKeys st').Nodup ∧
        (∀ r ∈ st', ∃ s, lookupEnv env s = some r) ∧
        (∀ i : Fin st'.length, ∀ d ∈ (st'.get i).item.registryDependencies,
          ∀ rd, lookupEnv env d = some rd →
            keyOf rd.item ∈ outKeys (st'.take i.val)) ∧
        (∃ new, st' = st ++ new) ∧
        (∀ r, lookupEnv env spec = some r → keyOf r.item ∈ outKeys st') ∧
        (∀ key ∈ path, key ∉ outKeys st → key ∉ outKeys st')))
    (fun path st specs =>
      ∀ st', visitList env path st specs = .ok st' →
      (outKeys st).Nodup →
      (∀ r ∈ st, ∃ s, lookupEnv env s = some r) →
      (∀ i : Fin st.length, ∀ d ∈ (st.get i).item.registryDependencies,
        ∀ rd, lookupEnv env d = some rd →
          keyOf rd.item ∈ outKeys (st.take i.val)) →
      ((outKeys st').Nodup ∧
        (∀ r ∈ st', ∃ s, lookupEnv env s = some r) ∧
        (∀ i : Fin st'.length, ∀ d ∈ (st'.get i).item.registryDependencies,
          ∀ rd, lookupEnv env d = some rd →
            keyOf rd.item ∈ outKeys (st'.take i.val)) ∧
        (∃ new, st' = st ++ new) ∧
        (∀ s ∈ specs, ∀ r, lookupEnv env s = some r →
          keyOf r.item ∈ outKeys st') ∧
        (∀ key ∈ path, key ∉ outKeys st → key ∉ outKeys st')))
    ?_ ?_ ?_ ?_ ?_ ?_ ?_ ?_ path st specs
  · intro path st spec hnone st' h
    rw [visitSpec_eq_none hnone] at h
    exact Result.noConfusion h
  · intro path st spec r hr
    dsimp only
    intro hk st' h hnodup hprov hdb
    rw [visitSpec_eq_some hr, if_pos hk] at h
    injection h with h2
    subst h2
    refine ⟨hnodup, hprov, hdb, ⟨[], by simp⟩, ?_, fun key _ hno => hno⟩
    intro r2 hr2
    rw [hr] at hr2
    injection hr2 with h3
    subst h3
    exact hk
  · intro path st spec r hr
    dsimp only
    intro hk hp st' h
    rw [visitSpec_eq_some hr, if_neg hk, if_pos hp] at h
    exact Result.noConfusion h
  · intro path st spec r hr
    dsimp only
    intro hk hp e herr ih st' h
    rw [visitSpec_eq_some hr, if_neg hk, if_neg hp, herr] at h
    exact Result.noConfusion h
  · intro path st spec r hr
    dsimp only
    intro hk hp st2 hvl ih st' h hnodup hprov hdb
    rw [visitSpec_eq_some hr, if_neg hk, if_neg hp, hvl] at h
    simp only [] at h
    injection h with h2
    subst h2
    obtain ⟨N2, P2, D2, ⟨new2, hnew2⟩, Mdeps, K2⟩ := ih st2 hvl hnodup hprov hdb
    have hknotin : keyOf r.item ∉ outKeys st2 :=
      K2 (keyOf r.item) (by simp) hk
    refine ⟨?_, ?_, ?_, ⟨new2 ++ [r], by rw [hnew2, List.append_assoc]⟩, ?_, ?_⟩
    · rw [outKeys_append]
      simp [List.nodup_append, outKeys]
      constructor
      · exact N2
      · intro x hx hc
        exact hknotin (List.mem_map.mpr ⟨x, hx, hc⟩)
    · intro r2 hr2
      rcases List.mem_append.mp hr2 with h3 | h3
      · exact P2 r2 h3
      · simp at h3
        subst h3
        exact ⟨spec, hr⟩
    · exact db_append D2 (fun d hd rd hld => Mdeps d hd rd hld)
    · intro r2 hr2
      rw [hr] at hr2
      injection hr2 with h3
      subst h3
      rw [outKeys_append]
      simp [outKeys]
    · intro key hkey hno
      have h5 := K2 key (by simp [hkey]) hno
      rw [outKeys_append]
      simp only [List.mem_append, outKeys, List.map_cons, List.map_nil]
      intro hc
      rcases hc with hc | hc
      · exact h5 hc
      · simp at hc
        subst hc
        exact hp hkey
  · intro path st st' h
    rw [visitList_nil] at h
    injection h with h2
    subst h2
    intro hnodup hprov hdb
    exact ⟨hnodup, hprov, hdb, ⟨[], by simp⟩, by simp, fun key _ hno => hno⟩
  · intro path st top rest e herr ih1 st' h
    rw [visitList_cons, herr] at h
    simp only [] at h
    exact Result.noConfusion h
  · intro path st top rest st2 hsok ih1 ih2 st' h hnodup hprov hdb
    rw [visitList_cons, hsok] at h
    simp only [] at h
    obtain ⟨N2, P2, D2, ⟨new2, hnew2⟩, Mtop, K2⟩ := ih1 st2 hsok hnodup hprov hdb
    obtain ⟨N3, P3, D3, ⟨new3, hnew3⟩, Mrest, K3⟩ := ih2 st' h N2 P2 D2
    refine ⟨N3, P3, D3,
      ⟨new2 ++ new3, by rw [hnew3, hnew2, List.append_assoc]⟩, ?_, ?_⟩
    · intro s hs r2 hr2
      rcases List.mem_cons.mp hs with h3 | h3
      · subst h3
        have := Mtop r2 hr2
        rw [hnew3, outKeys_append]
        exact List.mem_append.mpr (Or.inl this)
      · exact Mrest s h3 r2 hr2
    · intro key hkey hno
      exact K3 key hkey (K2 key hkey hno)

/-- C3: over any dependency-closed environment whose dependency graph is
acyclic (witnessed by a rank function strictly decreasing along dependency
edges), resolving any covered root specs succeeds with a list whose identity
keys are pairwise distinct (each item appears exactly once per `kind/name`
key), in which every item was fetched for some spec, every item's resolved
dependencies appear at strictly earlier positions, and every root's key is
present; in particular the diamond `A → B`, `C → B` resolves to `[B, A, C]`
with `B` exactly once before both, and two specs sharing one key keep the
first-seen item and provenance. -/
theorem resolveRegistryTree_postorder :
    (∀ (env : List (String × ResolvedItem)) (rank : String → Nat)
        (specs : List String),
      (∀ e ∈ env, ∀ d ∈ e.2.item.registryDependencies,
        rank (specKey env d) < rank (keyOf e.2.item)) →
      (∀ e ∈ env, ∀ d ∈ e.2.item.registryDependencies,
        lookupEnv env d ≠ none) →
      (∀ s ∈ specs, lookupEnv env s ≠ none) →
      ∃ res, resolveRegistryTree env specs = .ok res ∧
        (outKeys res).Nodup ∧
        (∀ r ∈ res, ∃ s, lookupEnv env s = some r) ∧
        (∀ i : Fin res.length, ∀ d ∈ (res.get i).item.registryDependencies,
          ∀ rd, lookupEnv env d = some rd →
            keyOf rd.item ∈ outKeys (res.take i.val)) ∧
        (∀ s ∈ specs, ∀ r, lookupEnv env s = some r →
          keyOf r.item ∈ outKeys res)) ∧
    resolveRegistryTree diamondEnv ["A", "C"] =
      .ok [⟨⟨.tool, "B", none, [], [], none, none⟩, "embedded:tool/B"⟩,
           ⟨⟨.tool, "A", none, ["B"], [], none, none⟩, "embedded:tool/A"⟩,
           ⟨⟨.tool, "C", none, ["B"], [], none, none⟩, "embedded:tool/C"⟩] ∧
    resolveRegistryTree dupEnv ["X", "Y"] =
      .ok [⟨⟨.tool, "dup", none, [], [], none, none⟩,
        "registry-one:tool/dup"⟩] := by
  refine ⟨?_, ?_, ?_⟩
  · intro env rank specs hrk hcl hsp
    have hrk2 : ∀ e ∈ env, ∀ d ∈ e.2.item.registryDependencies, ∀ rd,
        lookupEnv env d = some rd →
          rank (keyOf rd.item) < rank (keyOf e.2.item) := by
      intro e he d hd rd hld
      have := hrk e he d hd
      rw [specKey, hld] at this
      exact this
    obtain ⟨res, hres⟩ := visitList_ok_of_rank env rank hrk2 hcl [] [] specs (by
      intro s hs
      cases hls : lookupEnv env s with
      | none => exact absurd hls (hsp s hs)
      | some r => exact ⟨r, rfl, by simp⟩)
    obtain ⟨N, P, D, _, M, _⟩ := visitList_ok_facts env [] [] specs res hres
      (by simp [outKeys]) (by simp) (by intro i; exact absurd i.isLt (by simp))
    exact ⟨res, hres, N, P, D, M⟩
  · simp +decide [resolveRegistryTree, visitList, visitSpec, lookupEnv,
      diamondEnv, keyOf, kindStr, outKeys]
  · simp +decide [resolveRegistryTree, visitList, visitSpec, lookupEnv,
      dupEnv, keyOf, kindStr, outKeys]

/-- C3 witness: the acyclicity rank `tool/B ↦ 0, _ ↦ 1` discharges the
hypotheses for the diamond environment. -/
theorem resolveRegistryTree_postorder_witness :
    ∃ res, resolveRegistryTree diamondEnv ["A", "C"] = .ok res ∧
      (outKeys res).Nodup ∧
      (∀ r ∈ res, ∃ s, lookupEnv diamondEnv s = some r) ∧
      (∀ i : Fin res.length, ∀ d ∈ (res.get i).item.registryDependencies,
        ∀ rd, lookupEnv diamondEnv d = some rd →
          keyOf rd.item ∈ outKeys (res.take i.val)) ∧
      (∀ s ∈ ["A", "C"], ∀ r, lookupEnv diamondEnv s = some r →
        keyOf r.item ∈ outKeys res) :=
  resolveRegistryTree_postorder.1 diamondEnv
    (fun k => if k = "tool/B" then 0 else 1) ["A", "C"]
    (by decide) (by decide) (by decide)

theorem visitList_err_classify (env : List (String × ResolvedItem))
    (hcl : ∀ e ∈ env, ∀ d ∈ e.2.item.registryDependencies,
      lookupEnv env d ≠ none) :
    ∀ (path : List String) (st : List ResolvedItem) (specs : List String),
      (∀ s ∈ specs, lookupEnv env s ≠ none) →
      ∀ e, visitList env path st specs = .err e → ∃ k, e = .depCycle k := by
  intro path st specs
  refine visitList.induct env
    (fun path st spec =>
      lookupEnv env spec ≠ none →
      ∀ e, visitSpec env path st spec = .err e → ∃ k, e = .depCycle k)
    (fun path st specs =>
      (∀ s ∈ specs, lookupEnv env s ≠ none) →
      ∀ e, visitList env path st specs = .err e → ∃ k, e = .depCycle k)
    ?_ ?_ ?_ ?_ ?_ ?_ ?_ ?_ path st specs
  · intro path st spec hnone hne e h
    exact absurd hnone hne
  · intro path st spec r hr
    dsimp only
    intro hk _ e h
    rw [visitSpec_eq_some hr, if_pos hk] at h
    exact Result.noConfusion h
  · intro path st spec r hr
    dsimp only
    intro hk hp _ e h
    rw [visitSpec_eq_some hr, if_neg hk, if_pos hp] at h
    injection h with h2
    exact ⟨keyOf r.item, h2.symm⟩
  · intro path st spec r hr
    dsimp only
    intro hk hp e2 herr ih _ e h
    rw [visitSpec_eq_some hr, if_neg hk, if_neg hp, herr] at h
    simp only [] at h
    injection h with h2
    subst h2
    obtain ⟨s0, hs0⟩ := lookupEnv_mem hr
    exact ih (fun d hd => hcl (s0, r) hs0 d hd) e2 herr
  · intro path st spec r hr
    dsimp only
    intro hk hp st2 hvl ih _ e h
    rw [visitSpec_eq_some hr, if_neg hk, if_neg hp, hvl] at h
    exact Result.noConfusion h
  · intro path st _ e h
    rw [visitList_nil] at h
    exact Result.noConfusion h
  · intro path st top rest e2 herr ih1 hall e h
    rw [visitList_cons, herr] at h
    simp only [] at h
    injection h with h2
    subst h2
    exact ih1 (hall top (by simp)) e2 herr
  · intro path st top rest st2 hsok ih1 ih2 hall e h
    rw [visitList_cons, hsok] at h
    simp only [] at h
    exact ih2 (fun s hs => hall s (by simp [hs])) e h

theorem mem_outKeys_index {res : List ResolvedItem} {k : String}
    (h : k ∈ outKeys res) :
    ∃ i : Fin res.length, keyOf (res.get i).item = k := by
  unfold outKeys at h
  obtain ⟨r, hr, heq⟩ := List.mem_map.mp h
  obtain ⟨n, hn⟩ := List.get_of_mem hr
  exact ⟨n, by rw [hn, heq]⟩

theorem mem_outKeys_take {res : List ResolvedItem} {k : String} {n : Nat}
    (h : k ∈ outKeys (res.take n)) :
    ∃ j : Fin res.length, keyOf (res.get j).item = k ∧ j.val < n := by
  unfold outKeys at h
  obtain ⟨r, hr, heq⟩ := List.mem_map.mp h
  obtain ⟨m, hm⟩ := List.get_of_mem hr
  have hmlt : m.val < res.length ∧ m.val < n := by
    have := m.isLt
    simp [List.length_take] at this
    omega
  refine ⟨⟨m.val, hmlt.1⟩, ?_, hmlt.2⟩
  have : (res.take n).get m = res.get ⟨m.val, hmlt.1⟩ := by
    simp [List.get_eq_getElem, List.getElem_take]
  rw [this] at hm
  rw [hm, heq]

theorem outKeys_key_inj {res : List ResolvedItem}
    (N : (outKeys res).Nodup) {i j : Fin res.length}
    (h : keyOf (res.get i).item = keyOf (res.get j).item) : i = j := by
  have hlen : res.length = (outKeys res).length := by simp [outKeys]
  have hmap : ∀ m : Fin res.length,
      (outKeys res).get (Fin.cast hlen m) = keyOf (res.get m).item := by
    intro m
    simp [outKeys, List.get_eq_getElem, List.getElem_map]
  have h2 := (@List.Nodup.get_inj_iff String (outKeys res) N
    (Fin.cast hlen i) (Fin.cast hlen j)).mp (by rw [hmap, hmap, h])
  have h3 : i.val = j.val := by
    have := congrArg Fin.val h2
    simpa using this
  exact Fin.ext h3


theorem walk_step_down {env : List (String × ResolvedItem)}
    {res : List ResolvedItem}
    (keyCons : ∀ e1 ∈ env, ∀ e2 ∈ env, keyOf e1.2.item = keyOf e2.2.item →
      e1.2.item = e2.2.item)
    (hcl : ∀ e ∈ env, ∀ d ∈ e.2.item.registryDependencies,
      lookupEnv env d ≠ none)
    (P : ∀ r ∈ res, ∃ s, lookupEnv env s = some r)
    (D : ∀ i : Fin res.length, ∀ d ∈ (res.get i).item.registryDependencies,
      ∀ rd, lookupEnv env d = some rd → keyOf rd.item ∈ outKeys (res.take i.val))
    {s d : String} (hstep : stepB env s d = true)
    {i : Fin res.length} (hi : keyOf (res.get i).item = specKey env s) :
    ∃ j : Fin res.length, keyOf (res.get j).item = specKey env d ∧
      j.val < i.val := by
  unfold stepB at hstep
  cases hls : lookupEnv env s with
  | none => rw [hls] at hstep; exact Bool.noConfusion hstep
  | some rs =>
    rw [hls] at hstep
    simp only [decide_eq_true_eq] at hstep
    have hsk : specKey env s = keyOf rs.item := by
      unfold specKey
      rw [hls]
    obtain ⟨s1, hs1⟩ := P (res.get i) (List.get_mem res i.val i.isLt)
    obtain ⟨n0, hn0⟩ := lookupEnv_mem hs1
    obtain ⟨n1, hn1⟩ := lookupEnv_mem hls
    have hitem : (res.get i).item = rs.item :=
      keyCons (n0, res.get i) hn0 (n1, rs) hn1 (by rw [hi, hsk])
    have hd : d ∈ (res.get i).item.registryDependencies := by
      rw [hitem]
      exact hstep
    obtain ⟨n2, hn2⟩ := lookupEnv_mem hls
    have hdne := hcl (n2, rs) hn2 d (by rw [← hitem]; exact hd)
    cases hld : lookupEnv env d with
    | none => exact absurd hld hdne
    | some rd =>
      have hdk : specKey env d = keyOf rd.item := by
        unfold specKey
        rw [hld]
      obtain ⟨j, hj, hjlt⟩ := mem_outKeys_take (D i d hd rd hld)
      exact ⟨j, by rw [hj, hdk], hjlt⟩

theorem walk_down {env : List (String × ResolvedItem)}
    {res : List ResolvedItem}
    (keyCons : ∀ e1 ∈ env, ∀ e2 ∈ env, keyOf e1.2.item = keyOf e2.2.item →
      e1.2.item = e2.2.item)
    (hcl : ∀ e ∈ env, ∀ d ∈ e.2.item.registryDependencies,
      lookupEnv env d ≠ none)
    (P : ∀ r ∈ res, ∃ s, lookupEnv env s = some r)
    (D : ∀ i : Fin res.length, ∀ d ∈ (res.get i).item.registryDependencies,
      ∀ rd, lookupEnv env d = some rd → keyOf rd.item ∈ outKeys (res.take i.val)) :
    ∀ (c : List String) (s : String),
      List.Chain' (fun a b => stepB env a b = true) (s :: c) →
      ∀ i : Fin res.length, keyOf (res.get i).item = specKey env s →
      ∃ j : Fin res.length,
        keyOf (res.get j).item =
          specKey env ((s :: c).getLast (List.cons_ne_nil s c)) ∧
        j.val + c.length ≤ i.val := by
  intro c
  induction c with
  | nil =>
    intro s _ i hi
    exact ⟨i, by simpa using hi, by simp⟩
  | cons b bs ih =>
    intro s hch i hi
    have hstep : stepB env s b = true := (List.chain'_cons.mp hch).1
    have hch2 : List.Chain' (fun a b => stepB env a b = true) (b :: bs) :=
      (List.chain'_cons.mp hch).2
    obtain ⟨j, hj, hjlt⟩ := walk_step_down keyCons hcl P D hstep hi
    obtain ⟨j2, hj2, hj2le⟩ := ih b hch2 j hj
    refine ⟨j2, ?_, by simp only [List.length_cons]; omega⟩
    rw [hj2]
    exact congrArg (specKey env) (List.getLast_cons (List.cons_ne_nil b bs)).symm

theorem getLast_cons_append_singleton {α : Type} (z a : α) :
    ∀ (l : List α),
      (z :: (l ++ [a])).getLast (List.cons_ne_nil z (l ++ [a])) = a := by
  intro l
  induction l generalizing z with
  | nil => rfl
  | cons b bs ih =>
    exact ih b

/-- C4: over any key-consistent, dependency-closed environment, if some root
spec reaches a walk whose dependency steps close a cycle at the identity-key
level, then `resolveRegistryTree` returns `Err (DependencyCycle k)` for some
key `k` (it is a total function in this development, so it terminates by
construction); in particular `A → B → A` fails with `DependencyCycle`
naming `tool/A`. -/
theorem resolveRegistryTree_cycle :
    (∀ (env : List (String × ResolvedItem)) (specs : List String)
        (s0 x y : String) (w cyc : List String),
      (∀ e1 ∈ env, ∀ e2 ∈ env, keyOf e1.2.item = keyOf e2.2.item →
        e1.2.item = e2.2.item) →
      (∀ e ∈ env, ∀ d ∈ e.2.item.registryDependencies,
        lookupEnv env d ≠ none) →
      (∀ s ∈ specs, lookupEnv env s ≠ none) →
      s0 ∈ specs →
      List.Chain' (fun a b => stepB env a b = true) (s0 :: w) →
      (s0 :: w).getLast (List.cons_ne_nil s0 w) = x →
      List.Chain' (fun a b => stepB env a b = true) (x :: cyc ++ [y]) →
      specKey env y = specKey env x →
      ∃ k, resolveRegistryTree env specs = .err (.depCycle k)) ∧
    resolveRegistryTree cycleEnv ["A"] = .err (.depCycle "tool/A") := by
  constructor
  · intro env specs s0 x y w cyc keyCons hcl hsp hroot hreach hlastx hcyc hkey
    cases hres : resolveRegistryTree env specs with
    | err e =>
      obtain ⟨k, hk⟩ := visitList_err_classify env hcl [] [] specs hsp e hres
      exact ⟨k, by rw [hk]⟩
    | ok res =>
      exfalso
      obtain ⟨N, P, D, _, M, _⟩ := visitList_ok_facts env [] [] specs res hres
        (by simp [outKeys]) (by simp) (by intro i; exact absurd i.isLt (by simp))
      have hs0k : specKey env s0 ∈ outKeys res := by
        cases hls : lookupEnv env s0 with
        | none => exact absurd hls (hsp s0 hroot)
        | some r0 =>
          have := M s0 hroot r0 hls
          unfold specKey
          rw [hls]
          exact this
      obtain ⟨i0, hi0⟩ := mem_outKeys_index hs0k
      obtain ⟨ix, hix, _⟩ := walk_down keyCons hcl P D w s0 hreach i0 hi0
      have hix2 : keyOf (res.get ix).item = specKey env x := by
        rw [hix]
        exact congrArg (specKey env) hlastx
      obtain ⟨iy, hiy, hylen⟩ :=
        walk_down keyCons hcl P D (cyc ++ [y]) x hcyc ix hix2
      have hylast : ((x :: cyc ++ [y]).getLast
          (List.cons_ne_nil x (cyc ++ [y]))) = y :=
        getLast_cons_append_singleton x y cyc
      have hiy2 : keyOf (res.get iy).item = keyOf (res.get ix).item :=
        ((hiy.trans (congrArg (specKey env) hylast)).trans hkey).trans hix2.symm
      have heq : iy = ix := outKeys_key_inj N hiy2
      have hlen2 : (cyc ++ [y]).length = cyc.length + 1 := by simp
      rw [heq, hlen2] at hylen
      omega
  · simp +decide [resolveRegistryTree, visitList, visitSpec, lookupEnv,
      cycleEnv, keyOf, kindStr, outKeys]

/-- C4 witness: the concrete two-item cycle `A → B → A` reachable from root
`A`, discharged on `cycleEnv`. -/
theorem resolveRegistryTree_cycle_witness :
    ∃ k, resolveRegistryTree cycleEnv ["A"] = .err (.depCycle k) :=
  resolveRegistryTree_cycle.1 cycleEnv ["A"] "A" "A" "A" [] ["B"]
    (by decide) (by decide) (by decide) (by decide)
    (by simp)
    (by decide)
    (by simp +decide [List.chain'_cons, List.chain'_singleton, stepB,
      lookupEnv, cycleEnv])
    (by decide)

theorem slice_middle (A B C : List Char) :
    ((A ++ (B ++ C)).take (A.length + B.length)).drop A.length = B := by
  rw [show A ++ (B ++ C) = (A ++ B) ++ C from (List.append_assoc A B C).symm]
  rw [show A.length + B.length = (A ++ B).length from
    (List.length_append A B).symm]
  rw [List.take_left]
  rw [List.drop_left]

/-- C1: when the scan locates the property's value span, the upsert replaces
exactly that span with the re-indented `JSON.stringify` of the new value and
keeps every other byte (the output is literally prefix-before-span ++
formatted ++ suffix-after-span); a second identical upsert is byte-identical
whenever the rescan of the output assigns the freshly written value the exact
span it occupies — which holds for delimited values but fails for primitive
ones, whose span absorbs trailing whitespace (see the counterexample); and
comment-looking sequences inside string values do not disturb the scan. -/
theorem upsertTopLevel_replace :
    (∀ (text name : List Char) (v : JSVal) (ro rc vs ve : Nat)
        (fmt : List Char),
      jsoncRoot (jsoncOriginal text) = .ok (ro, rc) →
      findSpanAux name rc (ro + 1) ((jsoncOriginal text).drop (ro + 1)) =
        some (some (vs, ve)) →
      formatValueForProperty v = some fmt →
      upsertTopLevelJsoncProperty text name v =
        .ok ((jsoncOriginal text).take vs ++ fmt ++
          (jsoncOriginal text).drop ve)) ∧
    (∀ (text name : List Char) (v : JSVal) (ro rc vs ve : Nat)
        (fmt : List Char) (ro2 rc2 : Nat),
      jsoncRoot (jsoncOriginal text) = .ok (ro, rc) →
      findSpanAux name rc (ro + 1) ((jsoncOriginal text).drop (ro + 1)) =
        some (some (vs, ve)) →
      formatValueForProperty v = some fmt →
      vs ≤ (jsoncOriginal text).length →
      ((jsoncOriginal text).take vs ++ fmt ++ (jsoncOriginal text).drop ve) ≠
        [] →
      jsoncRoot ((jsoncOriginal text).take vs ++ fmt ++
        (jsoncOriginal text).drop ve) = .ok (ro2, rc2) →
      findSpanAux name rc2 (ro2 + 1)
        (((jsoncOriginal text).take vs ++ fmt ++
          (jsoncOriginal text).drop ve).drop (ro2 + 1)) =
        some (some (vs, vs + fmt.length)) →
      upsertTopLevelJsoncProperty
        ((jsoncOriginal text).take vs ++ fmt ++ (jsoncOriginal text).drop ve)
        name v =
        .ok ((jsoncOriginal text).take vs ++ fmt ++
          (jsoncOriginal text).drop ve)) ∧
    getTopLevelJsoncPropertyValueText
      "\x7b\"url\": \"http://x\", \"name\": [1, 2]\x7d".data "name".data =
      .ok (some "[1, 2]".data) ∧
    upsertTopLevelJsoncProperty
      "\x7b\"url\": \"http://x\", \"name\": [1, 2]\x7d".data "name".data
      (.jnum 5) =
      .ok "\x7b\"url\": \"http://x\", \"name\": 5\x7d".data := by
  refine ⟨?_, ?_, ?_, ?_⟩
  · intro text name v ro rc vs ve fmt hroot hspan hfmt
    unfold upsertTopLevelJsoncProperty
    dsimp only
    rw [hroot]
    dsimp only
    rw [hspan]
    dsimp only
    rw [hfmt]
  · intro text name v ro rc vs ve fmt ro2 rc2 hroot hspan hfmt hlen hne
      hroot2 hspan2
    have horig : jsoncOriginal ((jsoncOriginal text).take vs ++ fmt ++
        (jsoncOriginal text).drop ve) =
        ((jsoncOriginal text).take vs ++ fmt ++
          (jsoncOriginal text).drop ve) := by
      unfold jsoncOriginal
      rw [if_neg (by
        intro hc
        exact hne (List.length_eq_zero.mp hc))]
    unfold upsertTopLevelJsoncProperty
    rw [horig]
    dsimp only
    rw [hroot2]
    dsimp only
    rw [hspan2]
    dsimp only
    rw [hfmt]
    dsimp only
    congr 1
    have hA : ((jsoncOriginal text).take vs).length = vs := by
      rw [List.length_take]
      omega
    generalize hAg : (jsoncOriginal text).take vs = A at hA ⊢
    generalize hBg : (jsoncOriginal text).drop ve = B
    rw [← hA]
    rw [show A ++ fmt ++ B = A ++ (fmt ++ B) from List.append_assoc _ _ _]
    rw [List.take_left]
    rw [show A ++ (fmt ++ B) = (A ++ fmt) ++ B from
      (List.append_assoc _ _ _).symm]
    rw [show A.length + fmt.length = (A ++ fmt).length from
      (List.length_append _ _).symm]
    rw [List.drop_left]
  · simp +decide [getTopLevelJsoncPropertyValueText, jsoncOriginal, jsoncRoot,
      skipL, skipLineL, skipBlockL, findCloseL, scanAux, scanCode, cleanSt,
      isWsJsonc, isQuoteC, squote, findSpanAux, parseStringL, parseStrAux,
      parseIdentL, identSpan, isIdentChar, findValueEndL]
  · simp +decide [upsertTopLevelJsoncProperty, jsoncOriginal, jsoncRoot,
      skipL, skipLineL, skipBlockL, findCloseL, scanAux, scanCode, cleanSt,
      isWsJsonc, isQuoteC, squote, findSpanAux, formatValueForProperty,
      replaceNL, strfV, parseStringL, parseStrAux, parseIdentL, identSpan,
      isIdentChar, findValueEndL]

/-- C1 counterexample: replacing the delimited value `[1]` by the primitive
`1` is not idempotent: the first upsert leaves the trailing space before the
brace (`\x7b"a": 1 \x7d`), while the second one's value-end scan absorbs that
space into the span and deletes it (`\x7b"a": 1\x7d`), so the second output
is not byte-identical to the first. -/
theorem upsert_primitive_not_idempotent :
    upsertTopLevelJsoncProperty "\x7b\"a\": [1] \x7d".data "a".data (.jnum 1) =
      .ok "\x7b\"a\": 1 \x7d".data ∧
    upsertTopLevelJsoncProperty "\x7b\"a\": 1 \x7d".data "a".data (.jnum 1) =
      .ok "\x7b\"a\": 1\x7d".data ∧
    "\x7b\"a\": 1 \x7d".data ≠ "\x7b\"a\": 1\x7d".data := by
  refine ⟨?_, ?_, by decide⟩
  · simp +decide [upsertTopLevelJsoncProperty, jsoncOriginal, jsoncRoot,
      skipL, skipLineL, skipBlockL, findCloseL, scanAux, scanCode, cleanSt,
      isWsJsonc, isQuoteC, squote, findSpanAux, formatValueForProperty,
      replaceNL, strfV, parseStringL, parseStrAux, parseIdentL, identSpan,
      isIdentChar, findValueEndL]
  · simp +decide [upsertTopLevelJsoncProperty, jsoncOriginal, jsoncRoot,
      skipL, skipLineL, skipBlockL, findCloseL, scanAux, scanCode, cleanSt,
      isWsJsonc, isQuoteC, squote, findSpanAux, formatValueForProperty,
      replaceNL, strfV, parseStringL, parseStrAux, parseIdentL, identSpan,
      isIdentChar, findValueEndL]

/-- C1 witness: the replacement equation and the delimited-value idempotency
at `\x7b"a":[1]\x7d` with the string value `"x"`. -/
theorem upsertTopLevel_replace_witness :
    upsertTopLevelJsoncProperty "\x7b\"a\":[1]\x7d".data "a".data
      (.jstr "x".data) = .ok "\x7b\"a\":\"x\"\x7d".data ∧
    upsertTopLevelJsoncProperty "\x7b\"a\":\"x\"\x7d".data "a".data
      (.jstr "x".data) = .ok "\x7b\"a\":\"x\"\x7d".data := by
  have hroot : jsoncRoot (jsoncOriginal "\x7b\"a\":[1]\x7d".data) =
      .ok (0, 8) := by
    simp +decide [jsoncOriginal, jsoncRoot, skipL, skipLineL, skipBlockL,
      findCloseL, scanAux, scanCode, cleanSt, isWsJsonc, isQuoteC, squote]
  have hspan : findSpanAux "a".data 8 (0 + 1)
      ((jsoncOriginal "\x7b\"a\":[1]\x7d".data).drop (0 + 1)) =
      some (some (5, 8)) := by
    simp +decide [jsoncOriginal, findSpanAux, skipL, skipLineL, skipBlockL,
      scanAux, scanCode, cleanSt, isWsJsonc, isQuoteC, squote, parseStringL,
      parseStrAux, parseIdentL, identSpan, isIdentChar, findValueEndL,
      findCloseL]
  have hfmt : formatValueForProperty (.jstr "x".data) =
      some ['\"', 'x', '\"'] := by
    simp +decide [formatValueForProperty, strfV, replaceNL, jsonQuote,
      jsEscapeChar, hexDigitL]
  have hT2 : (jsoncOriginal "\x7b\"a\":[1]\x7d".data).take 5 ++
      ['\"', 'x', '\"'] ++
      (jsoncOriginal "\x7b\"a\":[1]\x7d".data).drop 8 =
      "\x7b\"a\":\"x\"\x7d".data := by decide
  constructor
  · have h1 := upsertTopLevel_replace.1 "\x7b\"a\":[1]\x7d".data "a".data
      (.jstr "x".data) 0 8 5 8 ['\"', 'x', '\"'] hroot hspan hfmt
    rw [hT2] at h1
    exact h1
  · have hroot2 : jsoncRoot ((jsoncOriginal "\x7b\"a\":[1]\x7d".data).take 5 ++
        ['\"', 'x', '\"'] ++
        (jsoncOriginal "\x7b\"a\":[1]\x7d".data).drop 8) = .ok (0, 8) := by
      rw [hT2]
      simp +decide [jsoncOriginal, jsoncRoot, skipL, skipLineL, skipBlockL,
        findCloseL, scanAux, scanCode, cleanSt, isWsJsonc, isQuoteC, squote]
    have hspan2 : findSpanAux "a".data 8 (0 + 1)
        (((jsoncOriginal "\x7b\"a\":[1]\x7d".data).take 5 ++
          ['\"', 'x', '\"'] ++
          (jsoncOriginal "\x7b\"a\":[1]\x7d".data).drop 8).drop (0 + 1)) =
        some (some (5, 5 + (['\"', 'x', '\"'] : List Char).length)) := by
      rw [hT2]
      simp +decide [jsoncOriginal, findSpanAux, skipL, skipLineL, skipBlockL,
        scanAux, scanCode, cleanSt, isWsJsonc, isQuoteC, squote, parseStringL,
        parseStrAux, parseIdentL, identSpan, isIdentChar, findValueEndL,
        findCloseL]
    have h2 := upsertTopLevel_replace.2.1 "\x7b\"a\":[1]\x7d".data "a".data
      (.jstr "x".data) 0 8 5 8 ['\"', 'x', '\"'] 0 8 hroot hspan hfmt
      (by decide) (by rw [hT2]; decide) hroot2 hspan2
    rw [hT2] at h2
    exact h2

/-- C2: when the root object is found and the property is absent, the upsert
output is exactly the bytes of the text before the root close brace, then the
inserted fragment, then the bytes from the close brace on — so every byte of
`T` outside the single insertion point is unchanged; and reading the property
back returns exactly the re-indented `JSON.stringify` of the value whenever
the rescan assigns the freshly inserted value the exact span it was written
to — which holds for delimited values but fails for primitive ones, whose
read-back keeps the trailing newline of the inserted line (see the
counterexample). -/
theorem upsertTopLevel_insert_preserves :
    (∀ (text name : List Char) (v : JSVal) (ro rc : Nat)
        (fmt comma : List Char),
      jsoncRoot (jsoncOriginal text) = .ok (ro, rc) →
      findSpanAux name rc (ro + 1) ((jsoncOriginal text).drop (ro + 1)) =
        some none →
      formatValueForProperty v = some fmt →
      comma = (if upsertLastSig (jsoncOriginal text) ro rc = some '{' ∨
          upsertLastSig (jsoncOriginal text) ro rc = some ',' then []
        else [',']) →
      upsertTopLevelJsoncProperty text name v =
        .ok ((jsoncOriginal text).take rc ++ insertTextFor name fmt comma ++
          (jsoncOriginal text).drop rc)) ∧
    (∀ (text name : List Char) (rc : Nat) (fmt comma : List Char)
        (vs2 ro2 rc2 : Nat),
      rc ≤ (jsoncOriginal text).length →
      vs2 = rc + comma.length +
        "\n  // TODO: windows support\n  ".data.length +
        (jsonQuote name).length + ": ".data.length →
      ((jsoncOriginal text).take rc ++ insertTextFor name fmt comma ++
        (jsoncOriginal text).drop rc) ≠ [] →
      jsoncRoot ((jsoncOriginal text).take rc ++ insertTextFor name fmt comma
        ++ (jsoncOriginal text).drop rc) = .ok (ro2, rc2) →
      findSpanAux name rc2 (ro2 + 1)
        (((jsoncOriginal text).take rc ++ insertTextFor name fmt comma ++
          (jsoncOriginal text).drop rc).drop (ro2 + 1)) =
        some (some (vs2, vs2 + fmt.length)) →
      getTopLevelJsoncPropertyValueText
        ((jsoncOriginal text).take rc ++ insertTextFor name fmt comma ++
          (jsoncOriginal text).drop rc) name = .ok (some fmt)) := by
  constructor
  · intro text name v ro rc fmt comma hroot hspan hfmt hcomma
    unfold upsertTopLevelJsoncProperty
    dsimp only
    rw [hroot]
    dsimp only
    rw [hspan]
    dsimp only
    rw [hfmt]
    dsimp only
    rw [hcomma]
  · intro text name rc fmt comma vs2 ro2 rc2 hrc hvs2 hne hroot2 hspan2
    have horig : jsoncOriginal ((jsoncOriginal text).take rc ++
        insertTextFor name fmt comma ++ (jsoncOriginal text).drop rc) =
        ((jsoncOriginal text).take rc ++ insertTextFor name fmt comma ++
          (jsoncOriginal text).drop rc) := by
      unfold jsoncOriginal
      rw [if_neg (by
        intro hc
        exact hne (List.length_eq_zero.mp hc))]
    unfold getTopLevelJsoncPropertyValueText
    rw [horig]
    dsimp only
    rw [hroot2]
    dsimp only
    rw [hspan2]
    dsimp only
    congr 2
    have hsplit : (jsoncOriginal text).take rc ++ insertTextFor name fmt comma
        ++ (jsoncOriginal text).drop rc =
        ((jsoncOriginal text).take rc ++ (comma ++
          ("\n  // TODO: windows support\n  ".data ++ (jsonQuote name ++
            ": ".data)))) ++
        (fmt ++ ('\n' :: (jsoncOriginal text).drop rc)) := by
      simp [insertTextFor, List.append_assoc]
    have hAlen : ((jsoncOriginal text).take rc ++ (comma ++
        ("\n  // TODO: windows support\n  ".data ++ (jsonQuote name ++
          ": ".data)))).length = vs2 := by
      rw [hvs2]
      simp [List.length_append, List.length_take]
      omega
    rw [hsplit, ← hAlen]
    exact slice_middle _ fmt _

/-- C2 counterexample: inserting the primitive `1` into `\x7b\x7d` and reading
it back yields `"1\n"` — the inserted line's trailing newline is part of the
primitive's value span — which differs from `JSON.stringify(1) = "1"` even
modulo re-indentation. -/
theorem upsert_insert_readback_newline :
    upsertTopLevelJsoncProperty "\x7b\x7d".data "a".data (.jnum 1) =
      .ok "\x7b\n  // TODO: windows support\n  \"a\": 1\n\x7d".data ∧
    getTopLevelJsoncPropertyValueText
      "\x7b\n  // TODO: windows support\n  \"a\": 1\n\x7d".data "a".data =
      .ok (some "1\n".data) ∧
    formatValueForProperty (.jnum 1) = some "1".data ∧
    "1\n".data ≠ "1".data := by
  refine ⟨?_, ?_, ?_, by decide⟩
  · simp +decide [upsertTopLevelJsoncProperty, jsoncOriginal, jsoncRoot,
      skipL, skipLineL, skipBlockL, findCloseL, scanAux, scanCode, cleanSt,
      isWsJsonc, isQuoteC, squote, findSpanAux, formatValueForProperty,
      replaceNL, strfV, upsertLastSig, hasAnyPropsL, stripLineC, dropToNl,
      stripBlockC, dropThruClose, trimChars, lastSigL, lastSigAux,
      insertTextFor, jsonQuote, jsEscapeChar, hexDigitL, isJsWs]
  · simp +decide [getTopLevelJsoncPropertyValueText, jsoncOriginal,
      jsoncRoot, skipL, skipLineL, skipBlockL, findCloseL, scanAux, scanCode,
      cleanSt, isWsJsonc, isQuoteC, squote, findSpanAux, parseStringL,
      parseStrAux, parseIdentL, identSpan, isIdentChar, findValueEndL]
  · simp +decide [formatValueForProperty, strfV, replaceNL]

/-- C2 witness: inserting the delimited string value `"x"` into `\x7b\x7d`
and reading it back returns exactly the formatted value. -/
theorem upsertTopLevel_insert_preserves_witness :
    upsertTopLevelJsoncProperty "\x7b\x7d".data "a".data (.jstr "x".data) =
      .ok "\x7b\n  // TODO: windows support\n  \"a\": \"x\"\n\x7d".data ∧
    getTopLevelJsoncPropertyValueText
      "\x7b\n  // TODO: windows support\n  \"a\": \"x\"\n\x7d".data "a".data =
      .ok (some ['\"', 'x', '\"']) := by
  have hroot : jsoncRoot (jsoncOriginal "\x7b\x7d".data) = .ok (0, 1) := by
    simp +decide [jsoncOriginal, jsoncRoot, skipL, skipLineL, skipBlockL,
      findCloseL, scanAux, scanCode, cleanSt, isWsJsonc, isQuoteC, squote]
  have hspan : findSpanAux "a".data 1 (0 + 1)
      ((jsoncOriginal "\x7b\x7d".data).drop (0 + 1)) = some none := by
    simp +decide [jsoncOriginal, findSpanAux, skipL, skipLineL, skipBlockL,
      scanAux, scanCode, cleanSt, isWsJsonc, isQuoteC, squote, parseStringL,
      parseStrAux, parseIdentL, identSpan, isIdentChar, findValueEndL,
      findCloseL]
  have hfmt : formatValueForProperty (.jstr "x".data) =
      some ['\"', 'x', '\"'] := by
    simp +decide [formatValueForProperty, strfV, replaceNL, jsonQuote,
      jsEscapeChar, hexDigitL]
  have hcomma : ([] : List Char) =
      (if upsertLastSig (jsoncOriginal "\x7b\x7d".data) 0 1 = some '{' ∨
          upsertLastSig (jsoncOriginal "\x7b\x7d".data) 0 1 = some ','
        then [] else [',']) := by
    simp +decide [jsoncOriginal, upsertLastSig, hasAnyPropsL, stripLineC,
      dropToNl, stripBlockC, dropThruClose, trimChars, lastSigL, lastSigAux,
      cleanSt, isWsJsonc, isQuoteC, squote, isJsWs]
  have hT2 : (jsoncOriginal "\x7b\x7d".data).take 1 ++
      insertTextFor "a".data ['\"', 'x', '\"'] [] ++
      (jsoncOriginal "\x7b\x7d".data).drop 1 =
      "\x7b\n  // TODO: windows support\n  \"a\": \"x\"\n\x7d".data := by
    decide
  constructor
  · have h1 := upsertTopLevel_insert_preserves.1 "\x7b\x7d".data "a".data
      (.jstr "x".data) 0 1 ['\"', 'x', '\"'] [] hroot hspan hfmt hcomma
    rw [hT2] at h1
    exact h1
  · have hroot2 : jsoncRoot ((jsoncOriginal "\x7b\x7d".data).take 1 ++
        insertTextFor "a".data ['\"', 'x', '\"'] [] ++
        (jsoncOriginal "\x7b\x7d".data).drop 1) = .ok (0, 40) := by
      rw [hT2]
      simp +decide [jsoncOriginal, jsoncRoot, skipL, skipLineL, skipBlockL,
        findCloseL, scanAux, scanCode, cleanSt, isWsJsonc, isQuoteC, squote]
    have hspan2 : findSpanAux "a".data 40 (0 + 1)
        (((jsoncOriginal "\x7b\x7d".data).take 1 ++
          insertTextFor "a".data ['\"', 'x', '\"'] [] ++
          (jsoncOriginal "\x7b\x7d".data).drop 1).drop (0 + 1)) =
        some (some (36, 36 + (['\"', 'x', '\"'] : List Char).length)) := by
      rw [hT2]
      simp +decide [jsoncOriginal, findSpanAux, skipL, skipLineL, skipBlockL,
        scanAux, scanCode, cleanSt, isWsJsonc, isQuoteC, squote, parseStringL,
        parseStrAux, parseIdentL, identSpan, isIdentChar, findValueEndL,
        findCloseL]
    have h2 := upsertTopLevel_insert_preserves.2 "\x7b\x7d".data "a".data 1
      ['\"', 'x', '\"'] [] 36 0 40 (by decide) (by decide)
      (by rw [hT2]; decide) hroot2 hspan2
    rw [hT2] at h2
    exact h2
